import Mathlib

/-!
# tux3: file map, synthetic leaf, attribute codec and buffer delta tags

A shallow embedding of parts of `user/kernel/filemap.c`, `user/tests/btree.c`,
`user/kernel/iattr.c` and `user/kernel/buffer.c`, with theorems about them.

Conventions of the embedding.

* C integers are natural numbers (or `Int` for `int` results that may be negative
  error codes); a reduction `% 2^w` is written where an operation on well-typed
  operands can leave the range of its C type.
* A `seg[]` array handed over through a pointer is a total function
  `Nat → block_segment`; a store to `seg[i]` is `Function.update`.
* Functions that can hit `assert`/`BUG_ON`/`test_assert`, or spin forever, return
  in `Except Fault`.
* Code that is called but lives outside the embedded files (the block allocator,
  the generic btree, cursors) is a field of the record `collab`; the transaction
  log, the deferred-free lists, the btree dirty mark, the tree lock and the cursor
  calls are recorded as `Event`s on a trace.
-/

set_option linter.unusedVariables false

namespace Tux3

/-! ## Common types -/

/-- Ways in which a run does not return: a failed `assert`/`BUG_ON`, a loop that
never leaves (the `cpu_relax()` loop of `tux3_bufdelta`), or a store through a NULL
pointer. -/
inductive Fault where
  | assertion
  | spin
  | null_store
deriving DecidableEq, Repr

/-- The `enum map_mode` of filemap.c. -/
inductive map_mode where
  | MAP_READ
  | MAP_WRITE
  | MAP_REDIRECT
deriving DecidableEq, Repr

/-- The `struct block_segment`: a physical extent `block/count` with a state. -/
structure block_segment where
  block : Nat
  count : Nat
  state : Nat
deriving DecidableEq, Repr

/-- Modelled from the spec: the segment state constant `BLOCK_SEG_HOLE` (its header is
not among the sources). The data model has the states Mapped, Hole and
NewlyAllocated; Mapped is state 0 in the code (`seg_state = ... : 0`), the other two
are distinct non-zero values. -/
def BLOCK_SEG_HOLE : Nat := 1

/-- Modelled from the spec: the segment state constant `BLOCK_SEG_NEW`, see
`BLOCK_SEG_HOLE`. -/
def BLOCK_SEG_NEW : Nat := 2

/-- The `struct root` of a btree, with the fields the embedded code reads and writes:
`direct`, `count`, `block` (filemap.c) and `depth`, `block` (iattr.c). -/
structure root where
  direct : Nat
  count : Nat
  block : Nat
  depth : Nat
deriving DecidableEq, Repr

/-- Modelled from the spec: the constant `no_root` (declared outside the sources):
"depth=0 means no tree"; every field is zero. -/
def no_root : root := { direct := 0, count := 0, block := 0, depth := 0 }

/-- Modelled from the spec: the predicate `has_root` (declared outside the sources):
the root is `{block, depth}` where "depth=0 means no tree" and "depth≥1 means a chain
of internal nodes above leaves". -/
def has_root (r : root) : Bool := r.depth != 0

/-- Modelled from the spec: the predicate `has_direct_extent` (declared outside the
sources): the root descriptor of a direct extent is `{direct=1, block, count}`. -/
def has_direct_extent (r : root) : Bool := r.direct != 0

/-- Constants declared in headers that are not among the sources. -/
structure Consts where
  MAX_DIRECT_COUNT : Nat
  TUXKEY_LIMIT : Nat
  TUX_BITMAP_INO : Nat
  TUX_COUNTMAP_INO : Nat

/-- The errno value `ENOMEM`. -/
def ENOMEM : Int := 12

/-- The errno value `ENOSPC`. -/
def ENOSPC : Int := 28

/-- Calls into collaborators whose effect is kept as a record on a trace. -/
inductive Event where
  | log_balloc (block count : Nat)
  | log_bfree (block count : Nat)
  | log_bfree_on_unify (block count : Nat)
  | defer_bfree_defree (block count : Nat)
  | defer_bfree_deunify (block count : Nat)
  | mark_btree_dirty
  | down_read
  | down_write
  | up_read
  | up_write
  | release_cursor
  | free_cursor
deriving DecidableEq, Repr

/-- The part of an inode that the file map works on: the root of its btree, its inode
number, the state `sb` of the collaborators (allocator, btree blocks, cursor), and
the trace of recorded calls. -/
structure fs (σ : Type) where
  root : root
  inum : Nat
  sb : σ
  trace : List Event

/-- Append one event to the trace. -/
def fs.emit {σ : Type} (s : fs σ) (e : Event) : fs σ :=
  { s with trace := s.trace ++ [e] }

/-- Store the segments `l` to `seg[at], seg[at+1], ...`. -/
def write_segs (seg : Nat → block_segment) (at_ : Nat) (l : List block_segment) :
    Nat → block_segment :=
  fun i => if h : at_ ≤ i ∧ i - at_ < l.length then l.get ⟨i - at_, h.2⟩ else seg i

/-- The `struct dleaf_req` (with its embedded key range), without the three callback
pointers, which are always `seg_find`, `seg_alloc` and `seg_free` of filemap.c. -/
structure dleaf_req where
  key_start : Nat
  key_len : Nat
  seg_cnt : Nat
  seg_idx : Nat
  seg_max : Nat
  seg : Nat → block_segment
  overwrite : Bool

/-- The collaborators of the file map that are not part of the embedded files.

* `balloc_find sb maxsegs len` (`maxsegs` is an `int`) gives the error code, the
  segments it stored to the caller's array (their number is what it stores to
  `*segs`), the length it left uncovered (what it stores to `*len`) and the
  allocator's new state.
* `balloc_use sb segs` gives the error code and the new state.
* the generic btree and cursor calls work on the whole `fs` state. `btree_write` is
  given the three callbacks of the request. -/
structure collab (σ : Type) where
  balloc_find : σ → Int → Nat → Int × List block_segment × Nat × σ
  balloc_use : σ → List block_segment → Int × σ
  btree_chop : Nat → Nat → fs σ → Int × fs σ
  btree_alloc_empty : fs σ → Int × fs σ
  alloc_cursor : fs σ → Bool × fs σ
  btree_probe : Nat → fs σ → Int × fs σ
  btree_read : dleaf_req → fs σ → Int × dleaf_req × fs σ
  btree_write :
    (dleaf_req → Int → Nat → fs σ → Except Fault (Int × dleaf_req × Option Nat × fs σ)) →
    (dleaf_req → Nat → fs σ → Int × dleaf_req × fs σ) →
    (Nat → Nat → fs σ → fs σ) →
    dleaf_req → fs σ → Except Fault (Int × dleaf_req × fs σ)
  release_cursor : σ → σ
  free_cursor : σ → σ

/-! ## filemap.c -/

/-- The function `map_bfree`: log the free and defer it, on the unify lists for the
bitmap and countmap inodes and on the delta lists for every other inode. -/
def map_bfree {σ : Type} (c : Consts) (s : fs σ) (block count : Nat) : Int × fs σ :=
  if s.inum = c.TUX_BITMAP_INO ∨ s.inum = c.TUX_COUNTMAP_INO then
    (0, (s.emit (Event.log_bfree_on_unify block count)).emit
          (Event.defer_bfree_deunify block count))
  else
    (0, (s.emit (Event.log_bfree block count)).emit
          (Event.defer_bfree_defree block count))

/-- The function `seg_free`. -/
def seg_free {σ : Type} (c : Consts) (block count : Nat) (s : fs σ) : fs σ :=
  (map_bfree c s block count).2

/-- The function `seg_find`. The result is the error code, the request, `*alloc_len`
(`none` when not stored) and the state. The difference `seg_len - len` is taken in
`unsigned` (32 bits). -/
def seg_find {σ : Type} (x : collab σ) (rq : dleaf_req) (space : Int) (seg_len : Nat)
    (s : fs σ) : Except Fault (Int × dleaf_req × Option Nat × fs σ) :=
  let maxsegs : Int := min space ((rq.seg_max : Int) - (rq.seg_idx : Int))
  let seg_state := if rq.overwrite then BLOCK_SEG_NEW else 0
  if rq.seg_idx ≠ rq.seg_cnt then Except.error Fault.assertion
  else
    match x.balloc_find s.sb maxsegs seg_len with
    | (err, found, len, sb1) =>
      let s1 : fs σ := { s with sb := sb1 }
      let seg1 := write_segs rq.seg rq.seg_idx found
      if err ≠ 0 then
        if err = -ENOSPC then Except.error Fault.assertion
        else Except.ok (err, { rq with seg := seg1 }, none, s1)
      else
        let seg2 : Nat → block_segment := fun i =>
          if rq.seg_idx ≤ i ∧ i < rq.seg_idx + found.length then
            { seg1 i with state := seg_state }
          else seg1 i
        Except.ok (0, { rq with seg := seg2, seg_cnt := rq.seg_idx + found.length },
          some ((seg_len + 2 ^ 32 - len) % 2 ^ 32), s1)

/-- The loop of `seg_alloc`: one `log_balloc` per segment, in order. -/
def log_balloc_segs {σ : Type} (s : fs σ) (l : List block_segment) : fs σ :=
  l.foldl (fun t g => t.emit (Event.log_balloc g.block g.count)) s

/-- The statement `rq->seg_cnt -= limit - seg` of `seg_alloc`, where `limit` is
`rq->seg + rq->seg_cnt` and `seg` has advanced to index `used`: a signed pointer
difference taken off an `int`. -/
def seg_cnt_drop (seg_cnt used : Nat) : Nat :=
  ((seg_cnt : Int) - ((seg_cnt : Int) - (used : Int))).toNat

/-- The function `seg_alloc`. -/
def seg_alloc {σ : Type} (x : collab σ) (rq : dleaf_req) (new_cnt : Nat)
    (s : fs σ) : Int × dleaf_req × fs σ :=
  let segs := (List.range new_cnt).map fun i => rq.seg (rq.seg_idx + i)
  if new_cnt ≠ 0 then
    match x.balloc_use s.sb segs with
    | (err, sb1) =>
      let s1 : fs σ := { s with sb := sb1 }
      if err ≠ 0 then (err, rq, s1)
      else
        (0, { rq with seg_cnt := seg_cnt_drop rq.seg_cnt (rq.seg_idx + new_cnt) },
          log_balloc_segs s1 segs)
  else
    (0, { rq with seg_cnt := seg_cnt_drop rq.seg_cnt rq.seg_idx }, s)

/-- The function `seg_alloc_one`: find one segment for `count` blocks and take it. The
argument `start` is not used by the code. -/
def seg_alloc_one {σ : Type} (x : collab σ) (s : fs σ) (start count : Nat)
    (seg : Nat → block_segment) :
    Except Fault (Int × (Nat → block_segment) × fs σ) :=
  match x.balloc_find s.sb 1 count with
  | (err, found, need, sb1) =>
    let s1 : fs σ := { s with sb := sb1 }
    let seg1 := write_segs seg 0 found
    if err ≠ 0 then Except.ok (err, seg1, s1)
    else if need ≠ 0 then Except.ok (0, seg1, s1)
    else if found.length ≠ 1 then Except.error Fault.assertion
    else
      match x.balloc_use s1.sb [seg1 0] with
      | (err2, sb2) =>
        let s2 : fs σ := { s1 with sb := sb2 }
        if err2 ≠ 0 then Except.ok (err2, seg1, s2)
        else Except.ok ((found.length : Int), seg1, s2)

/-- The function `dtree_chop`. The sum `block + start` is taken in `block_t`
(64 bits); `count - start` is taken where `start < count`. -/
def dtree_chop {σ : Type} (c : Consts) (x : collab σ) (s : fs σ) (start len : Nat) :
    Except Fault (Int × fs σ) :=
  if has_direct_extent s.root then
    let block := s.root.block
    let count := s.root.count
    if len ≠ c.TUXKEY_LIMIT then Except.error Fault.assertion
    else if start < count then
      let s1 : fs σ :=
        if start = 0 then { s with root := no_root }
        else { s with root := { s.root with count := start } }
      let s2 := s1.emit Event.mark_btree_dirty
      Except.ok (0, seg_free c ((block + start) % 2 ^ 64) (count - start) s2)
    else Except.ok (0, s)
  else
    Except.ok (x.btree_chop start len s)

/-- The function `map_direct`. The result is the return value (negative: error, 0:
fall back to the btree, positive: number of segments stored), the `seg[]` array and
the state. The sum `root.block + start` is taken in `block_t` (64 bits); the other
sums and differences of the read branch are taken where `start < root.count`, a
32-bit count, and stay in range. -/
def map_direct {σ : Type} (c : Consts) (x : collab σ) (s : fs σ) (start count : Nat)
    (seg : Nat → block_segment) (seg_max : Nat) (mode : map_mode) :
    Except Fault (Int × (Nat → block_segment) × fs σ) :=
  if mode = map_mode.MAP_READ then
    if start < s.root.count then
      let direct_count := s.root.count
      let seg1 := Function.update seg 0
        { block := (s.root.block + start) % 2 ^ 64, count := count, state := 0 }
      if start + count > direct_count then
        let seg2 := Function.update seg1 0 { seg1 0 with count := direct_count - start }
        if seg_max ≤ 1 then Except.ok (1, seg2, s)
        else
          Except.ok (2, Function.update seg2 1
            { block := 0, count := start + count - direct_count,
              state := BLOCK_SEG_HOLE }, s)
      else Except.ok (1, seg1, s)
    else Except.ok (0, seg, s)
  else
    if mode = map_mode.MAP_WRITE then Except.ok (0, seg, s)
    else if start ≠ 0 ∨ count > c.MAX_DIRECT_COUNT then Except.ok (0, seg, s)
    else if count < s.root.count then Except.ok (0, seg, s)
    else
      match seg_alloc_one x s start count seg with
      | Except.error f => Except.error f
      | Except.ok (segs, seg1, s1) =>
        if segs ≤ 0 then Except.ok (segs, seg1, s1)
        else
          let s2 := s1.emit (Event.log_balloc (seg1 0).block (seg1 0).count)
          let s3 := if s2.root.count ≠ 0 then seg_free c s2.root.block s2.root.count s2
                    else s2
          let s4 : fs σ :=
            { s3 with root := { direct := 1, count := (seg1 0).count,
                                block := (seg1 0).block, depth := 0 } }
          Except.ok (segs, seg1, s4.emit Event.mark_btree_dirty)

/-- The lock taken by `filemap2`: none for the bitmap inode, else the read lock
for `MAP_READ` and the write lock otherwise. -/
def filemap2_lock {σ : Type} (c : Consts) (mode : map_mode) (s : fs σ) : fs σ :=
  if s.inum ≠ c.TUX_BITMAP_INO then
    if mode = map_mode.MAP_READ then s.emit Event.down_read else s.emit Event.down_write
  else s

/-- The label `out_unlock` of `filemap2`: release the lock, free the cursor if there
is one, return `segs`. -/
def filemap2_out_unlock {σ : Type} (c : Consts) (x : collab σ) (mode : map_mode)
    (cursor : Bool) (segs : Int) (seg : Nat → block_segment) (s : fs σ) :
    Except Fault (Int × (Nat → block_segment) × fs σ) :=
  let s1 :=
    if s.inum ≠ c.TUX_BITMAP_INO then
      if mode = map_mode.MAP_READ then s.emit Event.up_read else s.emit Event.up_write
    else s
  let s2 : fs σ :=
    if cursor then ({ s1 with sb := x.free_cursor s1.sb }).emit Event.free_cursor else s1
  Except.ok (segs, seg, s2)

/-- The tail of `filemap2` from `if (cursor) release_cursor(cursor);` on. -/
def filemap2_release {σ : Type} (c : Consts) (x : collab σ) (mode : map_mode)
    (cursor : Bool) (segs : Int) (seg : Nat → block_segment) (s : fs σ) :
    Except Fault (Int × (Nat → block_segment) × fs σ) :=
  let s1 : fs σ :=
    if cursor then ({ s with sb := x.release_cursor s.sb }).emit Event.release_cursor
    else s
  filemap2_out_unlock c x mode cursor segs seg s1

/-- The `struct dleaf_req rq` that the write branch of `filemap2` initialises for
`btree_write`; the fields it does not name are zero. -/
def filemap2_write_rq (start count : Nat) (seg : Nat → block_segment) (seg_max : Nat)
    (mode : map_mode) : dleaf_req :=
  { key_start := start, key_len := count, seg_cnt := 0, seg_idx := 0,
    seg_max := seg_max, seg := seg,
    overwrite := decide (mode ≠ map_mode.MAP_REDIRECT) }

/-- The part of `filemap2` after the cursor has been set up (`cursor` tells whether it
is non-NULL): read or write through the btree, or report a hole for a read of a tree
without root. -/
def filemap2_map {σ : Type} (c : Consts) (x : collab σ) (s : fs σ) (start count : Nat)
    (seg : Nat → block_segment) (seg_max : Nat) (mode : map_mode) (cursor : Bool) :
    Except Fault (Int × (Nat → block_segment) × fs σ) :=
  if mode = map_mode.MAP_READ then
    if has_root s.root then
      let rq : dleaf_req :=
        { key_start := start, key_len := count, seg_cnt := 0, seg_idx := 0,
          seg_max := seg_max, seg := seg, overwrite := false }
      match x.btree_read rq s with
      | (err, rq1, s1) =>
        if err ≠ 0 then filemap2_out_unlock c x mode cursor err rq1.seg s1
        else if rq1.seg_cnt = 0 then Except.error Fault.assertion
        else filemap2_release c x mode cursor (rq1.seg_cnt : Int) rq1.seg s1
    else
      let seg1 := Function.update seg 0
        { block := 0, count := count, state := BLOCK_SEG_HOLE }
      filemap2_release c x mode cursor 1 seg1 s
  else
    let rq : dleaf_req := filemap2_write_rq start count seg seg_max mode
    match x.btree_write (fun r space len t => seg_find x r space len t)
        (fun r n t => seg_alloc x r n t) (fun b n t => seg_free c b n t) rq s with
    | Except.error f => Except.error f
    | Except.ok (err, rq1, s1) =>
      if err ≠ 0 then filemap2_release c x mode cursor err rq1.seg s1
      else filemap2_release c x mode cursor (rq1.seg_cnt : Int) rq1.seg s1

/-- The part of `filemap2` from `if (has_root(btree))` on: allocate the cursor and
probe when there is a root, then map. -/
def filemap2_probe {σ : Type} (c : Consts) (x : collab σ) (s : fs σ) (start count : Nat)
    (seg : Nat → block_segment) (seg_max : Nat) (mode : map_mode) :
    Except Fault (Int × (Nat → block_segment) × fs σ) :=
  if has_root s.root then
    match x.alloc_cursor s with
    | (got, s1) =>
      if !got then filemap2_out_unlock c x mode false (-ENOMEM) seg s1
      else
        match x.btree_probe start s1 with
        | (err, s2) =>
          if err ≠ 0 then filemap2_out_unlock c x mode true err seg s2
          else filemap2_map c x s2 start count seg seg_max mode true
  else filemap2_map c x s start count seg seg_max mode false

/-- The function `filemap2`. -/
def filemap2 {σ : Type} (c : Consts) (x : collab σ) (s : fs σ) (start count : Nat)
    (seg : Nat → block_segment) (seg_max : Nat) (mode : map_mode) :
    Except Fault (Int × (Nat → block_segment) × fs σ) :=
  if seg_max = 0 then Except.error Fault.assertion
  else
    let s0 := filemap2_lock c mode s
    if !has_root s0.root then
      match map_direct c x s0 start count seg seg_max mode with
      | Except.error f => Except.error f
      | Except.ok (segs, seg1, s1) =>
        if segs ≠ 0 then filemap2_out_unlock c x mode false segs seg1 s1
        else if mode ≠ map_mode.MAP_READ then
          match x.btree_alloc_empty s1 with
          | (err, s2) =>
            if err ≠ 0 then filemap2_out_unlock c x mode false err seg1 s2
            else filemap2_probe c x s2 start count seg1 seg_max mode
        else filemap2_probe c x s1 start count seg1 seg_max mode
    else filemap2_probe c x s0 start count seg seg_max mode

/-- The events of the tree lock `btree->lock`. -/
def Event.is_lock : Event → Bool
  | Event.down_read => true
  | Event.down_write => true
  | Event.up_read => true
  | Event.up_write => true
  | _ => false

/-- The events of the cursor's end of life. -/
def Event.is_cursor : Event → Bool
  | Event.release_cursor => true
  | Event.free_cursor => true
  | _ => false

/-- From state `s` to state `t` the inode number stayed, the trace only grew, and
the lock events among the new ones are exactly `locks`, in this order. -/
def lock_trace {σ : Type} (s t : fs σ) (locks : List Event) : Prop :=
  t.inum = s.inum ∧ ∃ new, t.trace = s.trace ++ new ∧ new.filter Event.is_lock = locks

/-- The generic btree and cursor calls that `filemap2` makes do not touch the tree
lock of the inode, nor its number: the lock is taken and released by `filemap2`
alone. `btree_write` is met with the callbacks that `filemap2` hands to it. -/
def collab_lock_neutral {σ : Type} (c : Consts) (x : collab σ) : Prop :=
  (∀ s, lock_trace s (x.btree_alloc_empty s).2 []) ∧
  (∀ s, lock_trace s (x.alloc_cursor s).2 []) ∧
  (∀ k s, lock_trace s (x.btree_probe k s).2 []) ∧
  (∀ rq s, lock_trace s (x.btree_read rq s).2.2 []) ∧
  (∀ rq s err rq1 s1,
    x.btree_write (fun r space len t => seg_find x r space len t)
        (fun r n t => seg_alloc x r n t) (fun b n t => seg_free c b n t) rq s
      = Except.ok (err, rq1, s1) →
    lock_trace s s1 [])

/-- The lock event at the head of `filemap2` on the inode with number `inum`: none
for the bitmap inode, else `down_read` for `MAP_READ` and `down_write` otherwise. -/
def filemap2_down_events (c : Consts) (inum : Nat) (mode : map_mode) : List Event :=
  if inum = c.TUX_BITMAP_INO then []
  else if mode = map_mode.MAP_READ then [Event.down_read] else [Event.down_write]

/-- The lock event at the label `out_unlock` of `filemap2`: none for the bitmap
inode, else `up_read` for `MAP_READ` and `up_write` otherwise. -/
def filemap2_up_events (c : Consts) (inum : Nat) (mode : map_mode) : List Event :=
  if inum = c.TUX_BITMAP_INO then []
  else if mode = map_mode.MAP_READ then [Event.up_read] else [Event.up_write]

/-! ## An allocator and collaborators for concrete runs -/

/-- A bump allocator: the state is the next free block; `balloc_find` covers the
whole length with one segment (none when `maxsegs` is not positive or the length is 0). -/
def bump_collab : collab Nat where
  balloc_find := fun sb maxsegs len =>
    if maxsegs ≤ 0 ∨ len = 0 then (0, [], len, sb)
    else (0, [{ block := sb, count := len, state := 0 }], 0, sb)
  balloc_use := fun sb segs => (0, sb + (segs.map fun g => g.count).sum)
  btree_chop := fun _ _ s => (0, s)
  btree_alloc_empty := fun s => (0, { s with root := { s.root with depth := 1 } })
  alloc_cursor := fun s => (true, s)
  btree_probe := fun _ s => (0, s)
  btree_read := fun rq s => (0, rq, s)
  btree_write := fun _ _ _ rq s => Except.ok (0, rq, s)
  release_cursor := fun sb => sb
  free_cursor := fun sb => sb

/-- Constants for concrete runs. -/
def test_consts : Consts :=
  { MAX_DIRECT_COUNT := 64, TUXKEY_LIMIT := 2 ^ 48, TUX_BITMAP_INO := 0,
    TUX_COUNTMAP_INO := 1 }

/-- A `seg[]` array of zeroed segments. -/
def seg_zero : Nat → block_segment := fun _ => { block := 0, count := 0, state := 0 }

/-- An inode (number 64) without root and without direct extent; the allocator's
next free block is 100. -/
def fs_empty : fs Nat := { root := no_root, inum := 64, sb := 100, trace := [] }

/-- An inode (number 64) holding the direct extent of 8 blocks at block 40. -/
def fs_direct : fs Nat :=
  { root := { direct := 1, count := 8, block := 40, depth := 0 }, inum := 64, sb := 100,
    trace := [] }

/-- The inode `fs_empty` after a redirect of 8 blocks served by the bump allocator:
the direct extent of 8 blocks at block 100. -/
def fs_redirected : fs Nat :=
  { root := { direct := 1, count := 8, block := 100, depth := 0 }, inum := 64, sb := 108,
    trace := [Event.log_balloc 100 8, Event.mark_btree_dirty] }

/-- The events that one call `seg_free(btree, block, count)` records, for the inode
with number `inum`. -/
def free_events (c : Consts) (inum block count : Nat) : List Event :=
  if inum = c.TUX_BITMAP_INO ∨ inum = c.TUX_COUNTMAP_INO then
    [Event.log_bfree_on_unify block count, Event.defer_bfree_deunify block count]
  else [Event.log_bfree block count, Event.defer_bfree_defree block count]

/-- The errno value `EINVAL`. -/
def EINVAL : Int := 22

/-- The bump allocator out of space: `balloc_find` stores no segment and fails with
`-ENOSPC`. -/
def enospc_collab : collab Nat :=
  { bump_collab with balloc_find := fun sb _ len => (-ENOSPC, [], len, sb) }

/-- The bump allocator with short segments: `balloc_find` stores one segment of at
most 4 blocks and leaves the rest of the length uncovered. -/
def short_collab : collab Nat :=
  { bump_collab with
    balloc_find := fun sb maxsegs len =>
      if maxsegs ≤ 0 ∨ len = 0 then (0, [], len, sb)
      else (0, [{ block := sb, count := min len 4, state := 0 }], len - min len 4, sb) }

/-- Collaborators whose `btree_read` fails with `-EINVAL`. -/
def read_error_collab : collab Nat :=
  { bump_collab with btree_read := fun rq s => (-EINVAL, rq, s) }

/-- Collaborators whose `btree_write` fails with `-EINVAL`. -/
def write_error_collab : collab Nat :=
  { bump_collab with btree_write := fun _ _ _ rq s => Except.ok (-EINVAL, rq, s) }

/-- An inode (number 64) whose btree has a root of depth 1 at block 7. -/
def fs_tree : fs Nat :=
  { root := { direct := 0, count := 0, block := 7, depth := 1 }, inum := 64, sb := 100,
    trace := [] }

/-- A request with room for four segments, two of them in use, before a call of
`seg_find`. -/
def rq_two : dleaf_req :=
  { key_start := 0, key_len := 8, seg_cnt := 2, seg_idx := 2, seg_max := 4,
    seg := fun i => { block := 10 * i, count := 1, state := 7 }, overwrite := true }

/-- A request with four segments found, the first of them in use, before a call of
`seg_alloc`. -/
def rq_found : dleaf_req :=
  { key_start := 0, key_len := 8, seg_cnt := 4, seg_idx := 1, seg_max := 4,
    seg := fun i => { block := 10 * i, count := i + 1, state := 0 }, overwrite := true }

/-! ## tests/btree.c: the synthetic leaf -/

/-- The `struct uentry { u16 key, val; }`. -/
structure uentry where
  key : Nat
  val : Nat
deriving DecidableEq, Repr

/-- The `struct uleaf { u32 magic, count; struct uentry entries[]; }`. The list
`entries` holds the `count` valid slots `entries[0] .. entries[count - 1]` of the
array, so `count` is its length; slots from `count` on are never read by the code
before it has written them. -/
structure uleaf where
  magic : Nat
  entries : List uentry
deriving DecidableEq, Repr

/-- The field `count` of a leaf. -/
def uleaf.count (leaf : uleaf) : Nat := leaf.entries.length

/-- The function `uleaf_init`. -/
def uleaf_init : uleaf := { magic := 0xc0de, entries := [] }

/-- The function `uleaf_free`: the number of free slots, a `u32` subtraction. -/
def uleaf_free (entries_per_leaf : Nat) (leaf : uleaf) : Nat :=
  (entries_per_leaf + 2 ^ 32 - leaf.count) % 2 ^ 32

/-- The function `uleaf_sniff`. -/
def uleaf_sniff (leaf : uleaf) : Bool := leaf.magic == 0xc0de

/-- The loop of `uleaf_seek`, started at index `at_` with the entries from that index
on: advance while the entry's key is below `key`. -/
def uleaf_seek_loop (key : Nat) : List uentry → Nat → Nat
  | [], at_ => at_
  | e :: rest, at_ => if e.key < key then uleaf_seek_loop key rest (at_ + 1) else at_

/-- The function `uleaf_seek`: the index of the first entry whose key is not below
`key`, or `count`. -/
def uleaf_seek (key : Nat) (leaf : uleaf) : Nat := uleaf_seek_loop key leaf.entries 0

/-- The call `vecmove(entries + dst, entries + src, cnt)` (a `memmove` of whole
entries) on the valid slots of an array: slots `dst .. dst + cnt - 1` receive the old
slots `src .. src + cnt - 1`. -/
def vecmove (entries : List uentry) (dst src cnt : Nat) : List uentry :=
  entries.take dst ++ (entries.drop src).take cnt ++ entries.drop (dst + cnt)

/-- The function `uleaf_chop`. The sum `start + len` is taken in `tuxkey_t`
(64 bits). -/
def uleaf_chop (c : Consts) (start len : Nat) (leaf : uleaf) : Int × uleaf :=
  let stop := if len ≥ c.TUXKEY_LIMIT then c.TUXKEY_LIMIT else (start + len) % 2 ^ 64
  let start_at := uleaf_seek start leaf
  let stop_at := uleaf_seek stop leaf
  let count := leaf.count - stop_at
  (1, { leaf with
        entries := (vecmove leaf.entries start_at stop_at count).take (start_at + count) })

/-- The function `uleaf_resize`: a failed `test_assert(uleaf_sniff(...))` is an
assertion fault; otherwise `none` for NULL, else the index `at` of the slot it
returns and the leaf, in which a slot has been opened at `at` unless the key was
there already. The opened slot holds what the `vecmove` left in it (the caller
stores to it at once); when it is the slot just behind the old entries, which the
list does not hold, it is shown as a zero entry. -/
def uleaf_resize (entries_per_leaf : Nat) (key : Nat) (leaf : uleaf) (one : Nat) :
    Except Fault (Option (Nat × uleaf)) :=
  if uleaf_sniff leaf = false then Except.error Fault.assertion
  else
    let at_ := uleaf_seek key leaf
    if at_ < leaf.count ∧ (leaf.entries.getD at_ ⟨0, 0⟩).key = key then
      Except.ok (some (at_, leaf))
    else if uleaf_free entries_per_leaf leaf < one then Except.ok none
    else
      let grown := leaf.entries ++ List.replicate one ⟨0, 0⟩
      Except.ok (some (at_, { leaf with
        entries := (vecmove grown (at_ + one) at_ (leaf.count - at_)).take (leaf.count + one) }))

/-- The function `uleaf_insert`: 1 when the leaf must be split first, else 0 with
the entry stored (key and value cut to the `u16` fields). The `test_assert(entry)`
behind the NULL test cannot fail. -/
def uleaf_insert (entries_per_leaf : Nat) (leaf : uleaf) (key val : Nat) :
    Except Fault (Int × uleaf) :=
  match uleaf_resize entries_per_leaf key leaf 1 with
  | Except.error f => Except.error f
  | Except.ok none => Except.ok (1, leaf)
  | Except.ok (some (at_, leaf1)) =>
    Except.ok (0, { leaf1 with
          entries := leaf1.entries.set at_ { key := key % 2 ^ 16, val := val % 2 ^ 16 } })

/-- The function `uleaf_split`: the returned key, the leaf `from` and the leaf
`into`. A failed `test_assert(uleaf_sniff(...))` is an assertion fault. What `into`
held is overwritten (`uleaf_init`, then the `veccopy` of the tail and its count). -/
def uleaf_split (hint : Nat) (from_ into : uleaf) : Except Fault (Nat × uleaf × uleaf) :=
  if uleaf_sniff from_ = false then Except.error Fault.assertion
  else
    let at_ :=
      if from_.count ≠ 0 ∧ hint > (from_.entries.getD (from_.count - 1) ⟨0, 0⟩).key then
        from_.count
      else from_.count / 2
    let tail := from_.count - at_
    let into1 : uleaf := { uleaf_init with entries := (from_.entries.drop at_).take tail }
    let from1 : uleaf := { from_ with entries := from_.entries.take at_ }
    Except.ok (if tail ≠ 0 then (into1.entries.getD 0 ⟨0, 0⟩).key else hint, from1, into1)

/-- The function `uleaf_merge`: the result, the leaf `into` and the leaf `from`. The
sum of the two counts is taken in `u32`; the `vecmove` puts the entries of `from`
behind those of `into`. -/
def uleaf_merge (entries_per_leaf : Nat) (into from_ : uleaf) : Int × uleaf × uleaf :=
  if (into.count + from_.count) % 2 ^ 32 > entries_per_leaf then (0, into, from_)
  else (1, { into with entries := into.entries ++ from_.entries.take from_.count }, from_)

/-- The `struct btree_key_range`: a key and a length. -/
structure btree_key_range where
  start : Nat
  len : Nat
deriving DecidableEq, Repr

/-- The `struct uleaf_req`: the key range and the value to store. -/
structure uleaf_req where
  key : btree_key_range
  val : Nat
deriving DecidableEq, Repr

/-- Modelled from the spec: the results of a leaf's `write` (declared outside the
sources), "RETRY to continue on the next leaf or SPLIT when the current leaf is
full"; only that they differ matters. -/
inductive btree_do where
  | BTREE_DO_RETRY
  | BTREE_DO_SPLIT
deriving DecidableEq, Repr

/-- The function `uleaf_write`: the result, the leaf, the request and `*split_hint`.
The key passes to `uleaf_insert` as an `unsigned` (32 bits); `key->start++` is taken
in `tuxkey_t` (64 bits); `key->len--` runs where `key->len == 1` and is taken as an
unsigned 32-bit decrement. -/
def uleaf_write (entries_per_leaf : Nat) (key_bottom key_limit : Nat) (leaf : uleaf)
    (rq : uleaf_req) (split_hint : Nat) :
    Except Fault (btree_do × uleaf × uleaf_req × Nat) :=
  if rq.key.len ≠ 1 then Except.error Fault.assertion
  else
    match uleaf_insert entries_per_leaf leaf (rq.key.start % 2 ^ 32) rq.val with
    | Except.error f => Except.error f
    | Except.ok (ret, leaf1) =>
      if ret = 0 then
        Except.ok (btree_do.BTREE_DO_RETRY, leaf1,
          { rq with key := { start := (rq.key.start + 1) % 2 ^ 64,
                             len := (rq.key.len + 2 ^ 32 - 1) % 2 ^ 32 } },
          split_hint)
      else Except.ok (btree_do.BTREE_DO_SPLIT, leaf1, rq, rq.key.start)

/-- The function `uleaf_lookup`: the first entry with the key, `none` for NULL. -/
def uleaf_lookup (leaf : uleaf) (key : Nat) : Option uentry :=
  leaf.entries.find? fun e => e.key == key

/-- Keys strictly increasing along the leaf. -/
def uleaf_sorted (leaf : uleaf) : Prop :=
  leaf.entries.Pairwise fun a b => a.key < b.key

instance (leaf : uleaf) : Decidable (uleaf_sorted leaf) := by
  unfold uleaf_sorted; infer_instance

/-- Every key and value of the leaf fits its `u16` field. -/
def uleaf_typed (leaf : uleaf) : Prop :=
  ∀ e ∈ leaf.entries, e.key < 2 ^ 16 ∧ e.val < 2 ^ 16

instance (leaf : uleaf) : Decidable (uleaf_typed leaf) := by
  unfold uleaf_typed; infer_instance

/-- The leaf of `test01` after its seven inserts: keys 0..6 with values
`key + 0x100`. -/
def leaf_test01 : uleaf :=
  { magic := 0xc0de,
    entries := [⟨0, 0x100⟩, ⟨1, 0x101⟩, ⟨2, 0x102⟩, ⟨3, 0x103⟩, ⟨4, 0x104⟩, ⟨5, 0x105⟩,
      ⟨6, 0x106⟩] }

/-- A leaf holding the one key 5. -/
def leaf_five : uleaf := { magic := 0xc0de, entries := [⟨5, 0x105⟩] }

/-- A leaf whose keys are not in increasing order: key 5, then key 3 (what
`uleaf_insert` of the key `2^16 + 3` makes of `leaf_five`). -/
def leaf_unsorted : uleaf := { magic := 0xc0de, entries := [⟨5, 0x105⟩, ⟨3, 0x103⟩] }

/-- A request to write key 3 with value 0x103. -/
def rq_three : uleaf_req := { key := { start := 3, len := 1 }, val := 0x103 }

/-- A request to write key `2^16 + 3`, which does not fit the `u16` key field, with
value 0x103. -/
def rq_wide : uleaf_req := { key := { start := 2 ^ 16 + 3, len := 1 }, val := 0x103 }

/-! ## iattr.c: the btree root attribute -/

/-- Modelled from the spec: the helpers `encode16/32/48/64` (declared outside the
sources) store an integer "big-endian": `encode_be n v` is the `n` bytes of `v`, the
most significant first. -/
def encode_be : Nat → Nat → List Nat
  | 0, _ => []
  | n + 1, v => (v / 2 ^ (8 * n)) % 256 :: encode_be n v

/-- Modelled from the spec: the helpers `decode16/32/48/64` (declared outside the
sources) read a big-endian integer: the value of a byte string, the most significant
byte first. -/
def decode_be (bytes : List Nat) : Nat :=
  bytes.foldl (fun acc b => acc * 256 + b) 0

/-- The bytes that `encode64(attrs, val)` stores. -/
def encode64 (val : Nat) : List Nat := encode_be 8 val

/-- The value that `decode64(attrs, &val)` reads from the 8 bytes at `attrs`. -/
def decode64 (attrs : List Nat) : Nat := decode_be (attrs.take 8)

/-- The word that the case `DATA_BTREE_ATTR` of `encode_attrs` hands to `encode64`:
`((u64)root->depth << 48) | root->block`. -/
def data_btree_word (r : root) : Nat :=
  ((((r.depth % 2 ^ 64) <<< 48) % 2 ^ 64) ||| r.block) % 2 ^ 64

/-- The body of the case `DATA_BTREE_ATTR` of `encode_attrs`: the bytes stored for the
root. -/
def encode_attrs_data_btree (r : root) : List Nat := encode64 (data_btree_word r)

/-- The root that the case `DATA_BTREE_ATTR` of `decode_attrs` builds from the word it
has read: `{ .block = v64 & (-1ULL >> 16), .depth = v64 >> 48 }`, every other field
zero. -/
def data_btree_root (v64 : Nat) : root :=
  { block := v64 &&& ((2 ^ 64 - 1) >>> 16), depth := v64 >>> 48, direct := 0, count := 0 }

/-- The body of the case `DATA_BTREE_ATTR` of `decode_attrs`: read the word, build the
root. -/
def decode_attrs_data_btree (attrs : List Nat) : root := data_btree_root (decode64 attrs)

/-! ## iattr.c: the attribute codec -/

/-- What iattr.c takes from headers that are not among the sources: the attribute
kinds of `enum atkind` with its bounds `MIN_ATTR`, `VAR_ATTRS` and `MAX_ATTRS`, the
constants `MTIME_BIT` and `TIME_ATTR_SHIFT`, the time conversions `tuxtime` and
`spectime` (a `struct timespec` is held as a number), and of the extended attribute
cache: `sizeof(struct xattr)`, the offset of `xattrs` in `struct xcache` and the
width in bits of the field `size` of `struct xattr`. -/
structure AttrEnv where
  MIN_ATTR : Nat
  VAR_ATTRS : Nat
  MAX_ATTRS : Nat
  MODE_OWNER_ATTR : Nat
  CTIME_SIZE_ATTR : Nat
  DATA_BTREE_ATTR : Nat
  LINK_COUNT_ATTR : Nat
  MTIME_ATTR : Nat
  IDATA_ATTR : Nat
  XATTR_ATTR : Nat
  MTIME_BIT : Nat
  TIME_ATTR_SHIFT : Nat
  tuxtime : Nat → Nat
  spectime : Nat → Nat
  sizeof_xattr : Nat
  xattrs_offset : Nat
  xattr_size_bits : Nat

/-- The table `atsize[MAX_ATTRS]`: the size of the body of each kind, 0 for the kinds
that the initialiser does not name. Of two designated initialisers for one index the
later one counts. -/
def atsize (k : AttrEnv) (kind : Nat) : Nat :=
  if kind = k.XATTR_ATTR then 4
  else if kind = k.IDATA_ATTR then 2
  else if kind = k.MTIME_ATTR then 6
  else if kind = k.LINK_COUNT_ATTR then 4
  else if kind = k.DATA_BTREE_ATTR then 8
  else if kind = k.CTIME_SIZE_ATTR then 14
  else if kind = k.MODE_OWNER_ATTR then 12
  else 0

/-- The kinds that the loops of `encode_asize` and `encode_attrs` run through:
`for (kind = MIN_ATTR; kind < VAR_ATTRS; kind++)`. -/
def fixed_kinds (k : AttrEnv) : List Nat :=
  List.range' k.MIN_ATTR (k.VAR_ATTRS - k.MIN_ATTR)

/-- The function `encode_asize`. Each of the kinds (at most 32, the bits of `bits`)
adds at most 16, so the `unsigned` sum does not overflow. -/
def encode_asize (k : AttrEnv) (bits : Nat) : Nat :=
  (fixed_kinds k).foldl
    (fun need kind => if bits.testBit kind then need + (atsize k kind + 2) else need) 0

/-- The loop of `attr_check` from the offset `pos` of `attrs` in the buffer, for at
most `fuel` rounds; every round reads the two bytes of a head, so `size` rounds are
never used up (the result `Fault.spin` for that is not reached). The comparisons with
`limit - 1` and `limit` are comparisons of offsets. -/
def attr_check_loop (k : AttrEnv) (mem : List Nat) (size : Nat) : Nat → Nat → Except Fault Int
  | 0, pos => if (pos : Int) < (size : Int) - 1 then Except.error Fault.spin else Except.ok 1
  | fuel + 1, pos =>
    if (pos : Int) < (size : Int) - 1 then
      let head := decode_be ((mem.drop pos).take 2)
      let kind := head >>> 12
      if kind < k.MIN_ATTR ∨ kind ≥ k.MAX_ATTRS then Except.ok 0
      else if pos + 2 + atsize k kind > size then Except.ok 0
      else attr_check_loop k mem size fuel (pos + 2 + atsize k kind)
    else Except.ok 1

/-- The function `attr_check` on the buffer of `size` bytes at `attrs`; `mem` lists
the bytes of memory from `attrs` on. -/
def attr_check (k : AttrEnv) (mem : List Nat) (size : Nat) : Except Fault Int :=
  attr_check_loop k mem size size 0

/-- The bytes that `encode16(attrs, val)` stores. -/
def encode16 (val : Nat) : List Nat := encode_be 2 val

/-- The bytes that `encode32(attrs, val)` stores. -/
def encode32 (val : Nat) : List Nat := encode_be 4 val

/-- The bytes that `encode48(attrs, val)` stores. -/
def encode48 (val : Nat) : List Nat := encode_be 6 val

/-- Modelled from the spec: `encode_kind` (declared outside the sources) stores the
16-bit head of an attribute, "kind+version:16" in the words of the format comment of
iattr.c: the kind in the 4 bits above the 12 bits of the version, as `attr_check` and
`decode_attrs` take it apart (`head >> 12`, `head & 0xfff`). -/
def encode_kind (kind version : Nat) : List Nat := encode16 ((kind <<< 12) ||| version)

/-- A `struct xattr`, as far as `decode_attrs` fills it. -/
structure xattr where
  atom : Nat
  size : Nat
  body : List Nat
deriving DecidableEq, Repr

/-- A `struct xcache`: its fields `size` and `maxsize`, and the records that
`decode_attrs` has stored from `xattrs` on (what lies behind them is not held). -/
structure xcache where
  size : Nat
  maxsize : Nat
  xattrs : List xattr
deriving DecidableEq, Repr

/-- A `struct inode` with its `tux_inode`, as far as iattr.c uses them: `present`,
the fields that the attributes carry (the times as numbers, see `AttrEnv`), the root
and `entries_per_leaf` of `btree`, the `version` of the superblock, and `xcache`
(`none` for NULL). The fields are as wide as what is decoded into them. -/
structure inode where
  present : Nat
  i_mode : Nat
  i_uid : Nat
  i_gid : Nat
  i_ctime : Nat
  i_mtime : Nat
  i_size : Nat
  i_nlink : Nat
  btree_root : root
  btree_entries_per_leaf : Nat
  version : Nat
  xcache : Option xcache
deriving DecidableEq, Repr

/-- The `switch (kind)` of `encode_attrs`: the bytes stored behind the head. -/
def encode_attr_body (k : AttrEnv) (ino : inode) (kind : Nat) : List Nat :=
  if kind = k.MODE_OWNER_ATTR then
    encode32 ino.i_mode ++ encode32 ino.i_uid ++ encode32 ino.i_gid
  else if kind = k.CTIME_SIZE_ATTR then
    encode48 (k.tuxtime ino.i_ctime >>> k.TIME_ATTR_SHIFT) ++ encode64 ino.i_size
  else if kind = k.MTIME_ATTR then
    encode48 (k.tuxtime ino.i_mtime >>> k.TIME_ATTR_SHIFT)
  else if kind = k.DATA_BTREE_ATTR then encode_attrs_data_btree ino.btree_root
  else if kind = k.LINK_COUNT_ATTR then encode32 ino.i_nlink
  else []

/-- The loop of `encode_attrs` over the kinds still to come; `out` holds the bytes
stored so far, from `attrs` on, so that its length is the offset of the moving
pointer. The test `attrs >= limit`, with `limit = attrs + size - 3`, is a comparison
of offsets. -/
def encode_attrs_loop (k : AttrEnv) (ino : inode) (size : Nat) : List Nat → List Nat → List Nat
  | [], out => out
  | kind :: rest, out =>
    if ¬ ino.present.testBit kind then encode_attrs_loop k ino size rest out
    else if (out.length : Int) ≥ (size : Int) - 3 then out
    else
      encode_attrs_loop k ino size rest
        (out ++ encode_kind kind ino.version ++ encode_attr_body k ino kind)

/-- The function `encode_attrs`: the bytes it stores from `attrs` on, one after the
other; the pointer it returns is `attrs` plus their number. -/
def encode_attrs (k : AttrEnv) (ino : inode) (size : Nat) : List Nat :=
  encode_attrs_loop k ino size (fixed_kinds k) []

/-- The state of a run of `decode_attrs`: the offset `pos` of `attrs` in the buffer,
the inode, the pointer `xattr` (an offset in the cache, `none` for NULL) with the
number of records stored through it, and what the run has read so far: `reads` holds
offset and length of every read from `attrs`, `index` every index used on `atsize`. -/
structure decode_state where
  pos : Nat
  ino : inode
  xattr : Option Nat
  nx : Nat
  reads : List (Nat × Nat)
  index : List Nat
deriving DecidableEq, Repr

/-- A call `attrs = decodeN(attrs, &val)` for `n` bytes: the value read and the state
behind it. The bytes of memory from `attrs` on are `mem`. -/
def decode_n (mem : List Nat) (n : Nat) (st : decode_state) : Nat × decode_state :=
  (decode_be ((mem.drop st.pos).take n),
    { st with pos := st.pos + n, reads := st.reads ++ [(st.pos, n)] })

/-- The statement `tux_inode(inode)->present |= 1 << kind`. -/
def set_present (kind : Nat) (st : decode_state) : decode_state :=
  { st with ino := { st.ino with present := st.ino.present ||| (1 <<< kind) } }

/-- The case `XATTR_ATTR` of `decode_attrs`, behind the head. A store through the
NULL pointer `xattr` is a fault. The difference `bytes - 2` is taken in `unsigned`
and cut to the field `size`. -/
def decode_attrs_xattr (k : AttrEnv) (mem : List Nat) (kind : Nat) (st : decode_state) :
    Except Fault (Bool × decode_state) :=
  let a := decode_n mem 2 st
  let b := decode_n mem 2 a.2
  match b.2.xattr, b.2.ino.xcache with
  | some off, some xc =>
    let size := ((a.1 + 2 ^ 32 - 2) % 2 ^ 32) % 2 ^ k.xattr_size_bits
    let xsize := (k.sizeof_xattr + size) % 2 ^ 32
    if off + xsize > xc.maxsize then Except.error Fault.assertion
    else
      let body := (mem.drop b.2.pos).take size
      let xc1 : xcache :=
        { xc with size := xc.size + xsize,
                  xattrs := xc.xattrs.take b.2.nx ++ [{ atom := b.1, size := size, body := body }] }
      Except.ok (true, set_present kind
        { b.2 with pos := b.2.pos + size, reads := b.2.reads ++ [(b.2.pos, size)],
                   ino := { b.2.ino with xcache := some xc1 },
                   xattr := some (off + k.sizeof_xattr + size), nx := b.2.nx + 1 })
  | _, _ => Except.error Fault.null_store

/-- One round of the loop of `decode_attrs`: `false` with the state when the round
ends in `return NULL`, else `true` with the state for the next round. -/
def decode_attrs_step (k : AttrEnv) (mem : List Nat) (st : decode_state) :
    Except Fault (Bool × decode_state) :=
  let h := decode_n mem 2 st
  let version := h.1 &&& 0xfff
  let kind := h.1 >>> 12
  if version ≠ st.ino.version then
    Except.ok (true,
      { h.2 with pos := h.2.pos + atsize k kind, index := h.2.index ++ [kind] })
  else if kind = k.MODE_OWNER_ATTR then
    let a := decode_n mem 4 h.2
    let b := decode_n mem 4 a.2
    let c := decode_n mem 4 b.2
    Except.ok (true, set_present kind
      { c.2 with ino := { c.2.ino with i_mode := a.1, i_uid := b.1, i_gid := c.1 } })
  else if kind = k.CTIME_SIZE_ATTR then
    let a := decode_n mem 6 h.2
    let b := decode_n mem 8 a.2
    Except.ok (true, set_present kind
      { b.2 with ino := { b.2.ino with
          i_size := b.1, i_ctime := k.spectime ((a.1 <<< k.TIME_ATTR_SHIFT) % 2 ^ 64) } })
  else if kind = k.MTIME_ATTR then
    let a := decode_n mem 6 h.2
    Except.ok (true, set_present kind
      { a.2 with ino := { a.2.ino with
          i_mtime := k.spectime ((a.1 <<< k.TIME_ATTR_SHIFT) % 2 ^ 64) } })
  else if kind = k.DATA_BTREE_ATTR then
    let a := decode_n mem 8 h.2
    Except.ok (true, set_present kind
      { a.2 with ino := { a.2.ino with
          btree_root := data_btree_root a.1, btree_entries_per_leaf := 64 } })
  else if kind = k.LINK_COUNT_ATTR then
    let a := decode_n mem 4 h.2
    Except.ok (true, set_present kind { a.2 with ino := { a.2.ino with i_nlink := a.1 } })
  else if kind = k.XATTR_ATTR then decode_attrs_xattr k mem kind h.2
  else Except.ok (false, h.2)

/-- What a run of `decode_attrs` gives: the pointer returned (an offset in the
buffer, `none` for NULL), the inode, and the reads and table indexes of the run. -/
structure decode_result where
  ret : Option Nat
  ino : inode
  reads : List (Nat × Nat)
  index : List Nat
deriving DecidableEq, Repr

/-- The end of `decode_attrs` behind its loop. -/
def decode_attrs_finish (k : AttrEnv) (st : decode_state) : decode_result :=
  let ino1 : inode :=
    if st.ino.present &&& k.MTIME_BIT = 0 then { st.ino with i_mtime := st.ino.i_ctime }
    else st.ino
  { ret := some st.pos, ino := ino1, reads := st.reads, index := st.index }

/-- The loop of `decode_attrs`, for at most `fuel` rounds; every round reads the two
bytes of a head, so `size` rounds are never used up (the result `Fault.spin` for that
is not reached). The comparison with `limit - 1` is a comparison of offsets. -/
def decode_attrs_loop (k : AttrEnv) (mem : List Nat) (size : Nat) :
    Nat → decode_state → Except Fault decode_result
  | 0, st =>
    if (st.pos : Int) < (size : Int) - 1 then Except.error Fault.spin
    else Except.ok (decode_attrs_finish k st)
  | fuel + 1, st =>
    if (st.pos : Int) < (size : Int) - 1 then
      match decode_attrs_step k mem st with
      | Except.error f => Except.error f
      | Except.ok (false, st1) =>
        Except.ok { ret := none, ino := st1.ino, reads := st1.reads, index := st1.index }
      | Except.ok (true, st1) => decode_attrs_loop k mem size fuel st1
    else Except.ok (decode_attrs_finish k st)

/-- The function `decode_attrs` on the buffer of `size` bytes at `attrs`; `mem` lists
the bytes of memory from `attrs` on (also those behind the buffer). -/
def decode_attrs (k : AttrEnv) (ino : inode) (mem : List Nat) (size : Nat) :
    Except Fault decode_result :=
  decode_attrs_loop k mem size size
    { pos := 0, ino := ino, xattr := ino.xcache.map fun _ => k.xattrs_offset, nx := 0,
      reads := [], index := [] }

/-- The kinds for which `encode_attrs` and `decode_attrs` have a case with a body of
fixed size. -/
def is_fixed_kind (k : AttrEnv) (kind : Nat) : Prop :=
  kind = k.MODE_OWNER_ATTR ∨ kind = k.CTIME_SIZE_ATTR ∨ kind = k.MTIME_ATTR ∨
    kind = k.DATA_BTREE_ATTR ∨ kind = k.LINK_COUNT_ATTR

instance (k : AttrEnv) (kind : Nat) : Decidable (is_fixed_kind k kind) := by
  unfold is_fixed_kind; infer_instance

/-- What the theorems on the codec take for granted of the `enum atkind` of the
headers: the seven kinds differ from each other (they are the labels of a `switch`
and the indexes of a table), a kind fits the 4 bits that a head has for it, and the
five kinds of fixed size are those that the loop of `encode_attrs` runs through, from
`MIN_ATTR` to below `VAR_ATTRS`. -/
def attr_env_ok (k : AttrEnv) : Prop :=
  [k.MODE_OWNER_ATTR, k.CTIME_SIZE_ATTR, k.MTIME_ATTR, k.DATA_BTREE_ATTR, k.LINK_COUNT_ATTR,
    k.IDATA_ATTR, k.XATTR_ATTR].Pairwise (fun a b => a ≠ b) ∧
  k.VAR_ATTRS ≤ k.MAX_ATTRS ∧ k.MAX_ATTRS ≤ 16 ∧
  (∀ kind ∈ [k.MODE_OWNER_ATTR, k.CTIME_SIZE_ATTR, k.MTIME_ATTR, k.DATA_BTREE_ATTR,
      k.LINK_COUNT_ATTR], k.MIN_ATTR ≤ kind ∧ kind < k.VAR_ATTRS)

instance (k : AttrEnv) : Decidable (attr_env_ok k) := by
  unfold attr_env_ok; infer_instance

/-- The bytes of one attribute: the head and the body. -/
def attr_bytes (k : AttrEnv) (ino : inode) (kind : Nat) : List Nat :=
  encode_kind kind ino.version ++ encode_attr_body k ino kind

/-- The bytes of the attributes of the kinds `ks` that the inode has, one after the
other. -/
def attrs_bytes (k : AttrEnv) (ino : inode) : List Nat → List Nat
  | [] => []
  | kind :: rest =>
    (if ino.present.testBit kind then attr_bytes k ino kind else []) ++ attrs_bytes k ino rest

/-- The inode `t` after a round of `decode_attrs` has read the attribute of a kind of
fixed size that `encode_attrs` stored for the inode `src`: the fields of that kind
hold what their bytes carry of the fields of `src`, and the bit of the kind is set in
`present`. -/
def decoded_attr (k : AttrEnv) (src : inode) (kind : Nat) (t : inode) : inode :=
  let t1 : inode :=
    if kind = k.MODE_OWNER_ATTR then
      { t with i_mode := src.i_mode % 2 ^ 32, i_uid := src.i_uid % 2 ^ 32,
               i_gid := src.i_gid % 2 ^ 32 }
    else if kind = k.CTIME_SIZE_ATTR then
      { t with i_size := src.i_size % 2 ^ 64,
               i_ctime := k.spectime
                 ((((k.tuxtime src.i_ctime >>> k.TIME_ATTR_SHIFT) % 2 ^ 48)
                    <<< k.TIME_ATTR_SHIFT) % 2 ^ 64) }
    else if kind = k.MTIME_ATTR then
      { t with i_mtime := k.spectime
                 ((((k.tuxtime src.i_mtime >>> k.TIME_ATTR_SHIFT) % 2 ^ 48)
                    <<< k.TIME_ATTR_SHIFT) % 2 ^ 64) }
    else if kind = k.DATA_BTREE_ATTR then
      { t with btree_root := data_btree_root (data_btree_word src.btree_root % 2 ^ 64),
               btree_entries_per_leaf := 64 }
    else if kind = k.LINK_COUNT_ATTR then { t with i_nlink := src.i_nlink % 2 ^ 32 }
    else t
  { t1 with present := t.present ||| (1 <<< kind) }

/-- An environment for concrete runs: the kinds 6 to 12, of which those below 11 have
a fixed size; the times are their own conversions. -/
def test_attr_env : AttrEnv :=
  { MIN_ATTR := 6, VAR_ATTRS := 11, MAX_ATTRS := 13, MODE_OWNER_ATTR := 6,
    DATA_BTREE_ATTR := 7, CTIME_SIZE_ATTR := 8, LINK_COUNT_ATTR := 9, MTIME_ATTR := 10,
    IDATA_ATTR := 11, XATTR_ATTR := 12, MTIME_BIT := 2 ^ 10, TIME_ATTR_SHIFT := 16,
    tuxtime := fun t => t, spectime := fun t => t, sizeof_xattr := 4, xattrs_offset := 4,
    xattr_size_bits := 16 }

/-- An inode with all fields zero, of a volume of version 0, without cache. -/
def inode_zero : inode :=
  { present := 0, i_mode := 0, i_uid := 0, i_gid := 0, i_ctime := 0, i_mtime := 0,
    i_size := 0, i_nlink := 0, btree_root := no_root, btree_entries_per_leaf := 0,
    version := 0, xcache := none }

/-- An inode that has the attributes mode/owner and link count, of a volume of
version 3. -/
def inode_owner : inode :=
  { inode_zero with present := 2 ^ 6 ||| 2 ^ 9, i_mode := 0x81a4, i_uid := 1000,
                    i_gid := 100, i_nlink := 2, version := 3 }

/-- An inode of a volume of version 3 with an empty cache of 64 bytes. -/
def inode_cached : inode :=
  { inode_zero with version := 3, xcache := some { size := 0, maxsize := 64, xattrs := [] } }

/-- A buffer of 6 bytes holding one extended attribute of version 3 (the head, the
length field 16 and the atom 1), with 14 bytes of other memory behind the buffer. -/
def mem_xattr : List Nat :=
  [0xc0, 0x03, 0x00, 0x10, 0x00, 0x01] ++ List.replicate 14 0xee

/-! ## buffer.c: dirty buffers and their delta tag -/

/-- What buffer.c takes from headers that are not among the sources: the constant
`TUX3_MAX_DELTA`, the function `tux3_delta` that maps a free-running delta number to
its slot, and `tux3_dirty_buffers(mapping->host, delta)`, which gives the list head
of the dirty buffers of an inode (here: of its mapping) for a delta. -/
structure DeltaEnv where
  TUX3_MAX_DELTA : Nat
  tux3_delta : Nat → Nat
  tux3_dirty_buffers : Nat → Nat → Nat

/-- The constant `BUFDELTA_AVAIL`. -/
def BUFDELTA_AVAIL : Nat := 1

/-- The constant `BUFDELTA_BITS`: `order_base_2(BUFDELTA_AVAIL + TUX3_MAX_DELTA)`,
the least number of bits that hold that many values. -/
def BUFDELTA_BITS (env : DeltaEnv) : Nat := Nat.clog 2 (BUFDELTA_AVAIL + env.TUX3_MAX_DELTA)

/-- A `struct buffer_head`, as far as buffer.c uses it. The state word `b_state` is
held as its dirty bit (`dirty`) and its delta field (`bufsta`, the `BUFDELTA_BITS`
bits from `BH_PrivateStart` on); `b_assoc_map` is `none` for NULL. The list node
`b_assoc_buffers` is held in the lists of `bufworld`. -/
structure buffer_head where
  dirty : Bool
  bufsta : Nat
  b_assoc_map : Option Nat
deriving DecidableEq, Repr

/-- The buffers (by number) and the dirty lists (by number of their head): each list
holds the numbers of the buffers linked on it through `b_assoc_buffers`, from the
head's `next` to its `prev`. -/
structure bufworld where
  bufs : Nat → buffer_head
  heads : List (List Nat)

/-- Modelled from the spec: `tux3_bufsta_update`, generated by the macro
`TUX3_DEFINE_STATE_FNS` (declared outside the sources). The delta field holds the
slot of the delta shifted by `BUFDELTA_AVAIL`, so that the value 0 is left for "no
delta" ("the extra unused slot `BUFDELTA_AVAIL` lets clear leave a distinguishable
no-delta value"); it is cut to the width of the field. -/
def tux3_bufsta_update (env : DeltaEnv) (bufsta delta : Nat) : Nat :=
  (delta + BUFDELTA_AVAIL) % 2 ^ BUFDELTA_BITS env

/-- Modelled from the spec: `tux3_bufsta_clear`, see `tux3_bufsta_update`: the field
with no delta. -/
def tux3_bufsta_clear (bufsta : Nat) : Nat := 0

/-- Modelled from the spec: `tux3_bufsta_has_delta`, see `tux3_bufsta_update`. -/
def tux3_bufsta_has_delta (bufsta : Nat) : Bool := decide (BUFDELTA_AVAIL ≤ bufsta)

/-- Modelled from the spec: `tux3_bufsta_get_delta`, see `tux3_bufsta_update`. -/
def tux3_bufsta_get_delta (bufsta : Nat) : Nat := bufsta - BUFDELTA_AVAIL

/-- The macro `list_empty(&buffer->b_assoc_buffers)`: the buffer is on no list. -/
def list_empty_assoc (w : bufworld) (buffer : Nat) : Bool :=
  w.heads.all fun l => !l.contains buffer

/-- The call `list_del_init(&buffer->b_assoc_buffers)`: unlink the buffer. -/
def list_del_init (heads : List (List Nat)) (buffer : Nat) : List (List Nat) :=
  heads.map fun l => l.erase buffer

/-- The call `list_move_tail(&buffer->b_assoc_buffers, head)`: unlink the buffer, then
link it in front of the head, that is at the tail of the list. -/
def list_move_tail (heads : List (List Nat)) (buffer head : Nat) : List (List Nat) :=
  (list_del_init heads buffer).modify (fun l => l ++ [buffer]) head

/-- The function `tux3_set_bufdelta`; its compare-and-swap loop succeeds at once when
nothing runs beside it. -/
def tux3_set_bufdelta (env : DeltaEnv) (b : buffer_head) (delta : Nat) : buffer_head :=
  { b with bufsta := tux3_bufsta_update env b.bufsta (env.tux3_delta delta) }

/-- The function `tux3_clear_bufdelta`. -/
def tux3_clear_bufdelta (b : buffer_head) : buffer_head :=
  { b with bufsta := tux3_bufsta_clear b.bufsta }

/-- The function `tux3_bufdelta`: the assertion fails on a buffer that is not dirty;
on a dirty buffer without delta the loop waits for another thread to store one, and
never leaves when there is none. -/
def tux3_bufdelta (b : buffer_head) : Except Fault Nat :=
  if !b.dirty then Except.error Fault.assertion
  else if tux3_bufsta_has_delta b.bufsta then Except.ok (tux3_bufsta_get_delta b.bufsta)
  else Except.error Fault.spin

/-- The function `buffer_can_modify`. -/
def buffer_can_modify (env : DeltaEnv) (b : buffer_head) (delta : Nat) : Except Fault Int :=
  match tux3_bufdelta b with
  | Except.error f => Except.error f
  | Except.ok d => if d = env.tux3_delta delta then Except.ok 1 else Except.ok 0

/-- The function `tux3_set_buffer_dirty_list`; `mark_buffer_dirty` sets the dirty
bit. -/
def tux3_set_buffer_dirty_list (env : DeltaEnv) (w : bufworld) (mapping buffer delta : Nat)
    (head : Nat) : Except Fault bufworld :=
  let w1 : bufworld := { w with bufs := Function.update w.bufs buffer
                                   { w.bufs buffer with dirty := true } }
  if (w1.bufs buffer).b_assoc_map = none then
    if !list_empty_assoc w1 buffer then Except.error Fault.assertion
    else
      let heads2 := list_move_tail w1.heads buffer head
      let b2 : buffer_head := { w1.bufs buffer with b_assoc_map := some mapping }
      Except.ok { bufs := Function.update w1.bufs buffer (tux3_set_bufdelta env b2 delta),
                  heads := heads2 }
  else Except.ok w1

/-- The function `tux3_set_buffer_dirty`. -/
def tux3_set_buffer_dirty (env : DeltaEnv) (w : bufworld) (mapping buffer delta : Nat) :
    Except Fault bufworld :=
  let head := env.tux3_dirty_buffers mapping delta
  tux3_set_buffer_dirty_list env w mapping buffer delta head

/-- The macro `buffer_need_fork(b, d)`:
`buffer_dirty(b) && !buffer_can_modify(b, d)`. -/
def buffer_need_fork (env : DeltaEnv) (b : buffer_head) (delta : Nat) : Except Fault Bool :=
  if b.dirty then
    match buffer_can_modify env b delta with
    | Except.error f => Except.error f
    | Except.ok r => Except.ok (r == 0)
  else Except.ok false

/-- The function `tux3_clear_buffer_dirty`. -/
def tux3_clear_buffer_dirty (env : DeltaEnv) (w : bufworld) (buffer delta : Nat) :
    Except Fault bufworld :=
  match buffer_need_fork env (w.bufs buffer) delta with
  | Except.error f => Except.error f
  | Except.ok true => Except.error Fault.assertion
  | Except.ok false =>
    if (w.bufs buffer).b_assoc_map ≠ none then
      let b1 : buffer_head := { w.bufs buffer with b_assoc_map := none }
      let b2 := tux3_clear_bufdelta b1
      Except.ok { bufs := Function.update w.bufs buffer { b2 with dirty := false },
                  heads := list_del_init w.heads buffer }
    else if !list_empty_assoc w buffer then Except.error Fault.assertion
    else Except.ok w

/-- The number of places at which the buffer is linked on the dirty lists. -/
def on_list_count (w : bufworld) (buffer : Nat) : Nat :=
  (w.heads.map fun l => l.count buffer).sum

/-- The dirty-list invariant of one buffer: the buffer is dirty iff its `b_assoc_map`
is set iff it is linked on exactly one dirty list iff its state word carries a delta
tag, and then the list is the dirty list of its mapping for some delta and the tag is
`tux3_delta` of that delta. A list node is linked at one place at most, which is the
first conjunct. -/
def dirty_list_inv (env : DeltaEnv) (w : bufworld) (buffer : Nat) : Prop :=
  on_list_count w buffer ≤ 1 ∧
  ((w.bufs buffer).dirty = true ↔ (w.bufs buffer).b_assoc_map ≠ none) ∧
  ((w.bufs buffer).b_assoc_map ≠ none ↔ on_list_count w buffer = 1) ∧
  (on_list_count w buffer = 1 ↔ tux3_bufsta_has_delta (w.bufs buffer).bufsta = true) ∧
  ((w.bufs buffer).dirty = true →
    ∃ m d, (w.bufs buffer).b_assoc_map = some m ∧
      buffer ∈ w.heads.getD (env.tux3_dirty_buffers m d) [] ∧
      tux3_bufsta_get_delta (w.bufs buffer).bufsta = env.tux3_delta d)

/-- An environment for concrete runs: two delta slots, the dirty list of mapping `m`
for delta `d` is head number `2 * m + d % 2`. -/
def test_env : DeltaEnv :=
  { TUX3_MAX_DELTA := 2, tux3_delta := fun d => d % 2,
    tux3_dirty_buffers := fun m d => 2 * m + d % 2 }

/-- Clean buffers on no list, with four empty dirty lists. -/
def world_clean : bufworld :=
  { bufs := fun _ => { dirty := false, bufsta := 0, b_assoc_map := none },
    heads := [[], [], [], []] }

/-- As `world_clean`, but buffer 7 is dirty in delta slot 1 for mapping 0, on list 1
behind buffer 3. -/
def world_dirty : bufworld :=
  { bufs := Function.update
      (Function.update world_clean.bufs 3 { dirty := true, bufsta := 2, b_assoc_map := some 0 })
      7 { dirty := true, bufsta := 2, b_assoc_map := some 0 },
    heads := [[], [3, 7], [], []] }

/-! ## End of definitions -/

/-! ## Theorems: the direct extent (filemap.c) -/

/-- A call of `seg_free` appends its events to the trace and changes nothing else. -/
theorem seg_free_eq {σ : Type} (c : Consts) (s : fs σ) (block count : Nat) :
    seg_free c block count s =
      { s with trace := s.trace ++ free_events c s.inum block count } := by
  unfold seg_free map_bfree free_events
  split <;> simp [fs.emit]

/-- When the allocator finds one segment for the whole length and takes it,
`seg_alloc_one` stores it to `seg[0]` and returns 1. -/
theorem seg_alloc_one_ok {σ : Type} (x : collab σ) (s : fs σ) (start count : Nat)
    (seg : Nat → block_segment) (g : block_segment) (sb1 sb2 : σ)
    (hfind : x.balloc_find s.sb 1 count = (0, [g], 0, sb1))
    (huse : x.balloc_use sb1 [g] = (0, sb2)) :
    seg_alloc_one x s start count seg =
      Except.ok (1, Function.update seg 0 g, { s with sb := sb2 }) := by
  have hw : write_segs seg 0 [g] = Function.update seg 0 g := by
    funext i
    by_cases hi : i = 0
    · subst hi; simp [write_segs]
    · simp [write_segs, Function.update, hi]
  simp [seg_alloc_one, hfind, hw, huse]

/-- The whole result of an eligible `MAP_REDIRECT` call of `map_direct` when the
allocator supplies one segment `g` for the whole count. -/
theorem map_direct_redirect_eq {σ : Type} (c : Consts) (x : collab σ) (s : fs σ)
    (count : Nat) (seg : Nat → block_segment) (seg_max : Nat) (g : block_segment)
    (sb1 sb2 : σ)
    (h2 : count ≤ c.MAX_DIRECT_COUNT) (h3 : s.root.count ≤ count)
    (hfind : x.balloc_find s.sb 1 count = (0, [g], 0, sb1))
    (huse : x.balloc_use sb1 [g] = (0, sb2)) :
    map_direct c x s 0 count seg seg_max map_mode.MAP_REDIRECT =
      Except.ok (1, Function.update seg 0 g,
        { root := { direct := 1, count := g.count, block := g.block, depth := 0 },
          inum := s.inum, sb := sb2,
          trace := s.trace ++ [Event.log_balloc g.block g.count] ++
            (if s.root.count ≠ 0 then free_events c s.inum s.root.block s.root.count
             else []) ++ [Event.mark_btree_dirty] }) := by
  unfold map_direct
  have h2' : ¬ (count > c.MAX_DIRECT_COUNT) := by omega
  have h3' : ¬ (count < s.root.count) := by omega
  simp only [reduceCtorEq, if_false, ne_eq, not_true_eq_false, false_or, h2', h3',
    seg_alloc_one_ok x s 0 count seg g sb1 sb2 hfind huse]
  by_cases hc : s.root.count = 0
  · simp [hc, fs.emit]
  · simp [hc, fs.emit, seg_free_eq]

/-- C1 (amended): for a `MAP_WRITE` request `map_direct` never takes the direct-extent
path: it returns 0 and leaves `seg[]`, the root, the allocator and the trace as they
were. For a `MAP_REDIRECT` request, when the allocator can supply one segment `g`
covering `count` (and `balloc_use` takes it), `map_direct` takes the direct-extent
path (returns 1 with the root overwritten to `{direct=1, block, count}` of the
allocated segment) if and only if `start == 0`, `count <= MAX_DIRECT_COUNT` and
`count >=` the existing direct count. -/
theorem map_direct_policy {σ : Type} (c : Consts) (x : collab σ) (s : fs σ)
    (start count : Nat) (seg : Nat → block_segment) (seg_max : Nat) (g : block_segment)
    (sb1 sb2 : σ)
    (hfind : x.balloc_find s.sb 1 count = (0, [g], 0, sb1))
    (huse : x.balloc_use sb1 [g] = (0, sb2)) :
    map_direct c x s start count seg seg_max map_mode.MAP_WRITE = Except.ok (0, seg, s) ∧
    ((∃ seg1 s1, map_direct c x s start count seg seg_max map_mode.MAP_REDIRECT
          = Except.ok (1, seg1, s1) ∧
        s1.root = { direct := 1, count := (seg1 0).count, block := (seg1 0).block,
                    depth := 0 }) ↔
      (start = 0 ∧ count ≤ c.MAX_DIRECT_COUNT ∧ s.root.count ≤ count)) := by
  refine ⟨by simp [map_direct], ?_⟩
  constructor
  · rintro ⟨seg1, s1, h, -⟩
    by_contra hne
    have h0 : map_direct c x s start count seg seg_max map_mode.MAP_REDIRECT
        = Except.ok (0, seg, s) := by
      unfold map_direct
      simp only [reduceCtorEq, if_false]
      by_cases h1 : start ≠ 0 ∨ count > c.MAX_DIRECT_COUNT
      · simp [h1]
      · have h2 : count < s.root.count := by
          by_contra h2; apply hne; push_neg at h1; omega
        simp [h1, h2]
    rw [h0] at h
    simp at h
  · rintro ⟨h1, h2, h3⟩
    subst h1
    rw [map_direct_redirect_eq c x s count seg seg_max g sb1 sb2 h2 h3 hfind huse]
    exact ⟨_, _, rfl, by simp⟩

/-- C1, witness of `map_direct_policy`: an inode without root, 5 blocks from block 0,
with the bump allocator. -/
theorem map_direct_policy_witness :
    map_direct test_consts bump_collab fs_empty 0 5 seg_zero 1 map_mode.MAP_WRITE
        = Except.ok (0, seg_zero, fs_empty) ∧
    ((∃ seg1 s1, map_direct test_consts bump_collab fs_empty 0 5 seg_zero 1
          map_mode.MAP_REDIRECT = Except.ok (1, seg1, s1) ∧
        s1.root = { direct := 1, count := (seg1 0).count, block := (seg1 0).block,
                    depth := 0 }) ↔
      (0 = 0 ∧ 5 ≤ test_consts.MAX_DIRECT_COUNT ∧ fs_empty.root.count ≤ 5)) :=
  map_direct_policy test_consts bump_collab fs_empty 0 5 seg_zero 1
    { block := 100, count := 5, state := 0 } 100 105 rfl rfl

/-- C1, counterexample to the claim as stated: a `MAP_WRITE` request of 5 blocks from
block 0 on an inode without root is eligible (`start == 0`,
`count <= MAX_DIRECT_COUNT`, `count >=` the direct count 0) and the allocator can
supply one segment for it, yet `map_direct` does not return 1: it returns 0, leaves
the root as it was and allocates nothing. -/
theorem map_direct_write_counterexample :
    has_root fs_empty.root = false ∧
    (0 = 0 ∧ 5 ≤ test_consts.MAX_DIRECT_COUNT ∧ fs_empty.root.count ≤ 5) ∧
    bump_collab.balloc_find fs_empty.sb 1 5
        = (0, [{ block := 100, count := 5, state := 0 }], 0, 100) ∧
    bump_collab.balloc_use 100 [{ block := 100, count := 5, state := 0 }] = (0, 105) ∧
    (¬ ∃ seg1 s1, map_direct test_consts bump_collab fs_empty 0 5 seg_zero 1
        map_mode.MAP_WRITE = Except.ok (1, seg1, s1)) ∧
    map_direct test_consts bump_collab fs_empty 0 5 seg_zero 1 map_mode.MAP_WRITE
        = Except.ok (0, seg_zero, fs_empty) := by
  refine ⟨rfl, ⟨rfl, by decide, by decide⟩, rfl, rfl, ?_, rfl⟩
  rintro ⟨seg1, s1, h⟩
  simp [map_direct] at h

/-- C2: in Redirect mode, when `map_direct` is eligible (`start == 0`,
`count <= MAX_DIRECT_COUNT`, `count >= root.count`), `balloc_find` returns the one
segment `g = (b, c)` covering the whole count and `balloc_use` succeeds, then
`map_direct` returns 1 with `seg[0] = g` (the rest of `seg[]` untouched), the root
becomes `{direct=1, block=b, count=c}`, and the trace grows by exactly:
`log_balloc(b, c)` once, then the events of one `seg_free(old block, old count)` if
the old direct count was non-zero and none otherwise, then the btree dirty mark. -/
theorem map_direct_redirect_effect {σ : Type} (c : Consts) (x : collab σ) (s : fs σ)
    (count : Nat) (seg : Nat → block_segment) (seg_max : Nat) (g : block_segment)
    (sb1 sb2 : σ)
    (h2 : count ≤ c.MAX_DIRECT_COUNT) (h3 : s.root.count ≤ count)
    (hfind : x.balloc_find s.sb 1 count = (0, [g], 0, sb1))
    (huse : x.balloc_use sb1 [g] = (0, sb2)) :
    ∃ seg1 s1,
      map_direct c x s 0 count seg seg_max map_mode.MAP_REDIRECT
        = Except.ok (1, seg1, s1) ∧
      seg1 0 = g ∧ (∀ i, i ≠ 0 → seg1 i = seg i) ∧
      s1.root = { direct := 1, count := g.count, block := g.block, depth := 0 } ∧
      s1.sb = sb2 ∧ s1.inum = s.inum ∧
      s1.trace = s.trace ++ [Event.log_balloc g.block g.count] ++
        (if s.root.count ≠ 0 then free_events c s.inum s.root.block s.root.count
         else []) ++ [Event.mark_btree_dirty] := by
  rw [map_direct_redirect_eq c x s count seg seg_max g sb1 sb2 h2 h3 hfind huse]
  refine ⟨_, _, rfl, by simp, ?_, rfl, rfl, rfl, rfl⟩
  intro i hi
  simp [Function.update, hi]

/-- C2, witness of `map_direct_redirect_effect`: rewriting the direct extent 40/8
with 9 blocks. -/
theorem map_direct_redirect_effect_witness :
    ∃ seg1 s1,
      map_direct test_consts bump_collab fs_direct 0 9 seg_zero 1 map_mode.MAP_REDIRECT
        = Except.ok (1, seg1, s1) ∧
      seg1 0 = { block := 100, count := 9, state := 0 } ∧
      (∀ i, i ≠ 0 → seg1 i = seg_zero i) ∧
      s1.root = { direct := 1, count := 9, block := 100, depth := 0 } ∧
      s1.sb = 109 ∧ s1.inum = 64 ∧
      s1.trace = [] ++ [Event.log_balloc 100 9] ++
        (if fs_direct.root.count ≠ 0 then free_events test_consts 64 40 8 else []) ++
        [Event.mark_btree_dirty] :=
  map_direct_redirect_effect test_consts bump_collab fs_direct 9 seg_zero 1
    { block := 100, count := 9, state := 0 } 100 109 (by decide) (by decide) rfl rfl

/-- C3: a Read-mode `map_direct` on a tree whose root holds the direct extent
(block `B`, count `C`), with `B + start` in the range of `block_t`. If `start < C`:
`seg[0]` is a mapped (state 0) segment with block `B + start` and count
`min(count, C - start)`; if `start + count > C` and `seg_max >= 2`, `seg[1]` is a
Hole segment with block 0 and count `start + count - C` and the result is 2;
otherwise the result is 1; whenever `seg_max >= 2` the counts of the returned
segments sum to `count`; entries of `seg[]` from the result on are not written. If
`start >= C` the result is 0 and `seg[]` is not written. The state is never
changed. -/
theorem map_direct_read {σ : Type} (c : Consts) (x : collab σ) (s : fs σ)
    (start count : Nat) (seg : Nat → block_segment) (seg_max : Nat)
    (hB : s.root.block + start < 2 ^ 64) :
    (start < s.root.count →
      ∃ n seg1,
        map_direct c x s start count seg seg_max map_mode.MAP_READ
          = Except.ok (n, seg1, s) ∧
        seg1 0 = { block := s.root.block + start,
                   count := min count (s.root.count - start), state := 0 } ∧
        (s.root.count < start + count ∧ 2 ≤ seg_max →
          n = 2 ∧ seg1 1 = { block := 0, count := start + count - s.root.count,
                             state := BLOCK_SEG_HOLE }) ∧
        (¬ (s.root.count < start + count ∧ 2 ≤ seg_max) → n = 1) ∧
        (2 ≤ seg_max →
          ((List.range n.toNat).map fun i => (seg1 i).count).sum = count) ∧
        (∀ i, n.toNat ≤ i → seg1 i = seg i)) ∧
    (s.root.count ≤ start →
      map_direct c x s start count seg seg_max map_mode.MAP_READ
        = Except.ok (0, seg, s)) := by
  have hB1 : (s.root.block + start) % 18446744073709551616 = s.root.block + start :=
    Nat.mod_eq_of_lt (by simpa using hB)
  constructor
  · intro hlt
    by_cases hover : start + count > s.root.count
    · by_cases hmax : seg_max ≤ 1
      · have key : map_direct c x s start count seg seg_max map_mode.MAP_READ
            = Except.ok (1, Function.update
                (Function.update seg 0
                  { block := s.root.block + start, count := count, state := 0 }) 0
                { block := s.root.block + start, count := s.root.count - start,
                  state := 0 }, s) := by
          unfold map_direct
          simp [hlt, hB1, hover, hmax]
        refine ⟨1, _, key, ?_, ?_, ?_, ?_, ?_⟩
        · have : min count (s.root.count - start) = s.root.count - start := by omega
          simp [this]
        · rintro ⟨-, h2⟩; omega
        · intro _; rfl
        · intro h; omega
        · intro i hi
          have : i ≠ 0 := by simp at hi; omega
          simp [Function.update, this]
      · have key : map_direct c x s start count seg seg_max map_mode.MAP_READ
            = Except.ok (2, Function.update (Function.update
                (Function.update seg 0
                  { block := s.root.block + start, count := count, state := 0 }) 0
                { block := s.root.block + start, count := s.root.count - start,
                  state := 0 }) 1
                { block := 0, count := start + count - s.root.count,
                  state := BLOCK_SEG_HOLE }, s) := by
          unfold map_direct
          simp [hlt, hB1, hover, hmax]
        refine ⟨2, _, key, ?_, ?_, ?_, ?_, ?_⟩
        · have : min count (s.root.count - start) = s.root.count - start := by omega
          simp [Function.update, this]
        · intro _; simp
        · intro h; exact absurd ⟨by omega, by omega⟩ h
        · intro _
          simp [List.range_succ, Function.update]
          omega
        · intro i hi
          have h0 : i ≠ 0 := by simp at hi; omega
          have h1 : i ≠ 1 := by simp at hi; omega
          simp [Function.update, h0, h1]
    · have key : map_direct c x s start count seg seg_max map_mode.MAP_READ
          = Except.ok (1, Function.update seg 0
              { block := s.root.block + start, count := count, state := 0 }, s) := by
        unfold map_direct
        simp [hlt, hB1, hover]
      refine ⟨1, _, key, ?_, ?_, ?_, ?_, ?_⟩
      · have : min count (s.root.count - start) = count := by omega
        simp [this]
      · rintro ⟨h1, -⟩; omega
      · intro _; rfl
      · intro _; simp [List.range_succ]
      · intro i hi
        have : i ≠ 0 := by simp at hi; omega
        simp [Function.update, this]
  · intro hge
    have : ¬ start < s.root.count := by omega
    simp [map_direct, this]

/-- C3, witness of `map_direct_read`: reading 7 blocks from logical block 3 of the
direct extent 40/8. -/
theorem map_direct_read_witness :
    (3 < fs_direct.root.count →
      ∃ n seg1,
        map_direct test_consts bump_collab fs_direct 3 7 seg_zero 2 map_mode.MAP_READ
          = Except.ok (n, seg1, fs_direct) ∧
        seg1 0 = { block := fs_direct.root.block + 3,
                   count := min 7 (fs_direct.root.count - 3), state := 0 } ∧
        (fs_direct.root.count < 3 + 7 ∧ 2 ≤ 2 →
          n = 2 ∧ seg1 1 = { block := 0, count := 3 + 7 - fs_direct.root.count,
                             state := BLOCK_SEG_HOLE }) ∧
        (¬ (fs_direct.root.count < 3 + 7 ∧ 2 ≤ 2) → n = 1) ∧
        (2 ≤ 2 → ((List.range n.toNat).map fun i => (seg1 i).count).sum = 7) ∧
        (∀ i, n.toNat ≤ i → seg1 i = seg_zero i)) ∧
    (fs_direct.root.count ≤ 3 →
      map_direct test_consts bump_collab fs_direct 3 7 seg_zero 2 map_mode.MAP_READ
        = Except.ok (0, seg_zero, fs_direct)) :=
  map_direct_read test_consts bump_collab fs_direct 3 7 seg_zero 2 (by decide)

/-- C4: for a tree holding a direct extent (block `B`, count `C`), with `B + start`
in the range of `block_t`, `dtree_chop(start, TUXKEY_LIMIT)` returns 0 and leaves the
inode number and the allocator alone, and: if `start >= C` the state is unchanged
(nothing is freed); if `0 < start < C` the root keeps its block with
`count = start`, the btree is marked dirty and exactly one `seg_free` of
`(B + start, C - start)` is recorded; if `start == 0 < C` the root becomes `no_root`,
the btree is marked dirty and exactly one `seg_free` of `(B, C)` is recorded. In each
case the kept count plus the freed count is `C`. -/
theorem dtree_chop_direct {σ : Type} (c : Consts) (x : collab σ) (s : fs σ) (start : Nat)
    (hd : has_direct_extent s.root = true) (hB : s.root.block + start < 2 ^ 64) :
    ∃ s1, dtree_chop c x s start c.TUXKEY_LIMIT = Except.ok (0, s1) ∧
      s1.inum = s.inum ∧ s1.sb = s.sb ∧
      (s.root.count ≤ start → s1 = s ∧ s1.root.count + 0 = s.root.count) ∧
      (0 < start ∧ start < s.root.count →
        s1.root = { s.root with count := start } ∧
        s1.trace = s.trace ++ [Event.mark_btree_dirty] ++
          free_events c s.inum (s.root.block + start) (s.root.count - start) ∧
        s1.root.count + (s.root.count - start) = s.root.count) ∧
      (start = 0 ∧ 0 < s.root.count →
        s1.root = no_root ∧
        s1.trace = s.trace ++ [Event.mark_btree_dirty] ++
          free_events c s.inum s.root.block s.root.count ∧
        s1.root.count + s.root.count = s.root.count) := by
  have hB1 : (s.root.block + start) % 18446744073709551616 = s.root.block + start :=
    Nat.mod_eq_of_lt (by simpa using hB)
  by_cases hlt : start < s.root.count
  · by_cases h0 : start = 0
    · subst h0
      simp only [Nat.add_zero] at hB1
      have key : dtree_chop c x s 0 c.TUXKEY_LIMIT = Except.ok (0,
          { root := no_root, inum := s.inum, sb := s.sb,
            trace := s.trace ++ [Event.mark_btree_dirty] ++
              free_events c s.inum s.root.block s.root.count }) := by
        unfold dtree_chop
        simp [hd, hlt, seg_free_eq, fs.emit, hB1]
      refine ⟨_, key, rfl, rfl, ?_, ?_, ?_⟩
      · intro h; omega
      · rintro ⟨h1, -⟩; omega
      · intro _
        exact ⟨rfl, rfl, by simp [no_root]⟩
    · have key : dtree_chop c x s start c.TUXKEY_LIMIT = Except.ok (0,
          { root := { s.root with count := start }, inum := s.inum, sb := s.sb,
            trace := s.trace ++ [Event.mark_btree_dirty] ++
              free_events c s.inum (s.root.block + start) (s.root.count - start) }) := by
        unfold dtree_chop
        simp [hd, hlt, h0, seg_free_eq, fs.emit, hB1]
      refine ⟨_, key, rfl, rfl, ?_, ?_, ?_⟩
      · intro h; omega
      · intro _
        refine ⟨rfl, rfl, ?_⟩
        show start + (s.root.count - start) = s.root.count
        omega
      · rintro ⟨h1, -⟩; omega
  · have key : dtree_chop c x s start c.TUXKEY_LIMIT = Except.ok (0, s) := by
      unfold dtree_chop
      simp [hd, hlt]
    refine ⟨s, key, rfl, rfl, ?_, ?_, ?_⟩
    · intro _; exact ⟨rfl, rfl⟩
    · rintro ⟨-, h2⟩; omega
    · rintro ⟨h1, h2⟩; omega

/-- C4, witness of `dtree_chop_direct`: chopping the direct extent 40/8 from logical
block 3. -/
theorem dtree_chop_direct_witness :
    ∃ s1, dtree_chop test_consts bump_collab fs_direct 3 test_consts.TUXKEY_LIMIT
        = Except.ok (0, s1) ∧
      s1.inum = fs_direct.inum ∧ s1.sb = fs_direct.sb ∧
      (fs_direct.root.count ≤ 3 → s1 = fs_direct ∧
        s1.root.count + 0 = fs_direct.root.count) ∧
      (0 < 3 ∧ 3 < fs_direct.root.count →
        s1.root = { fs_direct.root with count := 3 } ∧
        s1.trace = fs_direct.trace ++ [Event.mark_btree_dirty] ++
          free_events test_consts fs_direct.inum (fs_direct.root.block + 3)
            (fs_direct.root.count - 3) ∧
        s1.root.count + (fs_direct.root.count - 3) = fs_direct.root.count) ∧
      (3 = 0 ∧ 0 < fs_direct.root.count →
        s1.root = no_root ∧
        s1.trace = fs_direct.trace ++ [Event.mark_btree_dirty] ++
          free_events test_consts fs_direct.inum fs_direct.root.block
            fs_direct.root.count ∧
        s1.root.count + fs_direct.root.count = fs_direct.root.count) :=
  dtree_chop_direct test_consts bump_collab fs_direct 3 rfl (by decide)

/-- A Read-mode `map_direct` always returns, with 0, 1 or 2 segments, 2 only when
`seg_max` allows it, 0 exactly when `start` is at or beyond the direct count, and
without changing the state. -/
theorem map_direct_read_result {σ : Type} (c : Consts) (x : collab σ) (s : fs σ)
    (start count : Nat) (seg : Nat → block_segment) (seg_max : Nat) :
    ∃ n seg1,
      map_direct c x s start count seg seg_max map_mode.MAP_READ
        = Except.ok (n, seg1, s) ∧
      (n = 0 ∨ n = 1 ∨ (n = 2 ∧ 2 ≤ seg_max)) ∧
      (start < s.root.count → n ≠ 0) ∧
      (s.root.count ≤ start → n = 0 ∧ seg1 = seg) := by
  unfold map_direct
  simp only [if_true]
  by_cases hlt : start < s.root.count
  · simp only [hlt, if_true]
    by_cases hover : start + count > s.root.count
    · simp only [hover, if_true]
      by_cases h1 : seg_max ≤ 1
      · simp only [h1, if_true]
        exact ⟨1, _, rfl, Or.inr (Or.inl rfl), fun _ => by norm_num, fun h => by omega⟩
      · simp only [h1, if_false]
        exact ⟨2, _, rfl, Or.inr (Or.inr ⟨rfl, by omega⟩), fun _ => by norm_num,
          fun h => by omega⟩
    · simp only [hover, if_false]
      exact ⟨1, _, rfl, Or.inr (Or.inl rfl), fun _ => by norm_num, fun h => by omega⟩
  · simp only [hlt, if_false]
    exact ⟨0, _, rfl, Or.inl rfl, fun h => h.elim, fun _ => ⟨rfl, rfl⟩⟩

/-- C5: for every Read-mode call of `filemap2` with `seg_max >= 1` on a tree that has
no root, the call returns, with a result `n` such that `1 <= n <= min(2, seg_max)`
(never 0, never negative); if `start` is at or beyond the direct extent's count
(which is 0 when there is no direct extent), `n = 1` and `seg[0]` is a Hole segment
with block 0 and count equal to the requested count; the root descriptor is not
modified. -/
theorem filemap2_read_no_root {σ : Type} (c : Consts) (x : collab σ) (s : fs σ)
    (start count : Nat) (seg : Nat → block_segment) (seg_max : Nat)
    (hmax : 1 ≤ seg_max) (hroot : has_root s.root = false) :
    ∃ n seg1 s1,
      filemap2 c x s start count seg seg_max map_mode.MAP_READ
        = Except.ok (n, seg1, s1) ∧
      1 ≤ n ∧ n ≤ min 2 (seg_max : Int) ∧ s1.root = s.root ∧
      (s.root.count ≤ start →
        n = 1 ∧ seg1 0 = { block := 0, count := count, state := BLOCK_SEG_HOLE }) := by
  have hmax0 : seg_max ≠ 0 := by omega
  have hmaxi : (1 : Int) ≤ (seg_max : Int) := by exact_mod_cast hmax
  have hlockroot : (filemap2_lock c map_mode.MAP_READ s).root = s.root := by
    unfold filemap2_lock; split <;> simp [fs.emit]
  have hunlock : ∀ (n : Int) (sg : Nat → block_segment) (t : fs σ),
      ∃ t1, filemap2_out_unlock c x map_mode.MAP_READ false n sg t
          = Except.ok (n, sg, t1) ∧ t1.root = t.root := by
    intro n sg t
    unfold filemap2_out_unlock
    refine ⟨_, rfl, ?_⟩
    simp only [Bool.false_eq_true, if_false]
    split <;> simp [fs.emit]
  obtain ⟨n, seg1, hm, hn, hpos, hzero⟩ := map_direct_read_result c x
    (filemap2_lock c map_mode.MAP_READ s) start count seg seg_max
  rw [hlockroot] at hpos hzero
  by_cases hn0 : n = 0
  · -- `map_direct` gave 0: the hole is reported
    subst hn0
    have hge : s.root.count ≤ start := by
      by_contra h
      exact hpos (by omega) rfl
    obtain ⟨-, hseg⟩ := hzero hge
    subst hseg
    obtain ⟨t1, ht1, hr1⟩ := hunlock 1
      (Function.update seg1 0 { block := 0, count := count, state := BLOCK_SEG_HOLE })
      (filemap2_lock c map_mode.MAP_READ s)
    refine ⟨1, Function.update seg1 0
      { block := 0, count := count, state := BLOCK_SEG_HOLE }, t1, ?_, le_refl _, ?_, ?_, ?_⟩
    · unfold filemap2
      simp only [hmax0, if_false, hlockroot, hroot, Bool.not_false, if_true, hm]
      simp only [ne_eq, not_true_eq_false, if_false, filemap2_probe, hlockroot, hroot,
        Bool.false_eq_true, filemap2_map, if_true, filemap2_release]
      exact ht1
    · simp [hmaxi]
    · rw [hr1, hlockroot]
    · intro _; exact ⟨rfl, by simp⟩
  · -- `map_direct` mapped the start of the range
    have hlt : start < s.root.count := by
      by_contra h
      exact hn0 (hzero (by omega)).1
    obtain ⟨t1, ht1, hr1⟩ := hunlock n seg1 (filemap2_lock c map_mode.MAP_READ s)
    refine ⟨n, seg1, t1, ?_, ?_, ?_, ?_, ?_⟩
    · unfold filemap2
      simp only [hmax0, if_false, hlockroot, hroot, Bool.not_false, if_true, hm]
      simp only [ne_eq, hn0, not_false_eq_true, if_true]
      exact ht1
    · rcases hn with h | h | ⟨h, -⟩
      · exact absurd h hn0
      · omega
      · omega
    · rcases hn with h | h | ⟨h, h2⟩
      · exact absurd h hn0
      · subst h; simp [hmaxi]
      · subst h
        have : (2 : Int) ≤ (seg_max : Int) := by exact_mod_cast h2
        simp [this]
    · rw [hr1, hlockroot]
    · intro h; omega

/-- C5, witness of `filemap2_read_no_root`: reading 2 blocks from logical block 8,
just beyond the direct extent 40/8. -/
theorem filemap2_read_no_root_witness :
    ∃ n seg1 s1,
      filemap2 test_consts bump_collab fs_direct 8 2 seg_zero 1 map_mode.MAP_READ
        = Except.ok (n, seg1, s1) ∧
      1 ≤ n ∧ n ≤ min 2 ((1 : Nat) : Int) ∧ s1.root = fs_direct.root ∧
      (fs_direct.root.count ≤ 8 →
        n = 1 ∧ seg1 0 = { block := 0, count := 2, state := BLOCK_SEG_HOLE }) :=
  filemap2_read_no_root test_consts bump_collab fs_direct 8 2 seg_zero 1 (by decide) rfl

/-! ## Theorems: the synthetic leaf (tests/btree.c) -/

/-- The seek loop counts the leading entries whose key is below `key`. -/
theorem uleaf_seek_loop_eq (key : Nat) (l : List uentry) (a : Nat) :
    uleaf_seek_loop key l a = a + (l.takeWhile fun e => decide (e.key < key)).length := by
  induction l generalizing a with
  | nil => simp [uleaf_seek_loop]
  | cons e rest ih =>
    by_cases h : e.key < key
    · simp [uleaf_seek_loop, h, ih]; omega
    · simp [uleaf_seek_loop, h]

/-- The result of `uleaf_seek` as a count of leading entries. -/
theorem uleaf_seek_eq (key : Nat) (leaf : uleaf) :
    uleaf_seek key leaf = (leaf.entries.takeWhile fun e => decide (e.key < key)).length := by
  simp [uleaf_seek, uleaf_seek_loop_eq]

/-- The result of `uleaf_seek` is at most `count`. -/
theorem uleaf_seek_le (key : Nat) (leaf : uleaf) : uleaf_seek key leaf ≤ leaf.count := by
  rw [uleaf_seek_eq]
  exact (List.takeWhile_sublist _).length_le

/-- The entries before the seek position. -/
theorem take_uleaf_seek (key : Nat) (leaf : uleaf) :
    leaf.entries.take (uleaf_seek key leaf)
      = leaf.entries.takeWhile fun e => decide (e.key < key) := by
  rw [uleaf_seek_eq]
  generalize leaf.entries = l
  induction l with
  | nil => simp
  | cons a rest ih =>
    by_cases h : a.key < key
    · simp [List.takeWhile_cons, h, ih]
    · simp [List.takeWhile_cons, h]

/-- The entries from the seek position on. -/
theorem drop_uleaf_seek (key : Nat) (leaf : uleaf) :
    leaf.entries.drop (uleaf_seek key leaf)
      = leaf.entries.dropWhile fun e => decide (e.key < key) := by
  rw [uleaf_seek_eq]
  generalize leaf.entries = l
  induction l with
  | nil => simp
  | cons a rest ih =>
    by_cases h : a.key < key
    · simp [List.takeWhile_cons, List.dropWhile_cons, h, ih]
    · simp [List.takeWhile_cons, List.dropWhile_cons, h]

/-- Entries before the seek position have keys below `key`. -/
theorem key_lt_of_mem_take_seek (key : Nat) (leaf : uleaf) (e : uentry)
    (he : e ∈ leaf.entries.take (uleaf_seek key leaf)) : e.key < key := by
  rw [take_uleaf_seek] at he
  simpa using List.mem_takeWhile_imp he

/-- In a sorted list, entries behind the leading run of keys below `key` have keys
that are not below `key`. -/
theorem key_ge_of_mem_dropWhile (key : Nat) (l : List uentry)
    (hs : l.Pairwise fun a b => a.key < b.key) (e : uentry)
    (he : e ∈ l.dropWhile fun e => decide (e.key < key)) : key ≤ e.key := by
  induction l with
  | nil => simp at he
  | cons a rest ih =>
    rw [List.pairwise_cons] at hs
    by_cases h : a.key < key
    · simp only [List.dropWhile_cons, h, decide_True, if_true] at he
      exact ih hs.2 he
    · simp only [List.dropWhile_cons, h, decide_False, Bool.false_eq_true, if_false] at he
      rcases List.mem_cons.1 he with rfl | hmem
      · omega
      · have := hs.1 e hmem
        omega

/-- In a sorted leaf, entries from the seek position on have keys that are not below
`key`. -/
theorem key_ge_of_mem_drop_seek (key : Nat) (leaf : uleaf) (hs : uleaf_sorted leaf)
    (e : uentry) (he : e ∈ leaf.entries.drop (uleaf_seek key leaf)) : key ≤ e.key := by
  rw [drop_uleaf_seek] at he
  exact key_ge_of_mem_dropWhile key leaf.entries hs e he

/-- The entries that `uleaf_chop` leaves: those before the seek position of `start`,
then those from the seek position of the stop key on. -/
theorem uleaf_chop_entries (c : Consts) (start len : Nat) (leaf : uleaf) :
    (uleaf_chop c start len leaf).2.entries
      = leaf.entries.take (uleaf_seek start leaf) ++
        leaf.entries.drop (uleaf_seek
          (if len ≥ c.TUXKEY_LIMIT then c.TUXKEY_LIMIT else (start + len) % 2 ^ 64) leaf) := by
  unfold uleaf_chop vecmove
  simp only []
  generalize (if len ≥ c.TUXKEY_LIMIT then c.TUXKEY_LIMIT else (start + len) % 2 ^ 64) = stop
  have ha := uleaf_seek_le start leaf
  have hb := uleaf_seek_le stop leaf
  unfold uleaf.count at ha hb ⊢
  have h1 : (List.drop (uleaf_seek stop leaf) leaf.entries).take
      (leaf.entries.length - uleaf_seek stop leaf)
      = List.drop (uleaf_seek stop leaf) leaf.entries := by
    apply List.take_of_length_le
    simp
  rw [h1]
  have h2 : (leaf.entries.take (uleaf_seek start leaf) ++
      List.drop (uleaf_seek stop leaf) leaf.entries).length
      = uleaf_seek start leaf + (leaf.entries.length - uleaf_seek stop leaf) := by
    simp [List.length_take, Nat.min_eq_left ha]
  rw [List.take_append_of_le_length (by omega), List.take_of_length_le (by omega)]

/-- A lookup finds nothing among entries that all have another key. -/
theorem find_key_eq_none (l : List uentry) (key : Nat) (h : ∀ e ∈ l, e.key ≠ key) :
    (l.find? fun e => e.key == key) = none := by
  rw [List.find?_eq_none]
  intro e he
  simpa using h e he

/-- A lookup in a concatenation whose first part has no entry with the key. -/
theorem find_key_append_right (l1 l2 : List uentry) (key : Nat)
    (h : ∀ e ∈ l1, e.key ≠ key) :
    ((l1 ++ l2).find? fun e => e.key == key) = l2.find? fun e => e.key == key := by
  rw [List.find?_append, find_key_eq_none l1 key h]
  rfl

/-- A lookup in a concatenation whose second part has no entry with the key. -/
theorem find_key_append_left (l1 l2 : List uentry) (key : Nat)
    (h : ∀ e ∈ l2, e.key ≠ key) :
    ((l1 ++ l2).find? fun e => e.key == key) = l1.find? fun e => e.key == key := by
  rw [List.find?_append, find_key_eq_none l2 key h]
  cases (l1.find? fun e => e.key == key) <;> rfl
/-- The key at which `uleaf_chop` stops, when `start + len` does not leave the 64 bits
of `tuxkey_t`. -/
theorem uleaf_chop_stop_cases (c : Consts) (start len : Nat) :
    (len ≥ c.TUXKEY_LIMIT ∧
      (if len ≥ c.TUXKEY_LIMIT then c.TUXKEY_LIMIT else (start + len) % 2 ^ 64)
        = c.TUXKEY_LIMIT) ∨
    (len < c.TUXKEY_LIMIT ∧ start + len < 2 ^ 64 ∧
      (if len ≥ c.TUXKEY_LIMIT then c.TUXKEY_LIMIT else (start + len) % 2 ^ 64)
        = start + len) ∨
    (len < c.TUXKEY_LIMIT ∧ 2 ^ 64 ≤ start + len) := by
  by_cases h : len ≥ c.TUXKEY_LIMIT
  · left; exact ⟨h, by simp [h]⟩
  · by_cases h2 : start + len < 2 ^ 64
    · right; left
      refine ⟨by omega, h2, ?_⟩
      rw [if_neg h, Nat.mod_eq_of_lt h2]
    · right; right; omega

/-- C6: for every uleaf whose keys are strictly increasing (and fit their `u16`
fields), and every `start` and `len` of type `tuxkey_t`/`u64`, `uleaf_chop(start,
len)` returns 1 and removes exactly the keys in the range `R`, where
`R = [start, start+len)` when `len < TUXKEY_LIMIT` and `R = [start, infinity)`
otherwise: afterwards `uleaf_lookup` of a key in `R` returns NULL, and
`uleaf_lookup` of a key outside `R` returns what it returned before the chop. The
constant `TUXKEY_LIMIT` is a parameter, taken to lie between `2^16` and
`2^64 - 2^16`. -/
theorem uleaf_chop_removes_range (c : Consts) (leaf : uleaf) (start len key : Nat)
    (hs : uleaf_sorted leaf) (ht : uleaf_typed leaf)
    (hL1 : 2 ^ 16 ≤ c.TUXKEY_LIMIT) (hL2 : c.TUXKEY_LIMIT + 2 ^ 16 ≤ 2 ^ 64)
    (hstart : start < 2 ^ 64) (hlen : len < 2 ^ 64) :
    (uleaf_chop c start len leaf).1 = 1 ∧
    ((start ≤ key ∧ (len < c.TUXKEY_LIMIT → key < start + len)) →
      uleaf_lookup (uleaf_chop c start len leaf).2 key = none) ∧
    (¬ (start ≤ key ∧ (len < c.TUXKEY_LIMIT → key < start + len)) →
      uleaf_lookup (uleaf_chop c start len leaf).2 key = uleaf_lookup leaf key) := by
  refine ⟨rfl, ?_, ?_⟩
  all_goals
    intro hR
    unfold uleaf_lookup
    rw [uleaf_chop_entries]
    have hcase := uleaf_chop_stop_cases c start len
    generalize (if len ≥ c.TUXKEY_LIMIT then c.TUXKEY_LIMIT else (start + len) % 2 ^ 64)
      = stop at hcase ⊢
    have hA := key_lt_of_mem_take_seek start leaf
    have hB := key_ge_of_mem_drop_seek start leaf hs
    have hA1 := key_lt_of_mem_take_seek stop leaf
    have hB1 := key_ge_of_mem_drop_seek stop leaf hs
    have hty : ∀ e ∈ leaf.entries, e.key < 2 ^ 16 := fun e he => (ht e he).1
    have hsplit0 := List.take_append_drop (uleaf_seek start leaf) leaf.entries
    have hsplit1 := List.take_append_drop (uleaf_seek stop leaf) leaf.entries
  · -- a key of the range is in neither part
    apply find_key_eq_none
    intro e he
    rcases List.mem_append.1 he with h | h
    · have := hA e h; omega
    · have h1 := hB1 e h
      have h2 := hty e (List.mem_of_mem_drop h)
      rcases hcase with ⟨hc, hst⟩ | ⟨hc, hnw, hst⟩ | ⟨hc, hw⟩
      · omega
      · have := hR.2 hc; omega
      · omega
  · -- a key outside the range
    by_cases hkey : key < 2 ^ 16
    · by_cases hlt : key < start
      · -- below `start`: only the entries before the seek position of `start` count
        by_cases hsmall : start < 2 ^ 16
        · have hstop : start ≤ stop := by
            rcases hcase with ⟨hc, hst⟩ | ⟨hc, hnw, hst⟩ | ⟨hc, hw⟩ <;> omega
          rw [find_key_append_left _ _ key (fun e he => by have := hB1 e he; omega)]
          conv_rhs => rw [← hsplit0]
          rw [find_key_append_left _ _ key (fun e he => by have := hB e he; omega)]
        · -- every entry is before the seek position of `start`
          have hnil : leaf.entries.drop (uleaf_seek start leaf) = [] := by
            rw [List.eq_nil_iff_forall_not_mem]
            intro e he
            have := hB e he
            have := hty e (List.mem_of_mem_drop he)
            omega
          have hall : leaf.entries.take (uleaf_seek start leaf) = leaf.entries := by
            rw [hnil, List.append_nil] at hsplit0
            exact hsplit0
          rw [hall, List.find?_append]
          cases hf : (leaf.entries.find? fun e => e.key == key) with
          | some v => rfl
          | none =>
            simp only [Option.none_or]
            rw [List.find?_eq_none] at hf ⊢
            intro e he
            exact hf e (List.mem_of_mem_drop he)
      · -- at or beyond the stop key
        have hlen1 : len < c.TUXKEY_LIMIT ∧ start + len ≤ key := by
          by_contra hcon
          apply hR
          refine ⟨by omega, fun hl => ?_⟩
          by_contra h3
          exact hcon ⟨hl, by omega⟩
        have hst : stop = start + len := by
          rcases hcase with ⟨hc, hst⟩ | ⟨hc, hnw, hst⟩ | ⟨hc, hw⟩ <;> omega
        rw [find_key_append_right _ _ key (fun e he => by have := hA e he; omega)]
        conv_rhs => rw [← hsplit1]
        rw [find_key_append_right _ _ key (fun e he => by have := hA1 e he; omega)]
    · -- no entry has a key that does not fit 16 bits
      rw [find_key_eq_none leaf.entries key (fun e he => by have := hty e he; omega)]
      apply find_key_eq_none
      intro e he
      have hm : e ∈ leaf.entries := by
        rcases List.mem_append.1 he with h | h
        · exact List.mem_of_mem_take h
        · exact List.mem_of_mem_drop h
      have := hty e hm
      omega

/-- C6, witness of `uleaf_chop_removes_range`: `chop(2, 3)` on the leaf of `test01`,
looked up at key 3. -/
theorem uleaf_chop_removes_range_witness :
    (uleaf_chop test_consts 2 3 leaf_test01).1 = 1 ∧
    ((2 ≤ 3 ∧ (3 < test_consts.TUXKEY_LIMIT → 3 < 2 + 3)) →
      uleaf_lookup (uleaf_chop test_consts 2 3 leaf_test01).2 3 = none) ∧
    (¬ (2 ≤ 3 ∧ (3 < test_consts.TUXKEY_LIMIT → 3 < 2 + 3)) →
      uleaf_lookup (uleaf_chop test_consts 2 3 leaf_test01).2 3
        = uleaf_lookup leaf_test01 3) :=
  uleaf_chop_removes_range test_consts leaf_test01 2 3 3 (by decide) (by decide)
    (by decide) (by decide) (by decide) (by decide)
/-- Opening a slot at index `a` of the valid entries `l` (the `vecmove` of
`uleaf_resize` with `one == 1`, then `count++`) and storing `new` to it puts `new`
between the first `a` entries and the rest. -/
theorem open_slot_set (l : List uentry) (a : Nat) (z new : uentry) (hle : a ≤ l.length) :
    ((vecmove (l ++ List.replicate 1 z) (a + 1) a (l.length - a)).take (l.length + 1)).set
        a new
      = l.take a ++ new :: l.drop a := by
  unfold vecmove
  have h1 : (List.drop a (l ++ List.replicate 1 z)).take (l.length - a) = l.drop a := by
    rw [List.drop_append_of_le_length hle, List.take_append_of_le_length (by simp)]
    apply List.take_of_length_le
    simp
  have h2 : ∃ x, List.take (a + 1) (l ++ List.replicate 1 z) = l.take a ++ [x] := by
    rcases Nat.lt_or_ge a l.length with hlt | hge
    · refine ⟨l[a], ?_⟩
      rw [List.take_append_of_le_length (by omega)]
      rw [List.take_succ, List.getElem?_eq_getElem hlt]
      rfl
    · have hal : a = l.length := by omega
      refine ⟨z, ?_⟩
      subst hal
      simp [List.take_of_length_le]
  obtain ⟨x, hx⟩ := h2
  rw [h1, hx]
  have h3 : (l.take a ++ [x] ++ l.drop a ++
      List.drop (a + 1 + (l.length - a)) (l ++ List.replicate 1 z)).take (l.length + 1)
      = l.take a ++ [x] ++ l.drop a := by
    rw [List.take_append_of_le_length (by simp; omega)]
    apply List.take_of_length_le
    simp; omega
  rw [h3, List.append_assoc, List.set_append_right _ _ (by simp)]
  simp [List.length_take, Nat.min_eq_left hle]

/-- The entries after `uleaf_insert` has stored a key that was not at its seek
position: the new entry sits between the entries before that position and those from
it on. -/
theorem uleaf_insert_entries_new (entries_per_leaf : Nat) (leaf : uleaf) (key val : Nat)
    (hsniff : uleaf_sniff leaf = true)
    (hne : ¬ (uleaf_seek key leaf < leaf.count ∧
      (leaf.entries.getD (uleaf_seek key leaf) ⟨0, 0⟩).key = key))
    (hfree : ¬ uleaf_free entries_per_leaf leaf < 1) :
    uleaf_insert entries_per_leaf leaf key val
      = Except.ok (0,
          { leaf with
            entries := leaf.entries.take (uleaf_seek key leaf) ++
              { key := key % 2 ^ 16, val := val % 2 ^ 16 } ::
                leaf.entries.drop (uleaf_seek key leaf) }) := by
  have hle := uleaf_seek_le key leaf
  unfold uleaf_insert uleaf_resize
  simp only [hsniff, hne, if_false, hfree]
  unfold uleaf.count at hle ⊢
  rw [if_neg (by decide)]
  simp only [open_slot_set leaf.entries (uleaf_seek key leaf) ⟨0, 0⟩ _ hle]

/-- The entries after `uleaf_insert` has found the key at its seek position: that
slot is overwritten. -/
theorem uleaf_insert_entries_old (entries_per_leaf : Nat) (leaf : uleaf) (key val : Nat)
    (hsniff : uleaf_sniff leaf = true)
    (hat : uleaf_seek key leaf < leaf.count ∧
      (leaf.entries.getD (uleaf_seek key leaf) ⟨0, 0⟩).key = key) :
    uleaf_insert entries_per_leaf leaf key val
      = Except.ok (0,
          { leaf with
            entries := leaf.entries.set (uleaf_seek key leaf)
              { key := key % 2 ^ 16, val := val % 2 ^ 16 } }) := by
  unfold uleaf_insert uleaf_resize
  simp only [hsniff, hat, and_self, if_true]
  simp

/-- The result of `uleaf_insert` when the key is not at its seek position and the
leaf has no free slot: 1, the leaf untouched. -/
theorem uleaf_insert_full (entries_per_leaf : Nat) (leaf : uleaf) (key val : Nat)
    (hsniff : uleaf_sniff leaf = true)
    (hne : ¬ (uleaf_seek key leaf < leaf.count ∧
      (leaf.entries.getD (uleaf_seek key leaf) ⟨0, 0⟩).key = key))
    (hfree : uleaf_free entries_per_leaf leaf < 1) :
    uleaf_insert entries_per_leaf leaf key val = Except.ok (1, leaf) := by
  unfold uleaf_insert uleaf_resize
  simp only [hsniff, hne, if_false, hfree, if_true]
  simp

/-- A leaf that fails the sniff test makes `uleaf_insert` stop at the assertion of
`uleaf_resize`. -/
theorem uleaf_insert_unsniffed (entries_per_leaf : Nat) (leaf : uleaf) (key val : Nat)
    (hsniff : uleaf_sniff leaf = false) :
    uleaf_insert entries_per_leaf leaf key val = Except.error Fault.assertion := by
  unfold uleaf_insert uleaf_resize
  simp [hsniff]

/-- The key is stored: after the entries before the seek position, whose keys are
all below `key`, comes an entry with the key. -/
theorem uleaf_lookup_stored (leaf : uleaf) (key : Nat) (new : uentry) (rest : List uentry)
    (m : Nat) (hnew : new.key = key) :
    uleaf_lookup { magic := m, entries := leaf.entries.take (uleaf_seek key leaf) ++ new :: rest }
      key = some new := by
  unfold uleaf_lookup
  simp only []
  rw [find_key_append_right _ _ key
    (fun e he => by have := key_lt_of_mem_take_seek key leaf e he; omega)]
  simp [hnew]

/-- C7: for every uleaf with strictly increasing keys and every key and value that
fit the leaf's 16-bit entry fields: if `uleaf_insert(leaf, key, val)` returns 0, then
`uleaf_lookup(leaf, key)` returns an entry with that key and val, `uleaf_lookup` of
every other key returns the same result as before, and the count grew by one if the
key was absent and is unchanged if the key was already present. -/
theorem uleaf_insert_lookup (entries_per_leaf : Nat) (leaf leaf1 : uleaf) (key val : Nat)
    (hs : uleaf_sorted leaf) (hk : key < 2 ^ 16) (hv : val < 2 ^ 16)
    (hret : uleaf_insert entries_per_leaf leaf key val = Except.ok (0, leaf1)) :
    uleaf_lookup leaf1 key = some { key := key, val := val } ∧
    (∀ k, k ≠ key → uleaf_lookup leaf1 k = uleaf_lookup leaf k) ∧
    (uleaf_lookup leaf key = none → leaf1.count = leaf.count + 1) ∧
    (uleaf_lookup leaf key ≠ none → leaf1.count = leaf.count) := by
  have hsniff : uleaf_sniff leaf = true := by
    by_cases h : uleaf_sniff leaf = true
    · exact h
    · rw [uleaf_insert_unsniffed entries_per_leaf leaf key val (by simpa using h)] at hret
      cases hret
  have hkm : key % 2 ^ 16 = key := Nat.mod_eq_of_lt hk
  have hvm : val % 2 ^ 16 = val := Nat.mod_eq_of_lt hv
  have hA := key_lt_of_mem_take_seek key leaf
  have hB := key_ge_of_mem_drop_seek key leaf hs
  have hle := uleaf_seek_le key leaf
  have hsplit := List.take_append_drop (uleaf_seek key leaf) leaf.entries
  have hsd : (leaf.entries.drop (uleaf_seek key leaf)).Pairwise fun a b => a.key < b.key :=
    List.Pairwise.sublist (List.drop_sublist _ _) hs
  by_cases hat : uleaf_seek key leaf < leaf.count ∧
      (leaf.entries.getD (uleaf_seek key leaf) ⟨0, 0⟩).key = key
  · -- the key is at its seek position: the slot is overwritten
    rw [uleaf_insert_entries_old entries_per_leaf leaf key val hsniff hat, hkm, hvm] at hret
    have hl1 := (Prod.mk.inj (Except.ok.inj hret)).2
    subst hl1
    obtain ⟨hlt, hkey⟩ := hat
    unfold uleaf.count at hlt hle ⊢
    have hget : leaf.entries.getD (uleaf_seek key leaf) ⟨0, 0⟩
        = leaf.entries[uleaf_seek key leaf] := by
      simp [List.getD, List.getElem?_eq_getElem hlt]
    rw [hget] at hkey
    have hdrop : leaf.entries.drop (uleaf_seek key leaf)
        = leaf.entries[uleaf_seek key leaf] :: leaf.entries.drop (uleaf_seek key leaf + 1) :=
      List.drop_eq_getElem_cons hlt
    have hset : leaf.entries.set (uleaf_seek key leaf) { key := key, val := val }
        = leaf.entries.take (uleaf_seek key leaf) ++
            { key := key, val := val } :: leaf.entries.drop (uleaf_seek key leaf + 1) := by
      rw [List.set_eq_take_append_cons_drop, if_pos hlt]
    have hold : leaf.entries = leaf.entries.take (uleaf_seek key leaf) ++
        leaf.entries[uleaf_seek key leaf] :: leaf.entries.drop (uleaf_seek key leaf + 1) :=
      calc leaf.entries
          = leaf.entries.take (uleaf_seek key leaf) ++
              leaf.entries.drop (uleaf_seek key leaf) := hsplit.symm
        _ = _ := by rw [hdrop]
    refine ⟨?_, ?_, ?_, ?_⟩
    · unfold uleaf_lookup
      simp only [hset]
      rw [find_key_append_right _ _ key (fun e he => by have := hA e he; omega)]
      simp
    · intro k hne
      unfold uleaf_lookup
      simp only [hset]
      have hr := congrArg (List.find? fun e => e.key == k) hold
      rw [hr, List.find?_append, List.find?_append]
      have h1 : (key == k) = false := by simpa using fun h => hne h.symm
      have h2 : (leaf.entries[uleaf_seek key leaf].key == k) = false := by
        rw [hkey]; exact h1
      rw [List.find?_cons, List.find?_cons]
      simp only [h1, h2]
    · intro hnone
      exfalso
      unfold uleaf_lookup at hnone
      rw [List.find?_eq_none] at hnone
      have := hnone leaf.entries[uleaf_seek key leaf] (List.getElem_mem _)
      simp [hkey] at this
    · intro _
      simp
  · -- the key is not at its seek position
    by_cases hfree : uleaf_free entries_per_leaf leaf < 1
    · exfalso
      rw [uleaf_insert_full entries_per_leaf leaf key val hsniff hat hfree] at hret
      have h01 := (Prod.mk.inj (Except.ok.inj hret)).1
      omega
    · rw [uleaf_insert_entries_new entries_per_leaf leaf key val hsniff hat hfree, hkm, hvm]
        at hret
      have hl1 := (Prod.mk.inj (Except.ok.inj hret)).2
      subst hl1
      refine ⟨?_, ?_, ?_, ?_⟩
      · unfold uleaf_lookup
        rw [find_key_append_right _ _ key (fun e he => by have := hA e he; omega)]
        simp
      · intro k hne
        unfold uleaf_lookup
        conv_rhs => rw [← hsplit]
        have h1 : (key == k) = false := by simpa using fun h => hne h.symm
        simp only [List.find?_append, List.find?_cons, h1]
      · intro _
        unfold uleaf.count
        simp only [List.length_append, List.length_cons, List.length_take, List.length_drop]
        unfold uleaf.count at hle
        omega
      · intro hsome
        exfalso
        apply hsome
        unfold uleaf_lookup
        apply find_key_eq_none
        intro e he hek
        rw [← hsplit] at he
        rcases List.mem_append.1 he with h | h
        · have := hA e h; omega
        · by_cases hlt : uleaf_seek key leaf < leaf.entries.length
          · have hdrop := List.drop_eq_getElem_cons hlt
            rw [hdrop] at h hsd
            rw [List.pairwise_cons] at hsd
            rcases List.mem_cons.1 h with rfl | hmem
            · apply hat
              refine ⟨hlt, ?_⟩
              simp [List.getD, List.getElem?_eq_getElem hlt, hek]
            · have h3 := hsd.1 e hmem
              have h4 := hB leaf.entries[uleaf_seek key leaf]
                (by rw [hdrop]; exact List.mem_cons_self _ _)
              omega
          · rw [List.drop_of_length_le (by omega)] at h
            simp at h

/-- C7, witness of `uleaf_insert_lookup`: inserting key 9 with value 0x109 into the
leaf of `test01`, with room for 8 entries. -/
theorem uleaf_insert_lookup_witness :
    uleaf_lookup { leaf_test01 with entries := leaf_test01.entries ++ [⟨9, 0x109⟩] } 9
      = some { key := 9, val := 0x109 } ∧
    (∀ k, k ≠ 9 →
      uleaf_lookup { leaf_test01 with entries := leaf_test01.entries ++ [⟨9, 0x109⟩] } k
        = uleaf_lookup leaf_test01 k) ∧
    (uleaf_lookup leaf_test01 9 = none →
      uleaf.count { leaf_test01 with entries := leaf_test01.entries ++ [⟨9, 0x109⟩] }
        = leaf_test01.count + 1) ∧
    (uleaf_lookup leaf_test01 9 ≠ none →
      uleaf.count { leaf_test01 with entries := leaf_test01.entries ++ [⟨9, 0x109⟩] }
        = leaf_test01.count) :=
  uleaf_insert_lookup 8 leaf_test01
    { leaf_test01 with entries := leaf_test01.entries ++ [⟨9, 0x109⟩] } 9 0x109
    (by decide) (by decide) (by decide) rfl

/-! ## Theorems: the btree root attribute (iattr.c) -/

/-- Reading back the `n` big-endian bytes of `v` behind an accumulated value. -/
theorem foldl_encode_be (n v acc : Nat) :
    (encode_be n v).foldl (fun a b => a * 256 + b) acc
      = acc * 2 ^ (8 * n) + v % 2 ^ (8 * n) := by
  induction n generalizing acc with
  | zero => simp [encode_be, Nat.mod_one]
  | succ n ih =>
    simp only [encode_be, List.foldl_cons, ih]
    have h256 : (256 : Nat) = 2 ^ 8 := by norm_num
    have hpow : 2 ^ (8 * (n + 1)) = 2 ^ (8 * n) * 2 ^ 8 := by
      rw [Nat.mul_succ, pow_add]
    rw [hpow, h256, Nat.mod_mul, Nat.add_mul, Nat.add_assoc]
    congr 1
    · ring
    · ring

/-- Reading back what `encode_be` stored gives the value, cut to `n` bytes. -/
theorem decode_be_encode_be (n v : Nat) :
    decode_be (encode_be n v) = v % 2 ^ (8 * n) := by
  simp [decode_be, foldl_encode_be]

/-- The number of bytes `encode_be n` stores. -/
theorem length_encode_be (n v : Nat) : (encode_be n v).length = n := by
  induction n with
  | zero => rfl
  | succ n ih => simp [encode_be, ih]

/-- Putting `b` below `2^i` under `a` shifted left by `i` adds them. -/
theorem shiftLeft_or_eq (a b i : Nat) (hb : b < 2 ^ i) : a <<< i ||| b = a * 2 ^ i + b := by
  rw [Nat.shiftLeft_eq, Nat.mul_comm, ← Nat.mul_add_lt_is_or hb]

/-- The word stored for a root whose depth fits 16 bits and whose block fits 48 bits
is `depth * 2^48 + block`. -/
theorem data_btree_word_eq (r : root) (hd : r.depth < 2 ^ 16) (hb : r.block < 2 ^ 48) :
    data_btree_word r = r.depth * 2 ^ 48 + r.block := by
  unfold data_btree_word
  have hd1 : r.depth < 65536 := by simpa using hd
  have hb1 : r.block < 281474976710656 := by simpa using hb
  have h1 : r.depth % 2 ^ 64 = r.depth := Nat.mod_eq_of_lt (by norm_num; omega)
  have h2 : r.depth * 2 ^ 48 < 2 ^ 64 := by norm_num; omega
  have h3 : r.depth * 2 ^ 48 + r.block < 2 ^ 64 := by norm_num; omega
  have h4 : r.depth <<< 48 ||| r.block = r.depth * 2 ^ 48 + r.block :=
    shiftLeft_or_eq r.depth r.block 48 hb
  have h5 : (r.depth <<< 48) % 2 ^ 64 = r.depth <<< 48 := by
    rw [Nat.shiftLeft_eq r.depth 48]
    exact Nat.mod_eq_of_lt h2
  rw [h1, h5, h4]
  exact Nat.mod_eq_of_lt h3

/-- C8: the persisted root descriptor round-trips. For every root with
`depth < 2^16` and `block < 2^48`, the case `DATA_BTREE_ATTR` of `encode_attrs`
stores the 8 big-endian bytes of the word `(depth << 48) | block`, and the case
`DATA_BTREE_ATTR` of `decode_attrs` (`block = v & (2^48 - 1)`, `depth = v >> 48`)
reads from them a root with the same depth and block. -/
theorem data_btree_attr_roundtrip (r : root) (hd : r.depth < 2 ^ 16)
    (hb : r.block < 2 ^ 48) :
    (encode_attrs_data_btree r).length = 8 ∧
    decode64 (encode_attrs_data_btree r) = (r.depth <<< 48) ||| r.block ∧
    (decode_attrs_data_btree (encode_attrs_data_btree r)).depth = r.depth ∧
    (decode_attrs_data_btree (encode_attrs_data_btree r)).block = r.block := by
  have hw := data_btree_word_eq r hd hb
  have hd1 : r.depth < 65536 := by simpa using hd
  have hb1 : r.block < 281474976710656 := by simpa using hb
  have h3 : r.depth * 2 ^ 48 + r.block < 2 ^ (8 * 8) := by norm_num; omega
  have hlen : (encode_attrs_data_btree r).length = 8 := length_encode_be 8 _
  have hdec : decode64 (encode_attrs_data_btree r) = r.depth * 2 ^ 48 + r.block := by
    unfold decode64
    rw [List.take_of_length_le (by omega)]
    unfold encode_attrs_data_btree encode64
    rw [decode_be_encode_be, hw]
    exact Nat.mod_eq_of_lt h3
  refine ⟨hlen, ?_, ?_, ?_⟩
  · rw [hdec, shiftLeft_or_eq _ _ _ hb]
  · unfold decode_attrs_data_btree data_btree_root
    simp only [hdec, Nat.shiftRight_eq_div_pow]
    rw [Nat.add_comm, Nat.add_mul_div_right _ _ (by norm_num), Nat.div_eq_of_lt hb,
      Nat.zero_add]
  · unfold decode_attrs_data_btree data_btree_root
    simp only [hdec]
    have hmask : ((2 : Nat) ^ 64 - 1) >>> 16 = 2 ^ 48 - 1 := by
      rw [Nat.shiftRight_eq_div_pow]; norm_num
    rw [hmask, Nat.and_pow_two_sub_one_eq_mod, Nat.add_comm, Nat.add_mul_mod_self_right,
      Nat.mod_eq_of_lt hb]

/-- C8, witness of `data_btree_attr_roundtrip`: a root of depth 2 at block
0x123456789abc. -/
theorem data_btree_attr_roundtrip_witness :
    (encode_attrs_data_btree ⟨0, 0, 0x123456789abc, 2⟩).length = 8 ∧
    decode64 (encode_attrs_data_btree ⟨0, 0, 0x123456789abc, 2⟩)
      = (2 <<< 48) ||| 0x123456789abc ∧
    (decode_attrs_data_btree (encode_attrs_data_btree ⟨0, 0, 0x123456789abc, 2⟩)).depth
      = 2 ∧
    (decode_attrs_data_btree (encode_attrs_data_btree ⟨0, 0, 0x123456789abc, 2⟩)).block
      = 0x123456789abc :=
  data_btree_attr_roundtrip ⟨0, 0, 0x123456789abc, 2⟩ (by decide) (by decide)

/-! ## Theorems: dirty buffers (buffer.c) -/

/-- Unlinking a buffer that is on no list changes no list. -/
theorem list_del_init_of_empty (w : bufworld) (buffer : Nat)
    (h : list_empty_assoc w buffer = true) : list_del_init w.heads buffer = w.heads := by
  unfold list_del_init
  unfold list_empty_assoc at h
  rw [List.all_eq_true] at h
  conv_rhs => rw [← List.map_id w.heads]
  apply List.map_congr_left
  intro l hl
  have := h l hl
  simp only [Bool.not_eq_true', List.contains_eq_any_beq, List.any_eq_false, beq_iff_eq] at this
  apply List.erase_of_not_mem
  intro hmem
  exact this buffer hmem rfl

/-- The delta field after `tux3_bufsta_update` with a slot below `TUX3_MAX_DELTA`. -/
theorem tux3_bufsta_update_eq (env : DeltaEnv) (bufsta d : Nat)
    (hd : d < env.TUX3_MAX_DELTA) :
    tux3_bufsta_update env bufsta d = d + BUFDELTA_AVAIL := by
  unfold tux3_bufsta_update BUFDELTA_BITS
  apply Nat.mod_eq_of_lt
  have := Nat.le_pow_clog (by norm_num : 1 < 2) (BUFDELTA_AVAIL + env.TUX3_MAX_DELTA)
  omega

/-- C9: after `tux3_set_buffer_dirty_list(mapping, buffer, delta, head)` on a buffer
whose `b_assoc_map` is NULL (and which, as the `BUG_ON` of the function wants, is on
no list), the call returns and the buffer is dirty, is linked at the tail of `head`
(no other list changes), has `b_assoc_map == mapping`, and
`buffer_can_modify(buffer, d)` returns 1 for exactly those `d` with
`tux3_delta(d) == tux3_delta(delta)` and 0 for every other `d`; no other buffer
changes. `tux3_delta` is a parameter that maps into the slots below
`TUX3_MAX_DELTA`. -/
theorem set_buffer_dirty_list_fresh (env : DeltaEnv) (w : bufworld)
    (mapping buffer delta head : Nat)
    (hdelta : ∀ d, env.tux3_delta d < env.TUX3_MAX_DELTA)
    (hmap : (w.bufs buffer).b_assoc_map = none)
    (hempty : list_empty_assoc w buffer = true)
    (hhead : head < w.heads.length) :
    ∃ w1, tux3_set_buffer_dirty_list env w mapping buffer delta head = Except.ok w1 ∧
      (w1.bufs buffer).dirty = true ∧
      w1.heads[head]? = some (w.heads.getD head [] ++ [buffer]) ∧
      (∀ h, h ≠ head → w1.heads[h]? = w.heads[h]?) ∧
      (w1.bufs buffer).b_assoc_map = some mapping ∧
      (∀ d, buffer_can_modify env (w1.bufs buffer) d
        = Except.ok (if env.tux3_delta d = env.tux3_delta delta then 1 else 0)) ∧
      (∀ b, b ≠ buffer → w1.bufs b = w.bufs b) := by
  have hempty1 : ∀ bufs, list_empty_assoc { bufs := bufs, heads := w.heads } buffer = true :=
    fun _ => hempty
  have hdel := list_del_init_of_empty w buffer hempty
  have hsta := tux3_bufsta_update_eq env (w.bufs buffer).bufsta (env.tux3_delta delta)
    (hdelta delta)
  refine ⟨{ bufs := Function.update w.bufs buffer
              { dirty := true, bufsta := env.tux3_delta delta + BUFDELTA_AVAIL,
                b_assoc_map := some mapping },
            heads := w.heads.modify (fun l => l ++ [buffer]) head }, ?_, ?_, ?_, ?_, ?_, ?_, ?_⟩
  · unfold tux3_set_buffer_dirty_list
    simp only [Function.update_same, hmap, if_true, hempty1 _, Bool.not_true,
      Bool.false_eq_true, if_false, list_move_tail, hdel, tux3_set_bufdelta, hsta,
      Function.update_idem]
  · simp
  · simp only [List.getElem?_modify_eq, List.getD_eq_getElem?_getD,
      List.getElem?_eq_getElem hhead, Option.map_some', Option.getD_some]
    rfl
  · intro h hne
    exact List.getElem?_modify_ne _ _ (Ne.symm hne)
  · simp
  · intro d
    simp only [Function.update_same, buffer_can_modify, tux3_bufdelta, Bool.not_true,
      Bool.false_eq_true, if_false, tux3_bufsta_has_delta, tux3_bufsta_get_delta,
      BUFDELTA_AVAIL]
    have h1 : 1 ≤ env.tux3_delta delta + 1 := by omega
    simp only [h1, decide_True, if_true, Nat.add_sub_cancel]
    by_cases hd : env.tux3_delta d = env.tux3_delta delta
    · simp [hd]
    · have hd2 : ¬ env.tux3_delta delta = env.tux3_delta d := fun h => hd h.symm
      simp [hd, hd2]
  · intro b hb
    simp [Function.update, hb]

/-- C9, witness of `set_buffer_dirty_list_fresh`: buffer 5 is made dirty for mapping 0
in delta 3 on list 1, which holds the buffers 3 and 7. -/
theorem set_buffer_dirty_list_fresh_witness :
    ∃ w1, tux3_set_buffer_dirty_list test_env world_dirty 0 5 3 1 = Except.ok w1 ∧
      (w1.bufs 5).dirty = true ∧
      w1.heads[1]? = some (world_dirty.heads.getD 1 [] ++ [5]) ∧
      (∀ h, h ≠ 1 → w1.heads[h]? = world_dirty.heads[h]?) ∧
      (w1.bufs 5).b_assoc_map = some 0 ∧
      (∀ d, buffer_can_modify test_env (w1.bufs 5) d
        = Except.ok (if test_env.tux3_delta d = test_env.tux3_delta 3 then 1 else 0)) ∧
      (∀ b, b ≠ 5 → w1.bufs b = world_dirty.bufs b) :=
  set_buffer_dirty_list_fresh test_env world_dirty 0 5 3 1
    (fun d => Nat.mod_lt d (by decide)) (by decide) (by decide) (by decide)
/-- C10: a dirty buffer keeps the tag of the delta that first dirtied it. Calling
`tux3_set_buffer_dirty_list` with any delta and any list head, or
`tux3_set_buffer_dirty` with any delta, on a buffer whose `b_assoc_map` is already
set returns and leaves the buffer's delta tag, its `b_assoc_map` and every dirty
list unchanged; it only sets the dirty bit, and touches no other buffer. -/
theorem set_buffer_dirty_keeps_tag (env : DeltaEnv) (w : bufworld)
    (mapping buffer delta head : Nat)
    (hmap : (w.bufs buffer).b_assoc_map ≠ none) :
    (∃ w1, tux3_set_buffer_dirty_list env w mapping buffer delta head = Except.ok w1 ∧
      (w1.bufs buffer).bufsta = (w.bufs buffer).bufsta ∧
      (w1.bufs buffer).b_assoc_map = (w.bufs buffer).b_assoc_map ∧
      w1.heads = w.heads ∧ (w1.bufs buffer).dirty = true ∧
      (∀ b, b ≠ buffer → w1.bufs b = w.bufs b)) ∧
    (∃ w2, tux3_set_buffer_dirty env w mapping buffer delta = Except.ok w2 ∧
      (w2.bufs buffer).bufsta = (w.bufs buffer).bufsta ∧
      (w2.bufs buffer).b_assoc_map = (w.bufs buffer).b_assoc_map ∧
      w2.heads = w.heads ∧ (w2.bufs buffer).dirty = true ∧
      (∀ b, b ≠ buffer → w2.bufs b = w.bufs b)) := by
  have key : ∀ hd, tux3_set_buffer_dirty_list env w mapping buffer delta hd
      = Except.ok { w with bufs := Function.update w.bufs buffer
                                    { w.bufs buffer with dirty := true } } := by
    intro hd
    unfold tux3_set_buffer_dirty_list
    simp only [Function.update_same, hmap, if_false]
  constructor
  · refine ⟨_, key head, ?_, ?_, rfl, ?_, ?_⟩
    · simp
    · simp
    · simp
    · intro b hb
      simp [Function.update, hb]
  · refine ⟨_, key (env.tux3_dirty_buffers mapping delta), ?_, ?_, rfl, ?_, ?_⟩
    · simp
    · simp
    · simp
    · intro b hb
      simp [Function.update, hb]

/-- C10, witness of `set_buffer_dirty_keeps_tag`: buffer 7, dirty in delta slot 1 on
list 1, is dirtied again in delta 2 with list head 0. -/
theorem set_buffer_dirty_keeps_tag_witness :
    (∃ w1, tux3_set_buffer_dirty_list test_env world_dirty 0 7 2 0 = Except.ok w1 ∧
      (w1.bufs 7).bufsta = (world_dirty.bufs 7).bufsta ∧
      (w1.bufs 7).b_assoc_map = (world_dirty.bufs 7).b_assoc_map ∧
      w1.heads = world_dirty.heads ∧ (w1.bufs 7).dirty = true ∧
      (∀ b, b ≠ 7 → w1.bufs b = world_dirty.bufs b)) ∧
    (∃ w2, tux3_set_buffer_dirty test_env world_dirty 0 7 2 = Except.ok w2 ∧
      (w2.bufs 7).bufsta = (world_dirty.bufs 7).bufsta ∧
      (w2.bufs 7).b_assoc_map = (world_dirty.bufs 7).b_assoc_map ∧
      w2.heads = world_dirty.heads ∧ (w2.bufs 7).dirty = true ∧
      (∀ b, b ≠ 7 → w2.bufs b = world_dirty.bufs b)) :=
  set_buffer_dirty_keeps_tag test_env world_dirty 0 7 2 0 (by decide)


/-! ## Theorems: the segment callbacks (filemap.c) -/

/-- The loop of `seg_alloc` appends one `log_balloc` event per segment, in order,
and changes nothing else. -/
theorem log_balloc_segs_eq {σ : Type} (s : fs σ) (l : List block_segment) :
    log_balloc_segs s l =
      { s with trace := s.trace ++ l.map fun g => Event.log_balloc g.block g.count } := by
  unfold log_balloc_segs
  induction l generalizing s with
  | nil => simp
  | cons g rest ih =>
    rw [List.foldl_cons, ih]
    simp [fs.emit]

/-- The statement `rq->seg_cnt -= limit - seg` leaves the index that `seg` has
reached. -/
theorem seg_cnt_drop_eq (seg_cnt used : Nat) : seg_cnt_drop seg_cnt used = used := by
  unfold seg_cnt_drop
  omega

/-- C12: for every request with `seg_idx <= seg_cnt` and every `new_cnt` with
`0 <= new_cnt <= seg_cnt - seg_idx`: with `new_cnt == 0` `seg_alloc` returns 0 with
`seg_cnt == seg_idx`, the state untouched and whatever `balloc_use` may be (it is not
called); when `balloc_use` succeeds on the segments `seg[seg_idx] ..
seg[seg_idx + new_cnt - 1]`, `seg_alloc` returns 0, the trace has grown by exactly one
`log_balloc` for each of these segments in order, and `seg_cnt == seg_idx + new_cnt`;
when `balloc_use` fails, its error is returned, the trace and the request (so
`seg_cnt`) are unchanged. -/
theorem seg_alloc_effect {σ : Type} (x : collab σ) (rq : dleaf_req) (new_cnt : Nat)
    (s : fs σ) (hidx : rq.seg_idx ≤ rq.seg_cnt) (hnew : new_cnt ≤ rq.seg_cnt - rq.seg_idx) :
    (new_cnt = 0 →
      ∀ u, seg_alloc { x with balloc_use := u } rq new_cnt s
        = (0, { rq with seg_cnt := rq.seg_idx }, s)) ∧
    (new_cnt ≠ 0 →
      (x.balloc_use s.sb ((List.range new_cnt).map fun i => rq.seg (rq.seg_idx + i))).1 = 0 →
      seg_alloc x rq new_cnt s
        = (0, { rq with seg_cnt := rq.seg_idx + new_cnt },
            { s with
              sb := (x.balloc_use s.sb
                ((List.range new_cnt).map fun i => rq.seg (rq.seg_idx + i))).2,
              trace := s.trace ++ (List.range new_cnt).map fun i =>
                Event.log_balloc (rq.seg (rq.seg_idx + i)).block
                  (rq.seg (rq.seg_idx + i)).count })) ∧
    (new_cnt ≠ 0 →
      (x.balloc_use s.sb ((List.range new_cnt).map fun i => rq.seg (rq.seg_idx + i))).1 ≠ 0 →
      seg_alloc x rq new_cnt s
        = ((x.balloc_use s.sb
              ((List.range new_cnt).map fun i => rq.seg (rq.seg_idx + i))).1, rq,
            { s with
              sb := (x.balloc_use s.sb
                ((List.range new_cnt).map fun i => rq.seg (rq.seg_idx + i))).2 })) := by
  refine ⟨?_, ?_, ?_⟩
  · intro h0 u
    unfold seg_alloc
    simp [h0, seg_cnt_drop_eq]
  · intro h0 hok
    unfold seg_alloc
    simp only [ne_eq, h0, not_false_eq_true, if_true]
    simp only [hok, not_true_eq_false, if_false, seg_cnt_drop_eq, log_balloc_segs_eq,
      List.map_map]
    rfl
  · intro h0 herr
    unfold seg_alloc
    simp only [ne_eq, h0, not_false_eq_true, if_true]
    simp only [ne_eq] at herr
    simp only [herr, not_false_eq_true, if_true]

/-- C12, witness of `seg_alloc_effect`: three of the four found segments of
`rq_found` are taken from the bump allocator. -/
theorem seg_alloc_effect_witness :
    (3 = 0 →
      ∀ u, seg_alloc { bump_collab with balloc_use := u } rq_found 3 fs_empty
        = (0, { rq_found with seg_cnt := rq_found.seg_idx }, fs_empty)) ∧
    (3 ≠ 0 →
      (bump_collab.balloc_use fs_empty.sb
        ((List.range 3).map fun i => rq_found.seg (rq_found.seg_idx + i))).1 = 0 →
      seg_alloc bump_collab rq_found 3 fs_empty
        = (0, { rq_found with seg_cnt := rq_found.seg_idx + 3 },
            { fs_empty with
              sb := (bump_collab.balloc_use fs_empty.sb
                ((List.range 3).map fun i => rq_found.seg (rq_found.seg_idx + i))).2,
              trace := fs_empty.trace ++ (List.range 3).map fun i =>
                Event.log_balloc (rq_found.seg (rq_found.seg_idx + i)).block
                  (rq_found.seg (rq_found.seg_idx + i)).count })) ∧
    (3 ≠ 0 →
      (bump_collab.balloc_use fs_empty.sb
        ((List.range 3).map fun i => rq_found.seg (rq_found.seg_idx + i))).1 ≠ 0 →
      seg_alloc bump_collab rq_found 3 fs_empty
        = ((bump_collab.balloc_use fs_empty.sb
              ((List.range 3).map fun i => rq_found.seg (rq_found.seg_idx + i))).1, rq_found,
            { fs_empty with
              sb := (bump_collab.balloc_use fs_empty.sb
                ((List.range 3).map fun i => rq_found.seg (rq_found.seg_idx + i))).2 })) :=
  seg_alloc_effect bump_collab rq_found 3 fs_empty (by decide) (by decide)


/-- The stores of `balloc_find` behind `seg[at]` leave the slots before `at`. -/
theorem write_segs_below (seg : Nat → block_segment) (at_ : Nat) (l : List block_segment)
    (i : Nat) (hi : i < at_) : write_segs seg at_ l i = seg i := by
  unfold write_segs
  rw [dif_neg]
  omega

/-- The stores of `balloc_find` behind `seg[at]`: slot `at + i` holds the `i`-th
segment found. -/
theorem write_segs_at (seg : Nat → block_segment) (at_ : Nat) (l : List block_segment)
    (i : Nat) (hi : i < l.length) : write_segs seg at_ l (at_ + i) = l.get ⟨i, hi⟩ := by
  unfold write_segs
  have h : at_ ≤ at_ + i ∧ at_ + i - at_ < l.length := ⟨by omega, by omega⟩
  rw [dif_pos h]
  congr 1
  apply Fin.ext
  show at_ + i - at_ = i
  omega

/-- C11: the request that `filemap2` builds for `btree_write` (in the modes other
than `MAP_READ`) has `overwrite` set exactly when the mode is `MAP_WRITE`; and a call
of `seg_find` that passes its assertion, with `balloc_find` succeeding, returns 0
with every segment found stored from `seg[seg_idx]` on in the state `BLOCK_SEG_NEW`
when `overwrite` is set and 0 when it is clear, the segments before `seg_idx` as they
were, `seg_cnt` behind the segments found, and `*alloc_len` the 32-bit difference of
the length asked and the length left. -/
theorem seg_find_states {σ : Type} (x : collab σ) (start count : Nat)
    (seg : Nat → block_segment) (seg_max : Nat) (mode : map_mode)
    (rq : dleaf_req) (space : Int) (seg_len : Nat) (s : fs σ)
    (found : List block_segment) (len : Nat) (sb1 : σ)
    (hmode : mode ≠ map_mode.MAP_READ)
    (hassert : rq.seg_idx = rq.seg_cnt)
    (hfind : x.balloc_find s.sb (min space ((rq.seg_max : Int) - (rq.seg_idx : Int))) seg_len
      = (0, found, len, sb1)) :
    ((filemap2_write_rq start count seg seg_max mode).overwrite = true
      ↔ mode = map_mode.MAP_WRITE) ∧
    ((filemap2_write_rq start count seg seg_max mode).overwrite = false
      ↔ mode = map_mode.MAP_REDIRECT) ∧
    ∃ rq1, seg_find x rq space seg_len s
        = Except.ok (0, rq1, some ((seg_len + 2 ^ 32 - len) % 2 ^ 32), { s with sb := sb1 }) ∧
      (∀ i (hi : i < found.length), rq1.seg (rq.seg_idx + i)
        = { found.get ⟨i, hi⟩ with state := if rq.overwrite then BLOCK_SEG_NEW else 0 }) ∧
      (∀ i, i < rq.seg_idx → rq1.seg i = rq.seg i) ∧
      rq1.seg_cnt = rq.seg_idx + found.length ∧
      rq1.seg_idx = rq.seg_idx := by
  refine ⟨?_, ?_, ?_⟩
  · cases mode <;> simp [filemap2_write_rq] at hmode ⊢
  · cases mode <;> simp [filemap2_write_rq] at hmode ⊢
  · have key : seg_find x rq space seg_len s
        = Except.ok (0,
            { rq with
              seg := fun i =>
                if rq.seg_idx ≤ i ∧ i < rq.seg_idx + found.length then
                  { write_segs rq.seg rq.seg_idx found i with
                    state := if rq.overwrite then BLOCK_SEG_NEW else 0 }
                else write_segs rq.seg rq.seg_idx found i,
              seg_cnt := rq.seg_idx + found.length },
            some ((seg_len + 2 ^ 32 - len) % 2 ^ 32), { s with sb := sb1 }) := by
      unfold seg_find
      rw [hassert] at hfind
      simp [hassert, hfind]
    refine ⟨_, key, ?_, ?_, rfl, rfl⟩
    · intro i hi
      have h : rq.seg_idx ≤ rq.seg_idx + i ∧ rq.seg_idx + i < rq.seg_idx + found.length :=
        ⟨by omega, by omega⟩
      simp only [h, and_self, if_true, write_segs_at rq.seg rq.seg_idx found i hi]
    · intro i hi
      have h : ¬ (rq.seg_idx ≤ i ∧ i < rq.seg_idx + found.length) := by omega
      simp only [h, if_false, write_segs_below rq.seg rq.seg_idx found i hi]

/-- C11, witness of `seg_find_states`: a `MAP_WRITE` request, and `seg_find` on
`rq_two` (two segments in use, `overwrite` set) asking the bump allocator for 8
blocks: it finds one segment at block 100. -/
theorem seg_find_states_witness :
    ((filemap2_write_rq 0 8 seg_zero 4 map_mode.MAP_WRITE).overwrite = true
      ↔ map_mode.MAP_WRITE = map_mode.MAP_WRITE) ∧
    ((filemap2_write_rq 0 8 seg_zero 4 map_mode.MAP_WRITE).overwrite = false
      ↔ map_mode.MAP_WRITE = map_mode.MAP_REDIRECT) ∧
    ∃ rq1, seg_find bump_collab rq_two 4 8 fs_empty
        = Except.ok (0, rq1, some ((8 + 2 ^ 32 - 0) % 2 ^ 32), { fs_empty with sb := 100 }) ∧
      (∀ i (hi : i < [({ block := 100, count := 8, state := 0 } : block_segment)].length),
        rq1.seg (rq_two.seg_idx + i)
        = { [({ block := 100, count := 8, state := 0 } : block_segment)].get ⟨i, hi⟩ with
            state := if rq_two.overwrite then BLOCK_SEG_NEW else 0 }) ∧
      (∀ i, i < rq_two.seg_idx → rq1.seg i = rq_two.seg i) ∧
      rq1.seg_cnt
        = rq_two.seg_idx + [({ block := 100, count := 8, state := 0 } : block_segment)].length ∧
      rq1.seg_idx = rq_two.seg_idx :=
  seg_find_states bump_collab 0 8 seg_zero 4 map_mode.MAP_WRITE rq_two 4 8 fs_empty
    [{ block := 100, count := 8, state := 0 }] 0 100 (by decide) rfl rfl


/-- C15: with an allocator whose `balloc_find` reports `-ENOSPC`, the assertion of
`seg_find` fires, but `seg_alloc_one` has no such assertion: it returns `-ENOSPC`,
which a Redirect-mode `map_direct` and then `filemap2` hand on to their caller. -/
theorem seg_alloc_one_enospc_returned :
    Except.map Prod.fst (seg_find enospc_collab rq_two 4 8 fs_empty)
      = Except.error Fault.assertion ∧
    Except.map Prod.fst (seg_alloc_one enospc_collab fs_empty 0 8 seg_zero)
      = Except.ok (-ENOSPC) ∧
    Except.map Prod.fst
        (map_direct test_consts enospc_collab fs_empty 0 8 seg_zero 1 map_mode.MAP_REDIRECT)
      = Except.ok (-ENOSPC) ∧
    Except.map Prod.fst
        (filemap2 test_consts enospc_collab fs_empty 0 8 seg_zero 1 map_mode.MAP_REDIRECT)
      = Except.ok (-ENOSPC) := by
  refine ⟨rfl, rfl, rfl, rfl⟩

/-- C17: a Read-mode `filemap2` on a tree with a root, whose `btree_read` fails
after `alloc_cursor` and `btree_probe` succeeded, returns the error having called
`free_cursor` without any `release_cursor` (the error path jumps to `out_unlock`);
the `btree_write` error path and the successful path release the cursor once before
they free it. -/
theorem filemap2_read_error_skips_release :
    Except.map (fun r => (r.1, r.2.2.trace))
        (filemap2 test_consts read_error_collab fs_tree 0 8 seg_zero 1 map_mode.MAP_READ)
      = Except.ok (-EINVAL, [Event.down_read, Event.up_read, Event.free_cursor]) ∧
    Except.map (fun r => (r.1, r.2.2.trace))
        (filemap2 test_consts write_error_collab fs_tree 0 8 seg_zero 1 map_mode.MAP_WRITE)
      = Except.ok (-EINVAL, [Event.down_write, Event.release_cursor, Event.up_write,
          Event.free_cursor]) ∧
    Except.map (fun r => (r.1, r.2.2.trace))
        (filemap2 test_consts bump_collab fs_tree 0 8 seg_zero 1 map_mode.MAP_WRITE)
      = Except.ok (0, [Event.down_write, Event.release_cursor, Event.up_write,
          Event.free_cursor]) := by
  refine ⟨rfl, rfl, rfl⟩


/-- Whatever `seg_alloc_one` returns, it has changed neither the root, nor the trace,
nor the inode number: only the allocator's state. -/
theorem seg_alloc_one_frame {σ : Type} (x : collab σ) (s : fs σ) (start count : Nat)
    (seg : Nat → block_segment) (n : Int) (seg1 : Nat → block_segment) (s1 : fs σ)
    (h : seg_alloc_one x s start count seg = Except.ok (n, seg1, s1)) :
    s1.root = s.root ∧ s1.trace = s.trace ∧ s1.inum = s.inum := by
  unfold seg_alloc_one at h
  simp only [] at h
  split at h
  · cases h; exact ⟨rfl, rfl, rfl⟩
  · split at h
    · cases h; exact ⟨rfl, rfl, rfl⟩
    · split at h
      · cases h
      · split at h
        · cases h; exact ⟨rfl, rfl, rfl⟩
        · cases h; exact ⟨rfl, rfl, rfl⟩

/-- C16: Redirect-mode `map_direct` is atomic on fallback and on error: whenever it
returns 0 or a negative value, the root descriptor and the trace (so no `seg_free`, no
`log_balloc`, no mark of the btree as dirty) are as before; it returns 0 with the
state untouched when `start != 0`, `count > MAX_DIRECT_COUNT` or `count < root.count`;
and when `balloc_find` left part of the length uncovered it returns 0 whatever
`balloc_use` may be (it is not called), the state being that left by `balloc_find`. -/
theorem map_direct_redirect_atomic {σ : Type} (c : Consts) (x : collab σ) (s : fs σ)
    (start count : Nat) (seg : Nat → block_segment) (seg_max : Nat) :
    (∀ n seg1 s1,
      map_direct c x s start count seg seg_max map_mode.MAP_REDIRECT
        = Except.ok (n, seg1, s1) →
      n ≤ 0 → s1.root = s.root ∧ s1.trace = s.trace ∧ s1.inum = s.inum) ∧
    (start ≠ 0 ∨ count > c.MAX_DIRECT_COUNT ∨ count < s.root.count →
      map_direct c x s start count seg seg_max map_mode.MAP_REDIRECT
        = Except.ok (0, seg, s)) ∧
    (∀ found need sb1,
      start = 0 → count ≤ c.MAX_DIRECT_COUNT → s.root.count ≤ count →
      x.balloc_find s.sb 1 count = (0, found, need, sb1) → need ≠ 0 →
      ∀ u, map_direct c { x with balloc_use := u } s start count seg seg_max
          map_mode.MAP_REDIRECT
        = Except.ok (0, write_segs seg 0 found, { s with sb := sb1 })) := by
  refine ⟨?_, ?_, ?_⟩
  · intro n seg1 s1 h hn
    unfold map_direct at h
    simp only [reduceCtorEq, if_false] at h
    split at h
    · cases h; exact ⟨rfl, rfl, rfl⟩
    · split at h
      · cases h; exact ⟨rfl, rfl, rfl⟩
      · split at h
        · cases h
        · rename_i segs seg2 s2 hone
          split at h
          · cases h
            exact seg_alloc_one_frame x s start count seg _ _ _ hone
          · rename_i hpos
            cases h
            exact absurd hn hpos
  · intro hg
    unfold map_direct
    simp only [reduceCtorEq, if_false]
    rcases hg with h | h | h
    · simp [h]
    · simp [h]
    · by_cases h1 : start ≠ 0 ∨ count > c.MAX_DIRECT_COUNT
      · simp [h1]
      · simp [h1, h]
  · intro found need sb1 h0 hmax hroot hfind hneed u
    unfold map_direct
    have h1 : ¬ (start ≠ 0 ∨ count > c.MAX_DIRECT_COUNT) := by
      rintro (h | h)
      · exact h h0
      · omega
    have h2 : ¬ (count < s.root.count) := by omega
    have hone : seg_alloc_one { x with balloc_use := u } s start count seg
        = Except.ok (0, write_segs seg 0 found, { s with sb := sb1 }) := by
      unfold seg_alloc_one
      simp [hfind, hneed]
    simp only [reduceCtorEq, if_false, h1, h2, hone]
    simp

/-- C16, witness of `map_direct_redirect_atomic`: a redirect of 8 blocks over the
direct extent of `fs_direct` with the allocator of short segments, which covers only
4 blocks: the call falls back with the root and the trace of `fs_direct`. -/
theorem map_direct_redirect_atomic_witness :
    map_direct test_consts { short_collab with balloc_use := bump_collab.balloc_use }
        fs_direct 0 8 seg_zero 1 map_mode.MAP_REDIRECT
      = Except.ok (0, write_segs seg_zero 0 [{ block := 100, count := 4, state := 0 }],
          { fs_direct with sb := 100 }) :=
  (map_direct_redirect_atomic test_consts short_collab fs_direct 0 8 seg_zero 1).2.2
    [{ block := 100, count := 4, state := 0 }] 4 100 rfl (by decide) (by decide) rfl
    (by decide) bump_collab.balloc_use


/-! ## Theorems: the tree lock in filemap2 (filemap.c) -/

/-- Nothing happened: no lock event. -/
theorem lock_trace_refl {σ : Type} (s : fs σ) : lock_trace s s [] :=
  ⟨rfl, [], by simp, rfl⟩

/-- Lock events of consecutive steps follow each other. -/
theorem lock_trace_trans {σ : Type} (s t u : fs σ) (l1 l2 : List Event)
    (h1 : lock_trace s t l1) (h2 : lock_trace t u l2) : lock_trace s u (l1 ++ l2) := by
  obtain ⟨hi1, n1, ht1, hf1⟩ := h1
  obtain ⟨hi2, n2, ht2, hf2⟩ := h2
  refine ⟨hi2.trans hi1, n1 ++ n2, ?_, ?_⟩
  · rw [ht2, ht1, List.append_assoc]
  · rw [List.filter_append, hf1, hf2]

/-- A step that keeps the inode number and appends the events `new`. -/
theorem lock_trace_of_eq {σ : Type} (s t : fs σ) (new : List Event)
    (hi : t.inum = s.inum) (ht : t.trace = s.trace ++ new) :
    lock_trace s t (new.filter Event.is_lock) :=
  ⟨hi, new, ht, rfl⟩

/-- The head of `filemap2` records the lock it takes. -/
theorem filemap2_lock_trace {σ : Type} (c : Consts) (mode : map_mode) (s : fs σ) :
    lock_trace s (filemap2_lock c mode s) (filemap2_down_events c s.inum mode) := by
  unfold filemap2_lock filemap2_down_events
  by_cases hb : s.inum = c.TUX_BITMAP_INO
  · simp only [ne_eq, hb, not_true_eq_false, if_false, if_true]
    exact lock_trace_refl s
  · by_cases hm : mode = map_mode.MAP_READ
    · simp only [ne_eq, hb, not_false_eq_true, if_true, if_false, hm]
      exact lock_trace_of_eq s _ [Event.down_read] rfl rfl
    · simp only [ne_eq, hb, not_false_eq_true, if_true, if_false, hm]
      exact lock_trace_of_eq s _ [Event.down_write] rfl rfl

/-- The label `out_unlock` always returns, having released the lock that the head
took and nothing else of the lock. -/
theorem filemap2_out_unlock_trace {σ : Type} (c : Consts) (x : collab σ) (mode : map_mode)
    (cursor : Bool) (segs : Int) (seg : Nat → block_segment) (s : fs σ) :
    ∃ s1, filemap2_out_unlock c x mode cursor segs seg s = Except.ok (segs, seg, s1) ∧
      lock_trace s s1 (filemap2_up_events c s.inum mode) := by
  unfold filemap2_out_unlock filemap2_up_events
  refine ⟨_, rfl, ?_⟩
  cases cursor <;> simp only [ne_eq, ite_not, Bool.false_eq_true, if_false, if_true] <;>
    split_ifs <;>
    first
      | exact lock_trace_refl s
      | exact lock_trace_of_eq s _ [Event.free_cursor] rfl (by simp [fs.emit])
      | exact lock_trace_of_eq s _ [Event.up_read] rfl rfl
      | exact lock_trace_of_eq s _ [Event.up_write] rfl rfl
      | exact lock_trace_of_eq s _ [Event.up_read, Event.free_cursor] rfl (by simp [fs.emit])
      | exact lock_trace_of_eq s _ [Event.up_write, Event.free_cursor] rfl (by simp [fs.emit])

/-- Steps without lock events before the label `out_unlock`. -/
theorem lock_trace_then_up {σ : Type} (c : Consts) (mode : map_mode) (s t u : fs σ)
    (h1 : lock_trace s t []) (h2 : lock_trace t u (filemap2_up_events c t.inum mode)) :
    lock_trace s u (filemap2_up_events c s.inum mode) := by
  have h := lock_trace_trans s t u _ _ h1 h2
  rw [h1.1] at h
  simpa using h

/-- The tail of `filemap2` from the release of the cursor on always returns, having
released the lock that the head took. -/
theorem filemap2_release_trace {σ : Type} (c : Consts) (x : collab σ) (mode : map_mode)
    (cursor : Bool) (segs : Int) (seg : Nat → block_segment) (s : fs σ) :
    ∃ s1, filemap2_release c x mode cursor segs seg s = Except.ok (segs, seg, s1) ∧
      lock_trace s s1 (filemap2_up_events c s.inum mode) := by
  unfold filemap2_release
  simp only []
  cases cursor
  · simpa using filemap2_out_unlock_trace c x mode false segs seg s
  · have h0 : lock_trace s
        (({ s with sb := x.release_cursor s.sb } : fs σ).emit Event.release_cursor) [] :=
      lock_trace_of_eq s _ [Event.release_cursor] rfl (by simp [fs.emit])
    obtain ⟨s1, h1, h2⟩ := filemap2_out_unlock_trace c x mode true segs seg
      (({ s with sb := x.release_cursor s.sb } : fs σ).emit Event.release_cursor)
    exact ⟨s1, by simpa using h1, lock_trace_then_up c mode s _ s1 h0 h2⟩

/-- Whatever `map_direct` returns, it has recorded no lock event and kept the inode
number. -/
theorem map_direct_lock_trace {σ : Type} (c : Consts) (x : collab σ) (s : fs σ)
    (start count : Nat) (seg : Nat → block_segment) (seg_max : Nat) (mode : map_mode)
    (n : Int) (seg1 : Nat → block_segment) (s1 : fs σ)
    (h : map_direct c x s start count seg seg_max mode = Except.ok (n, seg1, s1)) :
    lock_trace s s1 [] := by
  cases mode
  · obtain ⟨n0, seg0, h0, -⟩ := map_direct_read_result c x s start count seg seg_max
    rw [h0] at h
    cases h
    exact lock_trace_refl s
  · unfold map_direct at h
    simp only [reduceCtorEq, if_false, if_true] at h
    cases h
    exact lock_trace_refl s
  · unfold map_direct at h
    simp only [reduceCtorEq, if_false] at h
    split at h
    · cases h; exact lock_trace_refl s
    · split at h
      · cases h; exact lock_trace_refl s
      · split at h
        · cases h
        · rename_i segs seg2 s2 hone
          obtain ⟨hr, ht, hi⟩ := seg_alloc_one_frame x s start count seg _ _ _ hone
          split at h
          · cases h
            exact lock_trace_of_eq s _ [] hi (by simp [ht])
          · cases h
            have hf : (free_events c s2.inum s2.root.block s2.root.count).filter
                Event.is_lock = [] := by
              unfold free_events
              split <;> rfl
            by_cases hc : s2.root.count = 0
            · refine ⟨by simp [hc, fs.emit, hi],
                [Event.log_balloc (seg1 0).block (seg1 0).count, Event.mark_btree_dirty],
                by simp [hc, fs.emit, ht], rfl⟩
            · refine ⟨by simp [hc, fs.emit, hi, seg_free_eq],
                [Event.log_balloc (seg1 0).block (seg1 0).count] ++
                  free_events c s2.inum s2.root.block s2.root.count ++
                  [Event.mark_btree_dirty],
                by simp [hc, fs.emit, ht, seg_free_eq], ?_⟩
              simp only [List.filter_append, hf]
              rfl

/-- The part of `filemap2` behind the cursor set-up: on every return it has
released the lock that the head took and recorded no other lock event. -/
theorem filemap2_map_trace {σ : Type} (c : Consts) (x : collab σ) (s : fs σ)
    (start count : Nat) (seg : Nat → block_segment) (seg_max : Nat) (mode : map_mode)
    (cursor : Bool) (hx : collab_lock_neutral c x)
    (n : Int) (seg1 : Nat → block_segment) (s1 : fs σ)
    (h : filemap2_map c x s start count seg seg_max mode cursor = Except.ok (n, seg1, s1)) :
    lock_trace s s1 (filemap2_up_events c s.inum mode) := by
  obtain ⟨-, -, -, hread, hwrite⟩ := hx
  unfold filemap2_map at h
  split at h
  · split at h
    · simp only [] at h
      have hn := hread ⟨start, count, 0, 0, seg_max, seg, false⟩ s
      split at h
      · obtain ⟨u, e, p⟩ := filemap2_out_unlock_trace c x mode cursor
          (x.btree_read ⟨start, count, 0, 0, seg_max, seg, false⟩ s).1
          (x.btree_read ⟨start, count, 0, 0, seg_max, seg, false⟩ s).2.1.seg
          (x.btree_read ⟨start, count, 0, 0, seg_max, seg, false⟩ s).2.2
        have hh := e.symm.trans h
        cases hh
        exact lock_trace_then_up c mode s _ _ hn p
      · split at h
        · cases h
        · obtain ⟨u, e, p⟩ := filemap2_release_trace c x mode cursor
            ((x.btree_read ⟨start, count, 0, 0, seg_max, seg, false⟩ s).2.1.seg_cnt : Int)
            (x.btree_read ⟨start, count, 0, 0, seg_max, seg, false⟩ s).2.1.seg
            (x.btree_read ⟨start, count, 0, 0, seg_max, seg, false⟩ s).2.2
          have hh := e.symm.trans h
          cases hh
          exact lock_trace_then_up c mode s _ _ hn p
    · simp only [] at h
      obtain ⟨u, e, p⟩ := filemap2_release_trace c x mode cursor 1
        (Function.update seg 0 { block := 0, count := count, state := BLOCK_SEG_HOLE }) s
      rw [e] at h
      cases h
      exact p
  · simp only [] at h
    split at h
    · cases h
    · rename_i err rq1 t hbw
      have hn := hwrite _ s err rq1 t hbw
      split at h
      · obtain ⟨u, e, p⟩ := filemap2_release_trace c x mode cursor err rq1.seg t
        rw [e] at h
        cases h
        exact lock_trace_then_up c mode s t _ hn p
      · obtain ⟨u, e, p⟩ := filemap2_release_trace c x mode cursor (rq1.seg_cnt : Int)
          rq1.seg t
        rw [e] at h
        cases h
        exact lock_trace_then_up c mode s t _ hn p

/-- The part of `filemap2` from the cursor set-up on: on every return it has
released the lock that the head took and recorded no other lock event. -/
theorem filemap2_probe_trace {σ : Type} (c : Consts) (x : collab σ) (s : fs σ)
    (start count : Nat) (seg : Nat → block_segment) (seg_max : Nat) (mode : map_mode)
    (hx : collab_lock_neutral c x)
    (n : Int) (seg1 : Nat → block_segment) (s1 : fs σ)
    (h : filemap2_probe c x s start count seg seg_max mode = Except.ok (n, seg1, s1)) :
    lock_trace s s1 (filemap2_up_events c s.inum mode) := by
  have hx0 := hx
  obtain ⟨-, hcur, hprobe, -, -⟩ := hx
  unfold filemap2_probe at h
  split at h
  · simp only [] at h
    have hn := hcur s
    split at h
    · obtain ⟨u, e, p⟩ := filemap2_out_unlock_trace c x mode false (-ENOMEM) seg
        (x.alloc_cursor s).2
      have hh := e.symm.trans h
      cases hh
      exact lock_trace_then_up c mode s _ _ hn p
    · have hn2 := hprobe start (x.alloc_cursor s).2
      have hn3 : lock_trace s (x.btree_probe start (x.alloc_cursor s).2).2 [] := by
        simpa using lock_trace_trans s _ _ _ _ hn hn2
      split at h
      · obtain ⟨u, e, p⟩ := filemap2_out_unlock_trace c x mode true
          (x.btree_probe start (x.alloc_cursor s).2).1 seg
          (x.btree_probe start (x.alloc_cursor s).2).2
        have hh := e.symm.trans h
        cases hh
        exact lock_trace_then_up c mode s _ _ hn3 p
      · exact lock_trace_then_up c mode s _ _ hn3
          (filemap2_map_trace c x _ start count seg seg_max mode true hx0 n seg1 s1 h)
  · exact filemap2_map_trace c x s start count seg seg_max mode false hx0 n seg1 s1 h

/-- The collaborators for concrete runs leave the lock and the inode number alone. -/
theorem bump_collab_lock_neutral (c : Consts) : collab_lock_neutral c bump_collab := by
  refine ⟨fun s => ⟨rfl, [], by simp [bump_collab], rfl⟩, fun s => lock_trace_refl s,
    fun k s => lock_trace_refl s, fun rq s => lock_trace_refl s, ?_⟩
  intro rq s err rq1 s1 h
  cases h
  exact lock_trace_refl s

/-- C13: when the generic btree and cursor calls leave the tree lock alone, every
return of `filemap2` has kept the inode number and only appended to the trace, and
the lock events among the appended ones are: none for the bitmap inode; for every
other inode `down_read` then `up_read` in mode `MAP_READ`, and `down_write` then
`up_write` in every other mode. So the lock is taken if and only if the inode is not
the bitmap inode, and on every return path that same lock has been released exactly
once. -/
theorem filemap2_lock_balance {σ : Type} (c : Consts) (x : collab σ) (s : fs σ)
    (start count : Nat) (seg : Nat → block_segment) (seg_max : Nat) (mode : map_mode)
    (hx : collab_lock_neutral c x)
    (n : Int) (seg1 : Nat → block_segment) (s1 : fs σ)
    (hret : filemap2 c x s start count seg seg_max mode = Except.ok (n, seg1, s1)) :
    s1.inum = s.inum ∧
    ∃ new, s1.trace = s.trace ++ new ∧
      (s.inum = c.TUX_BITMAP_INO → new.filter Event.is_lock = []) ∧
      (s.inum ≠ c.TUX_BITMAP_INO → mode = map_mode.MAP_READ →
        new.filter Event.is_lock = [Event.down_read, Event.up_read]) ∧
      (s.inum ≠ c.TUX_BITMAP_INO → mode ≠ map_mode.MAP_READ →
        new.filter Event.is_lock = [Event.down_write, Event.up_write]) := by
  have h0 := filemap2_lock_trace c mode s
  have hall : lock_trace (filemap2_lock c mode s) s1
      (filemap2_up_events c (filemap2_lock c mode s).inum mode) := by
    unfold filemap2 at hret
    split at hret
    · cases hret
    · simp only [] at hret
      split at hret
      · split at hret
        · cases hret
        · rename_i segs seg2 t hmd
          have hn := map_direct_lock_trace c x _ start count seg seg_max mode _ _ _ hmd
          split at hret
          · obtain ⟨u, e, p⟩ := filemap2_out_unlock_trace c x mode false segs seg2 t
            have hh := e.symm.trans hret
            cases hh
            exact lock_trace_then_up c mode _ _ _ hn p
          · split at hret
            · have hn2 := hx.1 t
              have hn3 : lock_trace (filemap2_lock c mode s) (x.btree_alloc_empty t).2 [] := by
                simpa using lock_trace_trans _ _ _ _ _ hn hn2
              split at hret
              · obtain ⟨u, e, p⟩ := filemap2_out_unlock_trace c x mode false
                  (x.btree_alloc_empty t).1 seg2 (x.btree_alloc_empty t).2
                have hh := e.symm.trans hret
                cases hh
                exact lock_trace_then_up c mode _ _ _ hn3 p
              · exact lock_trace_then_up c mode _ _ _ hn3
                  (filemap2_probe_trace c x _ start count seg2 seg_max mode hx n seg1 s1 hret)
            · exact lock_trace_then_up c mode _ _ _ hn
                (filemap2_probe_trace c x _ start count seg2 seg_max mode hx n seg1 s1 hret)
      · exact filemap2_probe_trace c x _ start count seg seg_max mode hx n seg1 s1 hret
  rw [h0.1] at hall
  obtain ⟨hi, new, ht, hf⟩ := lock_trace_trans _ _ _ _ _ h0 hall
  refine ⟨hi, new, ht, ?_, ?_, ?_⟩
  · intro hb
    simpa [filemap2_down_events, filemap2_up_events, hb] using hf
  · intro hb hm
    simpa [filemap2_down_events, filemap2_up_events, hb, hm] using hf
  · intro hb hm
    simpa [filemap2_down_events, filemap2_up_events, hb, hm] using hf

/-- C13, witness of `filemap2_lock_balance`: a `MAP_WRITE` call on the inode 64 with
a tree of depth 1. -/
theorem filemap2_lock_balance_witness :
    (64 : Nat) = fs_tree.inum ∧
    ∃ new, [Event.down_write, Event.release_cursor, Event.up_write, Event.free_cursor]
        = fs_tree.trace ++ new ∧
      (fs_tree.inum = test_consts.TUX_BITMAP_INO → new.filter Event.is_lock = []) ∧
      (fs_tree.inum ≠ test_consts.TUX_BITMAP_INO → map_mode.MAP_WRITE = map_mode.MAP_READ →
        new.filter Event.is_lock = [Event.down_read, Event.up_read]) ∧
      (fs_tree.inum ≠ test_consts.TUX_BITMAP_INO → map_mode.MAP_WRITE ≠ map_mode.MAP_READ →
        new.filter Event.is_lock = [Event.down_write, Event.up_write]) :=
  filemap2_lock_balance test_consts bump_collab fs_tree 0 8 seg_zero 1 map_mode.MAP_WRITE
    (bump_collab_lock_neutral test_consts) 0 seg_zero
    { fs_tree with
      trace := [Event.down_write, Event.release_cursor, Event.up_write, Event.free_cursor] }
    rfl


/-! ## Theorems: writes, splits and well-formedness of the synthetic leaf -/

/-- The two ways `uleaf_insert` returns on a leaf that passes the sniff test: with 1
and the leaf untouched when the key is not at its seek position and no slot is free;
else with 0, the new entry standing right behind the entries before the seek
position. -/
theorem uleaf_insert_total (entries_per_leaf : Nat) (leaf : uleaf) (key val : Nat)
    (hsniff : uleaf_sniff leaf = true) :
    (¬ (uleaf_seek key leaf < leaf.count ∧
        (leaf.entries.getD (uleaf_seek key leaf) ⟨0, 0⟩).key = key) ∧
      uleaf_free entries_per_leaf leaf < 1 ∧
      uleaf_insert entries_per_leaf leaf key val = Except.ok (1, leaf)) ∨
    (∃ rest,
      ((uleaf_seek key leaf < leaf.count ∧
          (leaf.entries.getD (uleaf_seek key leaf) ⟨0, 0⟩).key = key) ∨
        ¬ uleaf_free entries_per_leaf leaf < 1) ∧
      uleaf_insert entries_per_leaf leaf key val
        = Except.ok (0,
            { leaf with
              entries := leaf.entries.take (uleaf_seek key leaf) ++
                { key := key % 2 ^ 16, val := val % 2 ^ 16 } :: rest })) := by
  by_cases hat : uleaf_seek key leaf < leaf.count ∧
      (leaf.entries.getD (uleaf_seek key leaf) ⟨0, 0⟩).key = key
  · right
    refine ⟨leaf.entries.drop (uleaf_seek key leaf + 1), Or.inl hat, ?_⟩
    rw [uleaf_insert_entries_old entries_per_leaf leaf key val hsniff hat,
      List.set_eq_take_append_cons_drop,
      if_pos (show uleaf_seek key leaf < leaf.entries.length from hat.1)]
  · by_cases hfree : uleaf_free entries_per_leaf leaf < 1
    · left
      exact ⟨hat, hfree, uleaf_insert_full entries_per_leaf leaf key val hsniff hat hfree⟩
    · right
      exact ⟨leaf.entries.drop (uleaf_seek key leaf), Or.inr hfree,
        uleaf_insert_entries_new entries_per_leaf leaf key val hsniff hat hfree⟩

/-- C14: for every `uleaf_write` request with `key.len == 1` whose key and value
fit the 16-bit entry fields, on a leaf that passes the sniff test: either
`uleaf_insert` returns 0 and the call returns `BTREE_DO_RETRY` with `key.start`
advanced by one, `key.len` 0, `*split_hint` untouched and the entry `(key, rq->val)`
found in the leaf by `uleaf_lookup`; or `uleaf_insert` returns 1 and the call returns
`BTREE_DO_SPLIT` with `*split_hint` the unchanged `key.start`, the key range and the
leaf unchanged. -/
theorem uleaf_write_effect (entries_per_leaf key_bottom key_limit : Nat) (leaf : uleaf)
    (rq : uleaf_req) (split_hint : Nat)
    (hlen : rq.key.len = 1) (hsniff : uleaf_sniff leaf = true)
    (hkey : rq.key.start < 2 ^ 16) (hval : rq.val < 2 ^ 16) :
    (∃ leaf1,
      uleaf_insert entries_per_leaf leaf rq.key.start rq.val = Except.ok (0, leaf1) ∧
      uleaf_write entries_per_leaf key_bottom key_limit leaf rq split_hint
        = Except.ok (btree_do.BTREE_DO_RETRY, leaf1,
            { rq with key := { start := rq.key.start + 1, len := 0 } }, split_hint) ∧
      uleaf_lookup leaf1 rq.key.start = some { key := rq.key.start, val := rq.val }) ∨
    (uleaf_insert entries_per_leaf leaf rq.key.start rq.val = Except.ok (1, leaf) ∧
      uleaf_write entries_per_leaf key_bottom key_limit leaf rq split_hint
        = Except.ok (btree_do.BTREE_DO_SPLIT, leaf, rq, rq.key.start)) := by
  have hk32 : rq.key.start % 2 ^ 32 = rq.key.start := Nat.mod_eq_of_lt (by omega)
  have hk16 : rq.key.start % 2 ^ 16 = rq.key.start := Nat.mod_eq_of_lt hkey
  have hv16 : rq.val % 2 ^ 16 = rq.val := Nat.mod_eq_of_lt hval
  have hs64 : (rq.key.start + 1) % 2 ^ 64 = rq.key.start + 1 := Nat.mod_eq_of_lt (by omega)
  rcases uleaf_insert_total entries_per_leaf leaf rq.key.start rq.val hsniff with
    ⟨-, -, hfull⟩ | ⟨rest, -, hins⟩
  · right
    refine ⟨hfull, ?_⟩
    unfold uleaf_write
    rw [hk32, hfull]
    simp [hlen]
  · left
    rw [hk16, hv16] at hins
    refine ⟨_, hins, ?_, uleaf_lookup_stored leaf rq.key.start _ rest leaf.magic rfl⟩
    unfold uleaf_write
    rw [hk32, hins, hs64]
    simp [hlen]

/-- C14, witness of `uleaf_write_effect`: writing key 3 to the leaf that holds
key 5, with room for 8 entries. -/
theorem uleaf_write_effect_witness :
    (∃ leaf1,
      uleaf_insert 8 leaf_five rq_three.key.start rq_three.val = Except.ok (0, leaf1) ∧
      uleaf_write 8 0 (2 ^ 48) leaf_five rq_three 0
        = Except.ok (btree_do.BTREE_DO_RETRY, leaf1,
            { rq_three with key := { start := rq_three.key.start + 1, len := 0 } }, 0) ∧
      uleaf_lookup leaf1 rq_three.key.start
        = some { key := rq_three.key.start, val := rq_three.val }) ∨
    (uleaf_insert 8 leaf_five rq_three.key.start rq_three.val = Except.ok (1, leaf_five) ∧
      uleaf_write 8 0 (2 ^ 48) leaf_five rq_three 0
        = Except.ok (btree_do.BTREE_DO_SPLIT, leaf_five, rq_three, rq_three.key.start)) :=
  uleaf_write_effect 8 0 (2 ^ 48) leaf_five rq_three 0 rfl rfl (by decide) (by decide)

/-- C14, counterexample: a request with `key.len == 1` and `key.start = 2^16 + 3` on
the leaf that holds key 5 returns `BTREE_DO_RETRY`, but the entry stored has the key
3 (the key cut to 16 bits), behind the key 5, and `uleaf_lookup` of the request's key
finds nothing. -/
theorem uleaf_write_wide_key_counterexample :
    uleaf_write 8 0 (2 ^ 48) leaf_five rq_wide 0
      = Except.ok (btree_do.BTREE_DO_RETRY,
          { magic := 0xc0de, entries := [⟨5, 0x105⟩, ⟨3, 0x103⟩] },
          { key := { start := 2 ^ 16 + 4, len := 0 }, val := 0x103 }, 0) ∧
    uleaf_lookup { magic := 0xc0de, entries := [⟨5, 0x105⟩, ⟨3, 0x103⟩] } rq_wide.key.start
      = none := by
  refine ⟨rfl, rfl⟩


/-- In a leaf with strictly increasing keys a key is absent exactly when it is not
the key of the entry at its seek position. -/
theorem uleaf_lookup_eq_none_iff (leaf : uleaf) (key : Nat) (hs : uleaf_sorted leaf) :
    uleaf_lookup leaf key = none ↔
      ¬ (uleaf_seek key leaf < leaf.count ∧
        (leaf.entries.getD (uleaf_seek key leaf) ⟨0, 0⟩).key = key) := by
  have hA := key_lt_of_mem_take_seek key leaf
  have hB := key_ge_of_mem_drop_seek key leaf hs
  have hsplit := List.take_append_drop (uleaf_seek key leaf) leaf.entries
  have hsd : (leaf.entries.drop (uleaf_seek key leaf)).Pairwise fun a b => a.key < b.key :=
    List.Pairwise.sublist (List.drop_sublist _ _) hs
  constructor
  · rintro hnone ⟨hlt, hkey⟩
    unfold uleaf.count at hlt
    have hget : leaf.entries.getD (uleaf_seek key leaf) ⟨0, 0⟩
        = leaf.entries[uleaf_seek key leaf] := by
      simp [List.getD, List.getElem?_eq_getElem hlt]
    rw [hget] at hkey
    unfold uleaf_lookup at hnone
    rw [List.find?_eq_none] at hnone
    have := hnone leaf.entries[uleaf_seek key leaf] (List.getElem_mem _)
    simp [hkey] at this
  · intro hat
    unfold uleaf_lookup
    apply find_key_eq_none
    intro e he hek
    rw [← hsplit] at he
    rcases List.mem_append.1 he with h | h
    · have := hA e h; omega
    · by_cases hlt : uleaf_seek key leaf < leaf.entries.length
      · have hdrop := List.drop_eq_getElem_cons hlt
        rw [hdrop] at h hsd
        rw [List.pairwise_cons] at hsd
        rcases List.mem_cons.1 h with rfl | hmem
        · apply hat
          refine ⟨hlt, ?_⟩
          simp [List.getD, List.getElem?_eq_getElem hlt, hek]
        · have h3 := hsd.1 e hmem
          have h4 := hB leaf.entries[uleaf_seek key leaf]
            (by rw [hdrop]; exact List.mem_cons_self _ _)
          omega
      · rw [List.drop_of_length_le (by omega)] at h
        simp at h

/-- C20: on a leaf that passes the sniff test and has strictly increasing keys,
`uleaf_insert` returns 1 exactly when the key is not already present and the leaf has
no free entry (`uleaf_free == 0`), and then the leaf (its count and all of its
entries) is unchanged; in every other case it returns 0. -/
theorem uleaf_insert_split_iff (entries_per_leaf : Nat) (leaf : uleaf) (key val : Nat)
    (hsniff : uleaf_sniff leaf = true) (hs : uleaf_sorted leaf) :
    (uleaf_lookup leaf key = none ∧ uleaf_free entries_per_leaf leaf = 0 →
      uleaf_insert entries_per_leaf leaf key val = Except.ok (1, leaf)) ∧
    (¬ (uleaf_lookup leaf key = none ∧ uleaf_free entries_per_leaf leaf = 0) →
      ∃ leaf1, uleaf_insert entries_per_leaf leaf key val = Except.ok (0, leaf1)) := by
  have hiff := uleaf_lookup_eq_none_iff leaf key hs
  constructor
  · rintro ⟨hnone, hfree⟩
    exact uleaf_insert_full entries_per_leaf leaf key val hsniff (hiff.1 hnone) (by omega)
  · intro hnot
    rcases uleaf_insert_total entries_per_leaf leaf key val hsniff with
      ⟨hat, hfree, -⟩ | ⟨rest, -, hins⟩
    · exact absurd ⟨hiff.2 hat, by omega⟩ hnot
    · exact ⟨_, hins⟩

/-- C20, witness of `uleaf_insert_split_iff`: the leaf of `test01` with room for 7
entries is full, and key 9 is not in it. -/
theorem uleaf_insert_split_iff_witness :
    (uleaf_lookup leaf_test01 9 = none ∧ uleaf_free 7 leaf_test01 = 0 →
      uleaf_insert 7 leaf_test01 9 0x109 = Except.ok (1, leaf_test01)) ∧
    (¬ (uleaf_lookup leaf_test01 9 = none ∧ uleaf_free 7 leaf_test01 = 0) →
      ∃ leaf1, uleaf_insert 7 leaf_test01 9 0x109 = Except.ok (0, leaf1)) :=
  uleaf_insert_split_iff 7 leaf_test01 9 0x109 rfl (by decide)


/-- The index at which `uleaf_split` cuts the leaf: the count when the leaf is not
empty and the hint is above its last key, else half the count. -/
theorem uleaf_split_eq (hint : Nat) (from_ into : uleaf) (hsniff : uleaf_sniff from_ = true) :
    ∃ at_, at_ ≤ from_.count ∧
      ((from_.count ≠ 0 ∧ hint > (from_.entries.getD (from_.count - 1) ⟨0, 0⟩).key) →
        at_ = from_.count) ∧
      (¬ (from_.count ≠ 0 ∧ hint > (from_.entries.getD (from_.count - 1) ⟨0, 0⟩).key) →
        at_ = from_.count / 2) ∧
      uleaf_split hint from_ into
        = Except.ok
            (if from_.count - at_ ≠ 0 then ((from_.entries.drop at_).getD 0 ⟨0, 0⟩).key
              else hint,
             { magic := from_.magic, entries := from_.entries.take at_ },
             { magic := 0xc0de, entries := from_.entries.drop at_ }) := by
  have hdrop : ∀ a, (from_.entries.drop a).take (from_.count - a) = from_.entries.drop a := by
    intro a
    apply List.take_of_length_le
    simp [uleaf.count]
  by_cases hc : from_.count ≠ 0 ∧ hint > (from_.entries.getD (from_.count - 1) ⟨0, 0⟩).key
  · refine ⟨from_.count, le_refl _, fun _ => rfl, fun h => absurd hc h, ?_⟩
    unfold uleaf_split
    rw [if_neg (by simp [hsniff])]
    simp only []
    rw [if_pos hc, hdrop]
    simp [uleaf_init]
  · refine ⟨from_.count / 2, Nat.div_le_self _ _, fun h => absurd h hc, fun _ => rfl, ?_⟩
    unfold uleaf_split
    rw [if_neg (by simp [hsniff])]
    simp only []
    rw [if_neg hc, hdrop]
    simp [uleaf_init]

/-- The test of `uleaf_split` on the last entry, told with the list's last entry. -/
theorem last_key_below_iff (l : List uentry) (hint : Nat) :
    (l.length ≠ 0 ∧ hint > (l.getD (l.length - 1) ⟨0, 0⟩).key) ↔
      ∃ e, l.getLast? = some e ∧ e.key < hint := by
  rw [List.getLast?_eq_getElem?]
  constructor
  · rintro ⟨hne, hgt⟩
    have hlt : l.length - 1 < l.length := by omega
    refine ⟨l[l.length - 1], List.getElem?_eq_getElem hlt, ?_⟩
    simpa [List.getD, List.getElem?_eq_getElem hlt] using hgt
  · rintro ⟨e, he, hlt⟩
    have hlen : l.length - 1 < l.length := by
      by_contra hcon
      rw [List.getElem?_eq_none (by omega)] at he
      cases he
    refine ⟨by omega, ?_⟩
    simpa [List.getD, he] using hlt

/-- In a list with strictly increasing keys no key is above the last one. -/
theorem key_le_last (l : List uentry) (hs : l.Pairwise fun a b => a.key < b.key)
    (last : uentry) (hlast : l.getLast? = some last) : ∀ e ∈ l, e.key ≤ last.key := by
  have hsplit : l.dropLast ++ [last] = l :=
    List.dropLast_append_getLast? last (by rw [hlast]; rfl)
  rw [← hsplit, List.pairwise_append] at hs
  intro e he
  rw [← hsplit] at he
  rcases List.mem_append.1 he with h | h
  · exact Nat.le_of_lt (hs.2.2 e h last (by simp))
  · simp at h
    rw [h]

/-- C19: for every leaf `from` that passes the sniff test, with strictly increasing
keys and count n, and every hint, `uleaf_split(hint, from, into)` returns, and then
the entries of `from` followed by those of `into` are the original entries of `from`
in order; `from` keeps n entries if the leaf has a last entry whose key is below the
hint (so n > 0) and `n / 2` entries otherwise; `into` passes `uleaf_sniff`; the
returned key is the key of the first entry of `into` when `into` is not empty and the
hint otherwise; every key left in `from` is strictly below the returned key, and the
returned key is at most every key in `into`. -/
theorem uleaf_split_partition (hint : Nat) (from_ into : uleaf)
    (hsniff : uleaf_sniff from_ = true) (hs : uleaf_sorted from_) :
    ∃ key from1 into1,
      uleaf_split hint from_ into = Except.ok (key, from1, into1) ∧
      from1.entries ++ into1.entries = from_.entries ∧
      ((∃ e, from_.entries.getLast? = some e ∧ e.key < hint) →
        from1.count = from_.count) ∧
      (¬ (∃ e, from_.entries.getLast? = some e ∧ e.key < hint) →
        from1.count = from_.count / 2) ∧
      uleaf_sniff into1 = true ∧
      (∀ e, into1.entries.head? = some e → key = e.key) ∧
      (into1.entries = [] → key = hint) ∧
      (∀ e ∈ from1.entries, e.key < key) ∧
      (∀ e ∈ into1.entries, key ≤ e.key) := by
  obtain ⟨at_, hle, hfull, hhalf, heq⟩ := uleaf_split_eq hint from_ into hsniff
  have hiff := last_key_below_iff from_.entries hint
  unfold uleaf.count at hle hfull hhalf heq
  have hpw : (from_.entries.take at_ ++ from_.entries.drop at_).Pairwise
      fun a b => a.key < b.key := by
    rw [List.take_append_drop]; exact hs
  rw [List.pairwise_append] at hpw
  obtain ⟨-, hpd, hcross⟩ := hpw
  have hlen : (from_.entries.drop at_).length = from_.entries.length - at_ := by simp
  refine ⟨_, _, _, heq, List.take_append_drop _ _, ?_, ?_, rfl, ?_, ?_, ?_, ?_⟩
  · intro h
    have := hfull (hiff.2 h)
    simp [uleaf.count, this]
  · intro h
    have := hhalf (fun hc => h (hiff.1 hc))
    simp only [uleaf.count, List.length_take, this]
    omega
  · intro e he
    cases hd : from_.entries.drop at_ with
    | nil => simp [hd] at he
    | cons a rest =>
      have hne : from_.entries.length - at_ ≠ 0 := by
        rw [← hlen, hd]; simp
      simp only [hd] at he
      simp only [List.head?_cons, Option.some.injEq] at he
      simp [hne, hd, he]
  · intro hnil
    simp only [] at hnil
    have h0 : from_.entries.length - at_ = 0 := by
      rw [← hlen, hnil]; rfl
    simp [h0]
  · intro e he
    simp only [] at he
    cases hd : from_.entries.drop at_ with
    | nil =>
      have h0 : from_.entries.length - at_ = 0 := by
        rw [← hlen, hd]; rfl
      simp only [h0, ne_eq, not_true_eq_false, if_false]
      by_cases hc : ∃ e, from_.entries.getLast? = some e ∧ e.key < hint
      · obtain ⟨last, hlast, hlt⟩ := hc
        have := key_le_last from_.entries hs last hlast e (List.mem_of_mem_take he)
        omega
      · have hat := hhalf (fun hcc => hc (hiff.1 hcc))
        have hz : from_.entries.length = 0 := by omega
        have : from_.entries = [] := List.length_eq_zero.1 hz
        simp [this] at he
    | cons a rest =>
      have hne : from_.entries.length - at_ ≠ 0 := by
        rw [← hlen, hd]; simp
      have := hcross e he a (by rw [hd]; exact List.mem_cons_self _ _)
      simpa [hne, hd] using this
  · intro e he
    simp only [] at he
    cases hd : from_.entries.drop at_ with
    | nil => simp [hd] at he
    | cons a rest =>
      have hne : from_.entries.length - at_ ≠ 0 := by
        rw [← hlen, hd]; simp
      rw [hd] at he hpd
      rw [List.pairwise_cons] at hpd
      simp only [hne, ne_eq, not_false_eq_true, if_true, hd]
      rcases List.mem_cons.1 he with rfl | hmem
      · simp
      · have := hpd.1 e hmem
        simp
        omega

/-- C19, witness of `uleaf_split_partition`: the leaf of `test01` split with the
hint 3. -/
theorem uleaf_split_partition_witness :
    ∃ key from1 into1,
      uleaf_split 3 leaf_test01 uleaf_init = Except.ok (key, from1, into1) ∧
      from1.entries ++ into1.entries = leaf_test01.entries ∧
      ((∃ e, leaf_test01.entries.getLast? = some e ∧ e.key < 3) →
        from1.count = leaf_test01.count) ∧
      (¬ (∃ e, leaf_test01.entries.getLast? = some e ∧ e.key < 3) →
        from1.count = leaf_test01.count / 2) ∧
      uleaf_sniff into1 = true ∧
      (∀ e, into1.entries.head? = some e → key = e.key) ∧
      (into1.entries = [] → key = 3) ∧
      (∀ e ∈ from1.entries, e.key < key) ∧
      (∀ e ∈ into1.entries, key ≤ e.key) :=
  uleaf_split_partition 3 leaf_test01 uleaf_init rfl (by decide)


/-- The seek position does not go down when the key goes up. -/
theorem uleaf_seek_mono (k1 k2 : Nat) (leaf : uleaf) (h : k1 ≤ k2) :
    uleaf_seek k1 leaf ≤ uleaf_seek k2 leaf := by
  rw [uleaf_seek_eq, uleaf_seek_eq]
  generalize leaf.entries = l
  induction l with
  | nil => simp
  | cons a rest ih =>
    by_cases h1 : a.key < k1
    · have h2 : a.key < k2 := by omega
      simp [List.takeWhile_cons, h1, h2, ih]
    · simp [List.takeWhile_cons, h1]

/-- Dropping a middle part of a list with strictly increasing keys keeps them
strictly increasing. -/
theorem pairwise_take_append_drop (l : List uentry) (a b : Nat) (hab : a ≤ b)
    (hs : l.Pairwise fun x y => x.key < y.key) :
    (l.take a ++ l.drop b).Pairwise fun x y => x.key < y.key := by
  have hsub : (l.take a ++ l.drop b).Sublist l := by
    have h1 : (l.drop b).Sublist (l.drop a) := by
      have : l.drop b = (l.drop a).drop (b - a) := by
        rw [List.drop_drop]; congr 1; omega
      rw [this]
      exact List.drop_sublist _ _
    have h2 := List.Sublist.append (List.Sublist.refl (l.take a)) h1
    rwa [List.take_append_drop] at h2
  exact List.Pairwise.sublist hsub hs

/-- An entry put between the entries with smaller keys and entries with greater
keys, both taken in order from a list with strictly increasing keys. -/
theorem pairwise_insert_between (l : List uentry) (a b : Nat) (hab : a ≤ b) (new : uentry)
    (hs : l.Pairwise fun x y => x.key < y.key)
    (hlo : ∀ e ∈ l.take a, e.key < new.key) (hhi : ∀ e ∈ l.drop b, new.key < e.key) :
    (l.take a ++ new :: l.drop b).Pairwise fun x y => x.key < y.key := by
  have h := pairwise_take_append_drop l a b hab hs
  rw [List.pairwise_append] at h ⊢
  obtain ⟨h1, h2, h3⟩ := h
  refine ⟨h1, List.pairwise_cons.2 ⟨hhi, h2⟩, ?_⟩
  intro x hx y hy
  rcases List.mem_cons.1 hy with rfl | hy
  · exact hlo x hx
  · exact h3 x hx y hy

/-- Well-formedness after `uleaf_insert` of a key that fits the `u16` key field: the
call returns, the keys are strictly increasing again and the count is within
`entries_per_leaf`. -/
theorem uleaf_insert_wellformed (entries_per_leaf : Nat) (leaf : uleaf) (key val : Nat)
    (hsniff : uleaf_sniff leaf = true) (hs : uleaf_sorted leaf)
    (hcount : leaf.count ≤ entries_per_leaf) (hkey : key < 2 ^ 16) :
    ∃ ret leaf1, uleaf_insert entries_per_leaf leaf key val = Except.ok (ret, leaf1) ∧
      uleaf_sorted leaf1 ∧ leaf1.count ≤ entries_per_leaf := by
  have hkm : key % 2 ^ 16 = key := Nat.mod_eq_of_lt hkey
  have hA := key_lt_of_mem_take_seek key leaf
  have hB := key_ge_of_mem_drop_seek key leaf hs
  have hle := uleaf_seek_le key leaf
  have hsd : (leaf.entries.drop (uleaf_seek key leaf)).Pairwise fun a b => a.key < b.key :=
    List.Pairwise.sublist (List.drop_sublist _ _) hs
  unfold uleaf.count at hle hcount
  by_cases hat : uleaf_seek key leaf < leaf.count ∧
      (leaf.entries.getD (uleaf_seek key leaf) ⟨0, 0⟩).key = key
  · refine ⟨_, _, uleaf_insert_entries_old entries_per_leaf leaf key val hsniff hat, ?_, ?_⟩
    · obtain ⟨hlt, hk⟩ := hat
      unfold uleaf.count at hlt
      have hget : leaf.entries.getD (uleaf_seek key leaf) ⟨0, 0⟩
          = leaf.entries[uleaf_seek key leaf] := by
        simp [List.getD, List.getElem?_eq_getElem hlt]
      rw [hget] at hk
      have hdrop := List.drop_eq_getElem_cons hlt
      rw [hdrop, List.pairwise_cons] at hsd
      unfold uleaf_sorted
      simp only []
      rw [List.set_eq_take_append_cons_drop, if_pos hlt, hkm]
      apply pairwise_insert_between leaf.entries _ _ (Nat.le_succ _) _ hs
      · intro e he; exact hA e he
      · intro e he
        have := hsd.1 e he
        simp only []
        omega
    · simp [uleaf.count]
      exact hcount
  · by_cases hfree : uleaf_free entries_per_leaf leaf < 1
    · exact ⟨_, _, uleaf_insert_full entries_per_leaf leaf key val hsniff hat hfree, hs,
        hcount⟩
    · refine ⟨_, _, uleaf_insert_entries_new entries_per_leaf leaf key val hsniff hat hfree,
        ?_, ?_⟩
      · have hnone := (uleaf_lookup_eq_none_iff leaf key hs).2 hat
        unfold uleaf_lookup at hnone
        rw [List.find?_eq_none] at hnone
        unfold uleaf_sorted
        simp only []
        rw [hkm]
        apply pairwise_insert_between leaf.entries _ _ (le_refl _) _ hs
        · intro e he; exact hA e he
        · intro e he
          have h1 := hB e he
          have h2 := hnone e (List.mem_of_mem_drop he)
          simp only [beq_iff_eq] at h2
          simp only []
          omega
      · unfold uleaf_free uleaf.count at hfree
        simp only [uleaf.count, List.length_append, List.length_cons, List.length_take,
          List.length_drop]
        omega

/-- C18: leaf well-formedness is preserved by the mutating uleaf operations within
the key domain: for every uleaf that passes the sniff test, whose keys are strictly
increasing and whose count is at most `entries_per_leaf`: after `uleaf_insert` with
any key that fits the `u16` key field and any value; after `uleaf_chop` with any
`start` and `len` whose stop key is not below `start` (`start <= TUXKEY_LIMIT` when
`len >= TUXKEY_LIMIT`, `start + len` below `2^64` otherwise); and after `uleaf_split`
with any hint (for both resulting leaves): the keys are again strictly increasing and
the count is at most `entries_per_leaf`. -/
theorem uleaf_ops_keep_wellformed (c : Consts) (entries_per_leaf : Nat) (leaf : uleaf)
    (hsniff : uleaf_sniff leaf = true) (hs : uleaf_sorted leaf)
    (hcount : leaf.count ≤ entries_per_leaf) :
    (∀ key val, key < 2 ^ 16 →
      ∃ ret leaf1, uleaf_insert entries_per_leaf leaf key val = Except.ok (ret, leaf1) ∧
        uleaf_sorted leaf1 ∧ leaf1.count ≤ entries_per_leaf) ∧
    (∀ start len,
      (c.TUXKEY_LIMIT ≤ len ∧ start ≤ c.TUXKEY_LIMIT) ∨
        (len < c.TUXKEY_LIMIT ∧ start + len < 2 ^ 64) →
      uleaf_sorted (uleaf_chop c start len leaf).2 ∧
        (uleaf_chop c start len leaf).2.count ≤ entries_per_leaf) ∧
    (∀ hint into,
      ∃ key from1 into1, uleaf_split hint leaf into = Except.ok (key, from1, into1) ∧
        uleaf_sorted from1 ∧ from1.count ≤ entries_per_leaf ∧
        uleaf_sorted into1 ∧ into1.count ≤ entries_per_leaf) := by
  refine ⟨?_, ?_, ?_⟩
  · intro key val hkey
    exact uleaf_insert_wellformed entries_per_leaf leaf key val hsniff hs hcount hkey
  · intro start len hrange
    have hstop : start ≤
        (if len ≥ c.TUXKEY_LIMIT then c.TUXKEY_LIMIT else (start + len) % 2 ^ 64) := by
      rcases hrange with ⟨h1, h2⟩ | ⟨h1, h2⟩
      · rw [if_pos h1]; exact h2
      · rw [if_neg (by omega), Nat.mod_eq_of_lt h2]; omega
    have hmono := uleaf_seek_mono _ _ leaf hstop
    have hle := uleaf_seek_le start leaf
    unfold uleaf.count at hle hcount
    constructor
    · unfold uleaf_sorted
      rw [uleaf_chop_entries]
      exact pairwise_take_append_drop leaf.entries _ _ hmono hs
    · unfold uleaf.count
      rw [uleaf_chop_entries]
      simp only [List.length_append, List.length_take, List.length_drop]
      omega
  · intro hint into
    obtain ⟨at_, hle, -, -, heq⟩ := uleaf_split_eq hint leaf into hsniff
    unfold uleaf.count at hle hcount
    refine ⟨_, _, _, heq, ?_, ?_, ?_, ?_⟩
    · exact List.Pairwise.sublist (List.take_sublist _ _) hs
    · simp only [uleaf.count, List.length_take]
      omega
    · exact List.Pairwise.sublist (List.drop_sublist _ _) hs
    · simp only [uleaf.count, List.length_drop]
      omega

/-- C18, witness of `uleaf_ops_keep_wellformed`: the leaf of `test01` with room
for 8 entries. -/
theorem uleaf_ops_keep_wellformed_witness :
    (∀ key val, key < 2 ^ 16 →
      ∃ ret leaf1, uleaf_insert 8 leaf_test01 key val = Except.ok (ret, leaf1) ∧
        uleaf_sorted leaf1 ∧ leaf1.count ≤ 8) ∧
    (∀ start len,
      (test_consts.TUXKEY_LIMIT ≤ len ∧ start ≤ test_consts.TUXKEY_LIMIT) ∨
        (len < test_consts.TUXKEY_LIMIT ∧ start + len < 2 ^ 64) →
      uleaf_sorted (uleaf_chop test_consts start len leaf_test01).2 ∧
        (uleaf_chop test_consts start len leaf_test01).2.count ≤ 8) ∧
    (∀ hint into,
      ∃ key from1 into1, uleaf_split hint leaf_test01 into = Except.ok (key, from1, into1) ∧
        uleaf_sorted from1 ∧ from1.count ≤ 8 ∧
        uleaf_sorted into1 ∧ into1.count ≤ 8) :=
  uleaf_ops_keep_wellformed test_consts 8 leaf_test01 rfl (by decide) (by decide)

/-- C18, counterexample: on well-formed leaves with room for 8 entries,
`uleaf_insert` of the key `2^16 + 3` into the leaf that holds key 5 stores the key
3 behind the key 5, and `uleaf_chop` of the leaf of `test01` with
`start = 2^64 - 1` and `len = 2` (the stop key wraps to 1) leaves 13 entries that
are not in increasing order. -/
theorem uleaf_wellformed_counterexample :
    (uleaf_sniff leaf_five = true ∧ uleaf_sorted leaf_five ∧ leaf_five.count ≤ 8) ∧
    uleaf_insert 8 leaf_five (2 ^ 16 + 3) 0x103
      = Except.ok (0, { magic := 0xc0de, entries := [⟨5, 0x105⟩, ⟨3, 0x103⟩] }) ∧
    ¬ uleaf_sorted { magic := 0xc0de, entries := [⟨5, 0x105⟩, ⟨3, 0x103⟩] } ∧
    (uleaf_sniff leaf_test01 = true ∧ uleaf_sorted leaf_test01 ∧ leaf_test01.count ≤ 8) ∧
    (uleaf_chop test_consts (2 ^ 64 - 1) 2 leaf_test01).2.count = 13 ∧
    ¬ uleaf_sorted (uleaf_chop test_consts (2 ^ 64 - 1) 2 leaf_test01).2 := by
  refine ⟨⟨rfl, by decide, by decide⟩, rfl, by decide, ⟨rfl, by decide, by decide⟩, ?_, ?_⟩
  · unfold uleaf.count
    rw [uleaf_chop_entries]
    decide
  · unfold uleaf_sorted
    rw [uleaf_chop_entries]
    decide


/-- C20, counterexample: in the leaf with the keys 5, 3 (not increasing) and room
for 2 entries, key 3 is present, yet `uleaf_insert` of key 3 returns 1: the code looks
for the key at its seek position only, which is index 0 here. -/
theorem uleaf_insert_unsorted_counterexample :
    uleaf_lookup leaf_unsorted 3 = some ⟨3, 0x103⟩ ∧
    uleaf_free 2 leaf_unsorted = 0 ∧
    uleaf_seek 3 leaf_unsorted = 0 ∧
    uleaf_insert 2 leaf_unsorted 3 0x203 = Except.ok (1, leaf_unsorted) := by
  refine ⟨rfl, rfl, rfl, rfl⟩


/-! ## Theorems: merging leaves (tests/btree.c) -/

/-- C21: for leaves whose counts add up within `u32`, `uleaf_merge(into, from)`
returns 1 exactly when `into.count + from.count <= entries_per_leaf`; when it returns
1 the entries of `into` are its old entries followed by the entries of `from`, in
order, and `from` is as before; when it returns 0 both leaves are unchanged. -/
theorem uleaf_merge_effect (entries_per_leaf : Nat) (into from_ : uleaf)
    (hsum : into.count + from_.count < 2 ^ 32) :
    ((uleaf_merge entries_per_leaf into from_).1 = 1 ↔
      into.count + from_.count ≤ entries_per_leaf) ∧
    (into.count + from_.count ≤ entries_per_leaf →
      uleaf_merge entries_per_leaf into from_
        = (1, { into with entries := into.entries ++ from_.entries }, from_)) ∧
    (¬ into.count + from_.count ≤ entries_per_leaf →
      uleaf_merge entries_per_leaf into from_ = (0, into, from_)) := by
  have hmod : (into.count + from_.count) % 2 ^ 32 = into.count + from_.count :=
    Nat.mod_eq_of_lt hsum
  have htake : from_.entries.take from_.count = from_.entries := List.take_length _
  unfold uleaf_merge
  rw [hmod, htake]
  by_cases h : into.count + from_.count ≤ entries_per_leaf
  · have h2 : ¬ into.count + from_.count > entries_per_leaf := by omega
    simp [h2, h]
  · have h2 : into.count + from_.count > entries_per_leaf := by omega
    simp [h2, h]

/-- C21, witness of `uleaf_merge_effect`: the leaf of `test01` merged into the leaf
that holds key 5, with room for 8 entries. -/
theorem uleaf_merge_effect_witness :
    ((uleaf_merge 8 leaf_five leaf_test01).1 = 1 ↔
      leaf_five.count + leaf_test01.count ≤ 8) ∧
    (leaf_five.count + leaf_test01.count ≤ 8 →
      uleaf_merge 8 leaf_five leaf_test01
        = (1, { leaf_five with entries := leaf_five.entries ++ leaf_test01.entries },
            leaf_test01)) ∧
    (¬ leaf_five.count + leaf_test01.count ≤ 8 →
      uleaf_merge 8 leaf_five leaf_test01 = (0, leaf_five, leaf_test01)) :=
  uleaf_merge_effect 8 leaf_five leaf_test01 (by decide)

/-- C30: for every leaf `from` that passes the sniff test, with count at most
`entries_per_leaf`, and every hint, `uleaf_split(hint, from, into)` returns, and
`uleaf_merge(from, into)` on the two leaves it leaves returns 1 and gives `from` its
original entries in the original order (so its original count) and its magic. -/
theorem uleaf_split_merge (entries_per_leaf hint : Nat) (from_ into : uleaf)
    (hsniff : uleaf_sniff from_ = true) (hcount : from_.count ≤ entries_per_leaf) :
    ∃ key from1 into1,
      uleaf_split hint from_ into = Except.ok (key, from1, into1) ∧
      uleaf_merge entries_per_leaf from1 into1 = (1, from_, into1) := by
  obtain ⟨at_, hle, -, -, heq⟩ := uleaf_split_eq hint from_ into hsniff
  refine ⟨_, _, _, heq, ?_⟩
  unfold uleaf.count at hle hcount
  have hlen : (from_.entries.take at_).length + (from_.entries.drop at_).length
      = from_.entries.length := by
    rw [← List.length_append, List.take_append_drop]
  have hmod : ((from_.entries.take at_).length + (from_.entries.drop at_).length) % 2 ^ 32
      ≤ entries_per_leaf := by
    rw [hlen]
    exact le_trans (Nat.mod_le _ _) hcount
  unfold uleaf_merge
  simp only [uleaf.count]
  rw [if_neg (by omega), List.take_length, List.take_append_drop]

/-- C30, witness of `uleaf_split_merge`: the leaf of `test01`, with room for 8
entries, split with the hint 3 and merged again. -/
theorem uleaf_split_merge_witness :
    ∃ key from1 into1,
      uleaf_split 3 leaf_test01 uleaf_init = Except.ok (key, from1, into1) ∧
      uleaf_merge 8 from1 into1 = (1, leaf_test01, into1) :=
  uleaf_split_merge 8 3 leaf_test01 uleaf_init rfl (by decide)


/-! ## Theorems: bounds of seg_find and the direct-extent round trip (filemap.c) -/

/-- C22: on a request that passes the assertion `seg_idx == seg_cnt`, `seg_find`
asks `balloc_find` for `min(space, seg_max - seg_idx)` segments and no more than
`seg_max - seg_idx` (its result depends on `balloc_find` only at that argument); so,
provided `balloc_find` returns no more segments than asked and leaves at most the
requested length uncovered: when it succeeds, `seg_find` returns 0 with
`seg_cnt == seg_idx + segs <= seg_max` and `*alloc_len == seg_len - remaining
<= seg_len`; when it fails with an error other than `-ENOSPC`, the error is returned
and `seg_cnt` and `*alloc_len` are not written; when it fails with `-ENOSPC` the
assertion fires. -/
theorem seg_find_bounds {σ : Type} (x : collab σ) (rq : dleaf_req) (space : Int)
    (seg_len : Nat) (s : fs σ) (err : Int) (found : List block_segment) (len : Nat)
    (sb1 : σ)
    (hassert : rq.seg_idx = rq.seg_cnt) (hlen32 : seg_len < 2 ^ 32)
    (hfind : x.balloc_find s.sb (min space ((rq.seg_max : Int) - (rq.seg_idx : Int))) seg_len
      = (err, found, len, sb1))
    (hsegs : (found.length : Int) ≤ min space ((rq.seg_max : Int) - (rq.seg_idx : Int)))
    (hrem : len ≤ seg_len) :
    min space ((rq.seg_max : Int) - (rq.seg_idx : Int))
      ≤ (rq.seg_max : Int) - (rq.seg_idx : Int) ∧
    (∀ y : collab σ,
      y.balloc_find s.sb (min space ((rq.seg_max : Int) - (rq.seg_idx : Int))) seg_len
        = x.balloc_find s.sb (min space ((rq.seg_max : Int) - (rq.seg_idx : Int))) seg_len →
      seg_find y rq space seg_len s = seg_find x rq space seg_len s) ∧
    (err = 0 →
      ∃ rq1 alloc, seg_find x rq space seg_len s
          = Except.ok (0, rq1, some alloc, { s with sb := sb1 }) ∧
        rq1.seg_cnt = rq.seg_idx + found.length ∧
        (rq1.seg_cnt : Int) ≤ (rq.seg_max : Int) ∧
        alloc = seg_len - len ∧ alloc ≤ seg_len) ∧
    (err ≠ 0 → err ≠ -ENOSPC →
      ∃ rq1, seg_find x rq space seg_len s
          = Except.ok (err, rq1, none, { s with sb := sb1 }) ∧
        rq1.seg_cnt = rq.seg_cnt) ∧
    (err = -ENOSPC → seg_find x rq space seg_len s = Except.error Fault.assertion) := by
  have hmin : min space ((rq.seg_max : Int) - (rq.seg_idx : Int))
      ≤ (rq.seg_max : Int) - (rq.seg_idx : Int) := min_le_right _ _
  have halloc : (seg_len + 2 ^ 32 - len) % 2 ^ 32 = seg_len - len := by omega
  refine ⟨hmin, ?_, ?_, ?_, ?_⟩
  · intro y hy
    unfold seg_find
    simp only [hy]
  · intro h0
    subst h0
    have key : seg_find x rq space seg_len s
        = Except.ok (0,
            { rq with
              seg := fun i =>
                if rq.seg_idx ≤ i ∧ i < rq.seg_idx + found.length then
                  { write_segs rq.seg rq.seg_idx found i with
                    state := if rq.overwrite then BLOCK_SEG_NEW else 0 }
                else write_segs rq.seg rq.seg_idx found i,
              seg_cnt := rq.seg_idx + found.length },
            some (seg_len - len), { s with sb := sb1 }) := by
      rw [← halloc]
      unfold seg_find
      rw [hassert] at hfind
      simp [hassert, hfind]
    refine ⟨_, _, key, rfl, ?_, rfl, Nat.sub_le _ _⟩
    simp only [Nat.cast_add]
    omega
  · intro hne hnospc
    have key : seg_find x rq space seg_len s
        = Except.ok (err, { rq with seg := write_segs rq.seg rq.seg_idx found }, none,
            { s with sb := sb1 }) := by
      unfold seg_find
      rw [hassert] at hfind
      simp [hassert, hfind, hne, hnospc]
    exact ⟨_, key, rfl⟩
  · intro hnospc
    subst hnospc
    unfold seg_find
    rw [hassert] at hfind
    simp [hassert, hfind, ENOSPC]

/-- C22, witness of `seg_find_bounds`: `seg_find` on `rq_two` (room for four
segments, two in use) asking the bump allocator for 8 blocks with space for 4
segments: it asks for 2 and gets one segment covering all 8 blocks. -/
theorem seg_find_bounds_witness :
    min (4 : Int) ((rq_two.seg_max : Int) - (rq_two.seg_idx : Int))
      ≤ (rq_two.seg_max : Int) - (rq_two.seg_idx : Int) ∧
    (∀ y : collab Nat,
      y.balloc_find fs_empty.sb (min 4 ((rq_two.seg_max : Int) - (rq_two.seg_idx : Int))) 8
        = bump_collab.balloc_find fs_empty.sb
            (min 4 ((rq_two.seg_max : Int) - (rq_two.seg_idx : Int))) 8 →
      seg_find y rq_two 4 8 fs_empty = seg_find bump_collab rq_two 4 8 fs_empty) ∧
    ((0 : Int) = 0 →
      ∃ rq1 alloc, seg_find bump_collab rq_two 4 8 fs_empty
          = Except.ok (0, rq1, some alloc, { fs_empty with sb := 100 }) ∧
        rq1.seg_cnt
          = rq_two.seg_idx + [({ block := 100, count := 8, state := 0 } : block_segment)].length ∧
        (rq1.seg_cnt : Int) ≤ (rq_two.seg_max : Int) ∧
        alloc = 8 - 0 ∧ alloc ≤ 8) ∧
    ((0 : Int) ≠ 0 → (0 : Int) ≠ -ENOSPC →
      ∃ rq1, seg_find bump_collab rq_two 4 8 fs_empty
          = Except.ok (0, rq1, none, { fs_empty with sb := 100 }) ∧
        rq1.seg_cnt = rq_two.seg_cnt) ∧
    ((0 : Int) = -ENOSPC →
      seg_find bump_collab rq_two 4 8 fs_empty = Except.error Fault.assertion) :=
  seg_find_bounds bump_collab rq_two 4 8 fs_empty 0
    [{ block := 100, count := 8, state := 0 }] 0 100 rfl (by decide) rfl (by decide)
    (by decide)

/-- C22, counterexample: when `balloc_find` fails with `-ENOSPC` (storing no
segment), `seg_find` does not return the error: its assertion
`assert(err != -ENOSPC)` fires. -/
theorem seg_find_enospc_counterexample :
    enospc_collab.balloc_find fs_empty.sb
        (min 4 ((rq_two.seg_max : Int) - (rq_two.seg_idx : Int))) 8
      = (-ENOSPC, [], 8, 100) ∧
    rq_two.seg_idx = rq_two.seg_cnt ∧
    seg_find enospc_collab rq_two 4 8 fs_empty = Except.error Fault.assertion := by
  refine ⟨rfl, rfl, rfl⟩


/-- A Redirect-mode `map_direct` that returns a positive value has made `seg[0]` the
direct extent of the root. -/
theorem map_direct_redirect_root {σ : Type} (c : Consts) (x : collab σ) (s : fs σ)
    (start count : Nat) (seg : Nat → block_segment) (seg_max : Nat)
    (n : Int) (seg1 : Nat → block_segment) (s1 : fs σ)
    (h : map_direct c x s start count seg seg_max map_mode.MAP_REDIRECT
      = Except.ok (n, seg1, s1))
    (hpos : 0 < n) :
    s1.root = { direct := 1, count := (seg1 0).count, block := (seg1 0).block, depth := 0 } := by
  unfold map_direct at h
  simp only [reduceCtorEq, if_false] at h
  split at h
  · cases h; omega
  · split at h
    · cases h; omega
    · split at h
      · cases h
      · split at h
        · rename_i hle
          cases h
          omega
        · cases h
          rfl

/-- C25: after a successful Redirect-mode `map_direct` of `(0, count)` that returned
the segment `(b, count)`, the tree is still without root, a Read-mode `map_direct` of
any `(st, k)` with `st < count` (and `b + st` inside the 64 bits of `block_t`)
returns at least one segment, the first being a mapped segment with block `b + st`
and count `min(k, count - st)`, and a Read-mode `map_direct` of any `(st, k)` with
`st >= count` returns 0 without writing `seg[]`; the reads leave the state as it
is. -/
theorem map_direct_write_read {σ : Type} (c : Consts) (x : collab σ) (s : fs σ)
    (count : Nat) (seg : Nat → block_segment) (seg_max : Nat)
    (n : Int) (seg1 : Nat → block_segment) (s1 : fs σ) (b : Nat)
    (hret : map_direct c x s 0 count seg seg_max map_mode.MAP_REDIRECT
      = Except.ok (n, seg1, s1))
    (hpos : 0 < n) (hblock : (seg1 0).block = b) (hcount : (seg1 0).count = count) :
    has_root s1.root = false ∧
    ∀ (st k : Nat) (seg2 : Nat → block_segment) (seg_max2 : Nat),
      (st < count → b + st < 2 ^ 64 →
        ∃ m seg3, map_direct c x s1 st k seg2 seg_max2 map_mode.MAP_READ
            = Except.ok (m, seg3, s1) ∧
          0 < m ∧
          seg3 0 = { block := b + st, count := min k (count - st), state := 0 }) ∧
      (count ≤ st →
        map_direct c x s1 st k seg2 seg_max2 map_mode.MAP_READ = Except.ok (0, seg2, s1)) := by
  have hroot := map_direct_redirect_root c x s 0 count seg seg_max n seg1 s1 hret hpos
  rw [hblock, hcount] at hroot
  have hrc : s1.root.count = count := by rw [hroot]
  have hrb : s1.root.block = b := by rw [hroot]
  refine ⟨by rw [hroot]; rfl, ?_⟩
  intro st k seg2 seg_max2
  constructor
  · intro hlt hB
    have hmod : (b + st) % 2 ^ 64 = b + st := Nat.mod_eq_of_lt hB
    unfold map_direct
    simp only [if_true, hrc, hrb, hlt, hmod]
    by_cases hover : st + k > count
    · have hmin : min k (count - st) = count - st := by omega
      simp only [hover, if_true, hmin]
      by_cases h1 : seg_max2 ≤ 1
      · simp only [h1, if_true]
        exact ⟨1, _, rfl, by norm_num, by simp⟩
      · simp only [h1, if_false]
        refine ⟨2, _, rfl, by norm_num, ?_⟩
        simp [Function.update]
    · have hmin : min k (count - st) = k := by omega
      simp only [hover, if_false, hmin]
      exact ⟨1, _, rfl, by norm_num, by simp⟩
  · intro hge
    have hnlt : ¬ st < count := by omega
    unfold map_direct
    simp only [if_true, hrc, hnlt, if_false]

/-- C25, witness of `map_direct_write_read`: a redirect of 8 blocks on the inode
without root, served by the bump allocator at block 100. -/
theorem map_direct_write_read_witness :
    has_root fs_redirected.root = false ∧
    ∀ (st k : Nat) (seg2 : Nat → block_segment) (seg_max2 : Nat),
      (st < 8 → 100 + st < 2 ^ 64 →
        ∃ m seg3, map_direct test_consts bump_collab fs_redirected st k seg2 seg_max2
              map_mode.MAP_READ
            = Except.ok (m, seg3, fs_redirected) ∧
          0 < m ∧
          seg3 0 = { block := 100 + st, count := min k (8 - st), state := 0 }) ∧
      (8 ≤ st →
        map_direct test_consts bump_collab fs_redirected st k seg2 seg_max2
            map_mode.MAP_READ
          = Except.ok (0, seg2, fs_redirected)) :=
  map_direct_write_read test_consts bump_collab fs_empty 8 seg_zero 1 1
    (write_segs seg_zero 0 [{ block := 100, count := 8, state := 0 }]) fs_redirected
    100 rfl (by decide) rfl rfl


/-! ## Theorems: the dirty-list invariant (buffer.c) -/

/-- The whole result of `tux3_set_buffer_dirty_list` on a buffer without
`b_assoc_map` that is on no list. -/
theorem tux3_set_buffer_dirty_list_fresh_eq (env : DeltaEnv) (w : bufworld)
    (mapping buffer delta head : Nat)
    (hdelta : env.tux3_delta delta < env.TUX3_MAX_DELTA)
    (hmap : (w.bufs buffer).b_assoc_map = none)
    (hempty : list_empty_assoc w buffer = true) :
    tux3_set_buffer_dirty_list env w mapping buffer delta head
      = Except.ok
          { bufs := Function.update w.bufs buffer
              { dirty := true, bufsta := env.tux3_delta delta + BUFDELTA_AVAIL,
                b_assoc_map := some mapping },
            heads := w.heads.modify (fun l => l ++ [buffer]) head } := by
  have hempty1 : ∀ bufs, list_empty_assoc { bufs := bufs, heads := w.heads } buffer = true :=
    fun _ => hempty
  have hdel := list_del_init_of_empty w buffer hempty
  have hsta := tux3_bufsta_update_eq env (w.bufs buffer).bufsta (env.tux3_delta delta) hdelta
  unfold tux3_set_buffer_dirty_list
  simp only [Function.update_same, hmap, if_true, hempty1 _, Bool.not_true,
    Bool.false_eq_true, if_false, list_move_tail, hdel, tux3_set_bufdelta, hsta,
    Function.update_idem]

/-- Unlinking a buffer that was linked at the tail of one list, being on none
before, gives the lists as they were. -/
theorem list_del_init_modify (heads : List (List Nat)) (buffer head : Nat)
    (hempty : ∀ l ∈ heads, buffer ∉ l) :
    list_del_init (heads.modify (fun l => l ++ [buffer]) head) buffer = heads := by
  unfold list_del_init
  induction heads generalizing head with
  | nil => simp
  | cons l rest ih =>
    have hl : buffer ∉ l := hempty l (List.mem_cons_self _ _)
    have hrest : ∀ l ∈ rest, buffer ∉ l := fun m hm => hempty m (List.mem_cons_of_mem _ hm)
    have herase : List.map (fun l => l.erase buffer) rest = rest := by
      conv_rhs => rw [← List.map_id rest]
      apply List.map_congr_left
      intro m hm
      exact List.erase_of_not_mem (hrest m hm)
    cases head with
    | zero =>
      simp only [List.modify_zero_cons, List.map_cons, herase]
      congr 1
      rw [List.erase_append_right _ hl]
      simp
    | succ n =>
      simp only [List.modify_succ_cons, List.map_cons, ih n hrest]
      rw [List.erase_of_not_mem hl]

/-- The buffer is on no list, told list by list. -/
theorem list_empty_assoc_iff (w : bufworld) (buffer : Nat) :
    list_empty_assoc w buffer = true ↔ ∀ l ∈ w.heads, buffer ∉ l := by
  unfold list_empty_assoc
  rw [List.all_eq_true]
  constructor
  · intro h l hl hmem
    have := h l hl
    simp only [Bool.not_eq_true', List.contains_eq_any_beq, List.any_eq_false, beq_iff_eq]
      at this
    exact this buffer hmem rfl
  · intro h l hl
    have := h l hl
    simp [this]

/-- The value of the macro `buffer_need_fork` on a dirty buffer that carries a delta
tag. -/
theorem buffer_need_fork_tagged (env : DeltaEnv) (b : buffer_head) (d : Nat)
    (hdirty : b.dirty = true) (htag : tux3_bufsta_has_delta b.bufsta = true) :
    buffer_need_fork env b d
      = Except.ok (!decide (tux3_bufsta_get_delta b.bufsta = env.tux3_delta d)) := by
  unfold buffer_need_fork buffer_can_modify tux3_bufdelta
  simp only [hdirty, if_true, Bool.not_true, Bool.false_eq_true, if_false, htag]
  by_cases h : tux3_bufsta_get_delta b.bufsta = env.tux3_delta d
  · simp [h]
  · simp [h]

/-- C24: for every clean buffer with no `b_assoc_map` (on no list, as the `BUG_ON` of
the function wants) and every delta, `tux3_set_buffer_dirty(mapping, buffer, delta)`
followed by `tux3_clear_buffer_dirty(buffer, delta)` passes the need-fork assertion
and leaves the buffer not dirty, on no dirty list, with `b_assoc_map` NULL and
without delta tag; and for every buffer and every `d` the macro `buffer_need_fork`
gives false (the assertion of `tux3_clear_buffer_dirty(buffer, d)` holds) exactly
when the buffer is not dirty or it carries a tag that equals `tux3_delta(d)`.
`tux3_delta` is a parameter that maps `delta` to a slot below `TUX3_MAX_DELTA`. -/
theorem dirty_clear_roundtrip (env : DeltaEnv) (w : bufworld) (mapping buffer delta : Nat)
    (hdelta : env.tux3_delta delta < env.TUX3_MAX_DELTA)
    (hclean : (w.bufs buffer).dirty = false)
    (hmap : (w.bufs buffer).b_assoc_map = none)
    (hempty : list_empty_assoc w buffer = true) :
    (∃ w1 w2, tux3_set_buffer_dirty env w mapping buffer delta = Except.ok w1 ∧
      buffer_need_fork env (w1.bufs buffer) delta = Except.ok false ∧
      tux3_clear_buffer_dirty env w1 buffer delta = Except.ok w2 ∧
      (w2.bufs buffer).dirty = false ∧
      list_empty_assoc w2 buffer = true ∧
      (w2.bufs buffer).b_assoc_map = none ∧
      tux3_bufsta_has_delta (w2.bufs buffer).bufsta = false) ∧
    (∀ (b : buffer_head) (d : Nat),
      buffer_need_fork env b d = Except.ok false ↔
        (b.dirty = false ∨
          (tux3_bufsta_has_delta b.bufsta = true ∧
            tux3_bufsta_get_delta b.bufsta = env.tux3_delta d))) := by
  constructor
  · have hset := tux3_set_buffer_dirty_list_fresh_eq env w mapping buffer delta
      (env.tux3_dirty_buffers mapping delta) hdelta hmap hempty
    have hlists := (list_empty_assoc_iff w buffer).1 hempty
    have hfork : buffer_need_fork env
        { dirty := true, bufsta := env.tux3_delta delta + BUFDELTA_AVAIL,
          b_assoc_map := some mapping } delta = Except.ok false := by
      rw [buffer_need_fork_tagged env _ delta rfl
        (by simp [tux3_bufsta_has_delta, BUFDELTA_AVAIL])]
      simp [tux3_bufsta_get_delta, BUFDELTA_AVAIL]
    refine ⟨_, (⟨Function.update w.bufs buffer ⟨false, 0, none⟩, w.heads⟩ : bufworld),
      hset, ?_, ?_, ?_, ?_, ?_, ?_⟩
    · simpa using hfork
    · unfold tux3_clear_buffer_dirty
      simp only [Function.update_same, hfork]
      simp [tux3_clear_bufdelta, tux3_bufsta_clear,
        list_del_init_modify w.heads buffer _ hlists]
    · simp
    · exact hempty
    · simp
    · simp [tux3_bufsta_has_delta, BUFDELTA_AVAIL]
  · intro b d
    by_cases hdirty : b.dirty = true
    · by_cases htag : tux3_bufsta_has_delta b.bufsta = true
      · rw [buffer_need_fork_tagged env b d hdirty htag]
        by_cases h : tux3_bufsta_get_delta b.bufsta = env.tux3_delta d
        · simp [h, hdirty, htag]
        · simp [h, hdirty]
      · have hspin : buffer_need_fork env b d = Except.error Fault.spin := by
          unfold buffer_need_fork buffer_can_modify tux3_bufdelta
          simp [hdirty, htag]
        rw [hspin]
        simp [hdirty, htag]
    · have hfalse : b.dirty = false := by simpa using hdirty
      have hok : buffer_need_fork env b d = Except.ok false := by
        unfold buffer_need_fork
        simp [hfalse]
      rw [hok]
      simp [hfalse]

/-- C24, witness of `dirty_clear_roundtrip`: buffer 5 of the clean world, made dirty
for mapping 0 in delta 3 and cleared for delta 3. -/
theorem dirty_clear_roundtrip_witness :
    (∃ w1 w2, tux3_set_buffer_dirty test_env world_clean 0 5 3 = Except.ok w1 ∧
      buffer_need_fork test_env (w1.bufs 5) 3 = Except.ok false ∧
      tux3_clear_buffer_dirty test_env w1 5 3 = Except.ok w2 ∧
      (w2.bufs 5).dirty = false ∧
      list_empty_assoc w2 5 = true ∧
      (w2.bufs 5).b_assoc_map = none ∧
      tux3_bufsta_has_delta (w2.bufs 5).bufsta = false) ∧
    (∀ (b : buffer_head) (d : Nat),
      buffer_need_fork test_env b d = Except.ok false ↔
        (b.dirty = false ∨
          (tux3_bufsta_has_delta b.bufsta = true ∧
            tux3_bufsta_get_delta b.bufsta = test_env.tux3_delta d))) :=
  dirty_clear_roundtrip test_env world_clean 0 5 3 (by decide) rfl rfl rfl


/-- Linking `buffer` at the tail of a list does not change how often another buffer
is linked. -/
theorem sum_count_modify_ne (heads : List (List Nat)) (buffer b h : Nat) (hb : b ≠ buffer) :
    ((heads.modify (fun l => l ++ [buffer]) h).map fun l => l.count b).sum
      = (heads.map fun l => l.count b).sum := by
  induction heads generalizing h with
  | nil => simp
  | cons l rest ih =>
    cases h with
    | zero =>
      simp only [List.modify_zero_cons, List.map_cons, List.sum_cons, List.count_append]
      have : List.count b [buffer] = 0 := by
        rw [List.count_eq_zero]
        simpa using hb
      omega
    | succ n =>
      simp only [List.modify_succ_cons, List.map_cons, List.sum_cons, ih n]

/-- Linking `buffer` at the tail of an existing list links it once more. -/
theorem sum_count_modify_self (heads : List (List Nat)) (buffer h : Nat)
    (hh : h < heads.length) :
    ((heads.modify (fun l => l ++ [buffer]) h).map fun l => l.count buffer).sum
      = (heads.map fun l => l.count buffer).sum + 1 := by
  induction heads generalizing h with
  | nil => simp at hh
  | cons l rest ih =>
    cases h with
    | zero =>
      simp only [List.modify_zero_cons, List.map_cons, List.sum_cons, List.count_append]
      have : List.count buffer [buffer] = 1 := by simp
      omega
    | succ n =>
      simp only [List.length_cons, Nat.add_lt_add_iff_right] at hh
      simp only [List.modify_succ_cons, List.map_cons, List.sum_cons, ih n hh]
      omega

/-- Unlinking `buffer` does not change how often another buffer is linked. -/
theorem sum_count_erase_ne (heads : List (List Nat)) (buffer b : Nat) (hb : b ≠ buffer) :
    ((list_del_init heads buffer).map fun l => l.count b).sum
      = (heads.map fun l => l.count b).sum := by
  unfold list_del_init
  induction heads with
  | nil => simp
  | cons l rest ih =>
    simp only [List.map_cons, List.sum_cons, ih, List.count_erase_of_ne hb]

/-- Unlinking a buffer that is linked at one place at most leaves it on no list. -/
theorem sum_count_erase_self (heads : List (List Nat)) (buffer : Nat)
    (hle : (heads.map fun l => l.count buffer).sum ≤ 1) :
    ((list_del_init heads buffer).map fun l => l.count buffer).sum = 0 := by
  unfold list_del_init
  induction heads with
  | nil => simp
  | cons l rest ih =>
    simp only [List.map_cons, List.sum_cons] at hle ⊢
    rw [ih (by omega), List.count_erase_self]
    omega

/-- The members of the lists other than `buffer`, after `buffer` was linked at a
tail. -/
theorem mem_getD_modify_ne (heads : List (List Nat)) (buffer b h i : Nat) (hb : b ≠ buffer) :
    b ∈ (heads.modify (fun l => l ++ [buffer]) h).getD i [] ↔ b ∈ heads.getD i [] := by
  simp only [List.getD_eq_getElem?_getD]
  by_cases hi : h = i
  · subst hi
    rw [List.getElem?_modify_eq]
    cases heads[h]? with
    | none => simp
    | some l => simp [hb]
  · rw [List.getElem?_modify_ne _ _ hi]

/-- The buffer linked at the tail of an existing list is on that list. -/
theorem mem_getD_modify_self (heads : List (List Nat)) (buffer h : Nat)
    (hh : h < heads.length) :
    buffer ∈ (heads.modify (fun l => l ++ [buffer]) h).getD h [] := by
  simp only [List.getD_eq_getElem?_getD, List.getElem?_modify_eq,
    List.getElem?_eq_getElem hh]
  simp

/-- The members of the lists other than `buffer`, after `buffer` was unlinked. -/
theorem mem_getD_erase_ne (heads : List (List Nat)) (buffer b i : Nat) (hb : b ≠ buffer) :
    b ∈ (list_del_init heads buffer).getD i [] ↔ b ∈ heads.getD i [] := by
  unfold list_del_init
  simp only [List.getD_eq_getElem?_getD, List.getElem?_map]
  cases heads[i]? with
  | none => simp
  | some l => simp [List.mem_erase_of_ne hb]

/-- The macro `list_empty` on the buffer's node, told with the count of its links. -/
theorem list_empty_assoc_iff_count (w : bufworld) (buffer : Nat) :
    list_empty_assoc w buffer = true ↔ on_list_count w buffer = 0 := by
  rw [list_empty_assoc_iff]
  unfold on_list_count
  generalize w.heads = heads
  induction heads with
  | nil => simp
  | cons l rest ih =>
    simp only [List.mem_cons, forall_eq_or_imp, List.map_cons, List.sum_cons,
      Nat.add_eq_zero, List.count_eq_zero, ih]

/-- The invariant of a buffer depends only on the buffer's own fields, on how often
it is linked and on the lists it is on. -/
theorem dirty_list_inv_congr (env : DeltaEnv) (w w1 : bufworld) (b : Nat)
    (hb : w1.bufs b = w.bufs b) (hc : on_list_count w1 b = on_list_count w b)
    (hm : ∀ i, b ∈ w1.heads.getD i [] ↔ b ∈ w.heads.getD i [])
    (h : dirty_list_inv env w b) : dirty_list_inv env w1 b := by
  unfold dirty_list_inv at h ⊢
  rw [hb, hc]
  obtain ⟨h0, h1, h2, h3, h4⟩ := h
  refine ⟨h0, h1, h2, h3, ?_⟩
  intro hd
  obtain ⟨m, d, ha, hmem, ht⟩ := h4 hd
  exact ⟨m, d, ha, (hm _).2 hmem, ht⟩

/-- C23: the dirty-list invariant (a buffer is dirty iff its `b_assoc_map` is set
iff it is linked on exactly one dirty list iff its state word carries a delta tag,
and then the tag is `tux3_delta` of the delta of the list it is on), holding for
every buffer, still holds for every buffer after
`tux3_set_buffer_dirty(mapping, buffer, delta)`, which returns, for every delta; and
after `tux3_clear_buffer_dirty(buffer, delta)`, which returns whenever its need-fork
assertion holds. `tux3_delta` and `tux3_dirty_buffers` are parameters: the slot of
`delta` is below `TUX3_MAX_DELTA` and the dirty list of the mapping for `delta` is
one of the lists. -/
theorem dirty_list_inv_preserved (env : DeltaEnv) (w : bufworld)
    (mapping buffer delta : Nat)
    (hdelta : env.tux3_delta delta < env.TUX3_MAX_DELTA)
    (hhead : env.tux3_dirty_buffers mapping delta < w.heads.length)
    (hinv : ∀ b, dirty_list_inv env w b) :
    (∃ w1, tux3_set_buffer_dirty env w mapping buffer delta = Except.ok w1 ∧
      ∀ b, dirty_list_inv env w1 b) ∧
    (buffer_need_fork env (w.bufs buffer) delta = Except.ok false →
      ∃ w2, tux3_clear_buffer_dirty env w buffer delta = Except.ok w2 ∧
        ∀ b, dirty_list_inv env w2 b) := by
  have hself := hinv buffer
  unfold dirty_list_inv at hself
  obtain ⟨h0, h1, h2, h3, h4⟩ := hself
  constructor
  · by_cases hmap : (w.bufs buffer).b_assoc_map = none
    · have hcount : on_list_count w buffer = 0 := by
        have : on_list_count w buffer ≠ 1 := fun hc => (h2.2 hc) hmap
        omega
      have hempty := (list_empty_assoc_iff_count w buffer).2 hcount
      refine ⟨_, by
        unfold tux3_set_buffer_dirty
        exact tux3_set_buffer_dirty_list_fresh_eq env w mapping buffer delta _ hdelta hmap
          hempty, ?_⟩
      intro b
      by_cases hb : b = buffer
      · subst hb
        have hc1 : on_list_count
            (⟨Function.update w.bufs b
                ⟨true, env.tux3_delta delta + BUFDELTA_AVAIL, some mapping⟩,
              w.heads.modify (fun l => l ++ [b]) (env.tux3_dirty_buffers mapping delta)⟩ :
              bufworld) b = 1 := by
          unfold on_list_count at hcount ⊢
          simp only []
          rw [sum_count_modify_self w.heads b _ hhead, hcount]
        unfold dirty_list_inv
        rw [hc1]
        simp only [Function.update_same]
        refine ⟨le_refl _, by simp, by simp, by simp [tux3_bufsta_has_delta, BUFDELTA_AVAIL],
          ?_⟩
        intro _
        exact ⟨mapping, delta, rfl, mem_getD_modify_self w.heads b _ hhead,
          by simp [tux3_bufsta_get_delta, BUFDELTA_AVAIL]⟩
      · apply dirty_list_inv_congr env w _ b _ _ _ (hinv b)
        · simp [Function.update, hb]
        · unfold on_list_count
          exact sum_count_modify_ne w.heads buffer b _ hb
        · intro i
          exact mem_getD_modify_ne w.heads buffer b _ i hb
    · have hdirty : (w.bufs buffer).dirty = true := h1.2 hmap
      have hsame : ({ w.bufs buffer with dirty := true } : buffer_head) = w.bufs buffer := by
        cases hbuf : w.bufs buffer with
        | mk d t a =>
          rw [hbuf] at hdirty
          simp only [] at hdirty
          subst hdirty
          rfl
      refine ⟨w, ?_, hinv⟩
      unfold tux3_set_buffer_dirty tux3_set_buffer_dirty_list
      simp only [hsame, Function.update_eq_self, Function.update_same, hmap, if_false]
  · intro hfork
    by_cases hmap : (w.bufs buffer).b_assoc_map = none
    · have hcount : on_list_count w buffer = 0 := by
        have : on_list_count w buffer ≠ 1 := fun hc => (h2.2 hc) hmap
        omega
      have hempty := (list_empty_assoc_iff_count w buffer).2 hcount
      refine ⟨w, ?_, hinv⟩
      unfold tux3_clear_buffer_dirty
      simp [hfork, hmap, hempty]
    · refine ⟨(⟨Function.update w.bufs buffer ⟨false, 0, none⟩,
          list_del_init w.heads buffer⟩ : bufworld), ?_, ?_⟩
      · unfold tux3_clear_buffer_dirty
        simp [hfork, hmap, tux3_clear_bufdelta, tux3_bufsta_clear]
      · intro b
        by_cases hb : b = buffer
        · subst hb
          have hc0 : on_list_count
              (⟨Function.update w.bufs b ⟨false, 0, none⟩, list_del_init w.heads b⟩ :
                bufworld) b = 0 := by
            unfold on_list_count at h0 ⊢
            exact sum_count_erase_self w.heads b h0
          unfold dirty_list_inv
          rw [hc0]
          simp only [Function.update_same]
          refine ⟨by omega, by simp, by simp,
            by simp [tux3_bufsta_has_delta, BUFDELTA_AVAIL], ?_⟩
          intro hd
          simp at hd
        · apply dirty_list_inv_congr env w _ b _ _ _ (hinv b)
          · simp [Function.update, hb]
          · unfold on_list_count
            exact sum_count_erase_ne w.heads buffer b hb
          · intro i
            exact mem_getD_erase_ne w.heads buffer b i hb

/-- The invariant holds for every buffer of `world_dirty`. -/
theorem world_dirty_inv : ∀ b, dirty_list_inv test_env world_dirty b := by
  intro b
  by_cases h3 : b = 3
  · subst h3
    exact ⟨by decide, by decide, by decide, by decide, fun _ => ⟨0, 1, rfl, by decide, rfl⟩⟩
  · by_cases h7 : b = 7
    · subst h7
      exact ⟨by decide, by decide, by decide, by decide,
        fun _ => ⟨0, 1, rfl, by decide, rfl⟩⟩
    · have hb : world_dirty.bufs b = { dirty := false, bufsta := 0, b_assoc_map := none } := by
        simp [world_dirty, world_clean, Function.update, h3, h7]
      have hc : on_list_count world_dirty b = 0 := by
        have h3' : ¬ 3 = b := fun h => h3 h.symm
        have h7' : ¬ 7 = b := fun h => h7 h.symm
        simp [on_list_count, world_dirty, List.count_cons, h3', h7']
      unfold dirty_list_inv
      rw [hb, hc]
      simp [tux3_bufsta_has_delta, BUFDELTA_AVAIL]

/-- C23, witness of `dirty_list_inv_preserved`: buffer 7 of `world_dirty` (dirty in
slot 1 for mapping 0), made dirty again for delta 1 and cleared for delta 1. -/
theorem dirty_list_inv_preserved_witness :
    (∃ w1, tux3_set_buffer_dirty test_env world_dirty 0 7 1 = Except.ok w1 ∧
      ∀ b, dirty_list_inv test_env w1 b) ∧
    (buffer_need_fork test_env (world_dirty.bufs 7) 1 = Except.ok false →
      ∃ w2, tux3_clear_buffer_dirty test_env world_dirty 7 1 = Except.ok w2 ∧
        ∀ b, dirty_list_inv test_env w2 b) :=
  dirty_list_inv_preserved test_env world_dirty 0 7 1 (by decide) (by decide)
    world_dirty_inv


/-! ## Theorems: the attribute codec (iattr.c) -/

/-- C26: for the inode with the attributes mode/owner and link count, whose encoded
length is 20, `encode_attrs` with a buffer of 4 bytes stores 14 bytes (the head and
the body of the mode/owner attribute), 10 of them behind the end of the buffer: its
test `attrs >= limit` with `limit = attrs + size - 3` only asks for more than 3 bytes
of room, not for the room of the attribute. With 3 bytes it stores nothing. -/
theorem encode_attrs_overrun :
    encode_asize test_attr_env inode_owner.present = 20 ∧
    encode_attrs test_attr_env inode_owner 4
      = [0x60, 0x03, 0, 0, 0x81, 0xa4, 0, 0, 0x03, 0xe8, 0, 0, 0, 100] ∧
    (encode_attrs test_attr_env inode_owner 4).length = 14 ∧
    encode_attrs test_attr_env inode_owner 3 = [] := by
  refine ⟨by decide, by decide, by decide, by decide⟩

/-- C27: `attr_check` accepts the buffer of 6 bytes that holds the head of an
extended attribute with the length field 16 and the atom 1 (it tests the 4 bytes of
`atsize[XATTR_ATTR]` only), and `decode_attrs` of the same version then copies the
body of `16 - 2` bytes from behind the end of the buffer: the read at offset 6 of
length 14, and returns a pointer 14 bytes behind the end. -/
theorem decode_attrs_xattr_overrun :
    attr_check test_attr_env mem_xattr 6 = Except.ok 1 ∧
    Except.map (fun r => (r.ret, r.reads))
        (decode_attrs test_attr_env inode_cached mem_xattr 6)
      = Except.ok (some 20, [(0, 2), (2, 2), (4, 2), (6, 14)]) := by
  refine ⟨rfl, rfl⟩


/-- The kinds of an environment that is in order differ from each other and lie in
their ranges. -/
theorem attr_env_facts (k : AttrEnv) (hk : attr_env_ok k) :
    (k.MODE_OWNER_ATTR ≠ k.CTIME_SIZE_ATTR ∧ k.MODE_OWNER_ATTR ≠ k.MTIME_ATTR ∧
      k.MODE_OWNER_ATTR ≠ k.DATA_BTREE_ATTR ∧ k.MODE_OWNER_ATTR ≠ k.LINK_COUNT_ATTR ∧
      k.MODE_OWNER_ATTR ≠ k.IDATA_ATTR ∧ k.MODE_OWNER_ATTR ≠ k.XATTR_ATTR) ∧
    (k.CTIME_SIZE_ATTR ≠ k.MTIME_ATTR ∧ k.CTIME_SIZE_ATTR ≠ k.DATA_BTREE_ATTR ∧
      k.CTIME_SIZE_ATTR ≠ k.LINK_COUNT_ATTR ∧ k.CTIME_SIZE_ATTR ≠ k.IDATA_ATTR ∧
      k.CTIME_SIZE_ATTR ≠ k.XATTR_ATTR) ∧
    (k.MTIME_ATTR ≠ k.DATA_BTREE_ATTR ∧ k.MTIME_ATTR ≠ k.LINK_COUNT_ATTR ∧
      k.MTIME_ATTR ≠ k.IDATA_ATTR ∧ k.MTIME_ATTR ≠ k.XATTR_ATTR) ∧
    (k.DATA_BTREE_ATTR ≠ k.LINK_COUNT_ATTR ∧ k.DATA_BTREE_ATTR ≠ k.IDATA_ATTR ∧
      k.DATA_BTREE_ATTR ≠ k.XATTR_ATTR) ∧
    (k.LINK_COUNT_ATTR ≠ k.IDATA_ATTR ∧ k.LINK_COUNT_ATTR ≠ k.XATTR_ATTR) ∧
    k.IDATA_ATTR ≠ k.XATTR_ATTR ∧
    k.VAR_ATTRS ≤ 16 ∧
    (∀ kind, is_fixed_kind k kind → k.MIN_ATTR ≤ kind ∧ kind < k.VAR_ATTRS) := by
  unfold attr_env_ok at hk
  obtain ⟨hp, hv, hm, hr⟩ := hk
  simp only [List.pairwise_cons, List.mem_cons, List.mem_singleton, forall_eq_or_imp,
    forall_eq, List.not_mem_nil, IsEmpty.forall_iff, implies_true, List.Pairwise.nil,
    and_true] at hp hr
  obtain ⟨h1, h2, h3, h4, h5, h6⟩ := hp
  refine ⟨h1, h2, h3, h4, h5, h6, by omega, ?_⟩
  intro kind hf
  unfold is_fixed_kind at hf
  obtain ⟨r1, r2, r3, r4, r5⟩ := hr
  rcases hf with rfl | rfl | rfl | rfl | rfl
  · exact r1
  · exact r2
  · exact r3
  · exact r4
  · exact r5

/-- The table `atsize` at the kinds of fixed size. -/
theorem atsize_fixed (k : AttrEnv) (hk : attr_env_ok k) :
    atsize k k.MODE_OWNER_ATTR = 12 ∧ atsize k k.CTIME_SIZE_ATTR = 14 ∧
    atsize k k.MTIME_ATTR = 6 ∧ atsize k k.DATA_BTREE_ATTR = 8 ∧
    atsize k k.LINK_COUNT_ATTR = 4 := by
  obtain ⟨⟨a1, a2, a3, a4, a5, a6⟩, ⟨b1, b2, b3, b4, b5⟩, ⟨c1, c2, c3, c4⟩, ⟨d1, d2, d3⟩,
    ⟨e1, e2⟩, f1, -, -⟩ := attr_env_facts k hk
  unfold atsize
  refine ⟨?_, ?_, ?_, ?_, ?_⟩ <;> split_ifs <;> omega

/-- The body that `encode_attrs` stores for a kind of fixed size has the length that
`atsize` gives. -/
theorem length_encode_attr_body (k : AttrEnv) (hk : attr_env_ok k) (ino : inode)
    (kind : Nat) (hf : is_fixed_kind k kind) :
    (encode_attr_body k ino kind).length = atsize k kind ∧ 4 ≤ atsize k kind := by
  obtain ⟨⟨a1, a2, a3, a4, a5, a6⟩, ⟨b1, b2, b3, b4, b5⟩, ⟨c1, c2, c3, c4⟩, ⟨d1, d2, d3⟩,
    ⟨e1, e2⟩, f1, -, -⟩ := attr_env_facts k hk
  obtain ⟨s1, s2, s3, s4, s5⟩ := atsize_fixed k hk
  unfold is_fixed_kind at hf
  unfold encode_attr_body
  rcases hf with rfl | rfl | rfl | rfl | rfl
  · rw [s1, if_pos rfl]
    simp [encode32, length_encode_be]
  · rw [s2, if_neg (Ne.symm a1), if_pos rfl]
    simp [encode48, encode64, length_encode_be]
  · rw [s3, if_neg (Ne.symm a2), if_neg (Ne.symm b1), if_pos rfl]
    simp [encode48, length_encode_be]
  · rw [s4, if_neg (Ne.symm a3), if_neg (Ne.symm b2), if_neg (Ne.symm c1), if_pos rfl]
    simp [encode_attrs_data_btree, encode64, length_encode_be]
  · rw [s5, if_neg (Ne.symm a4), if_neg (Ne.symm b3), if_neg (Ne.symm c2),
      if_neg (Ne.symm d1), if_pos rfl]
    simp [encode32, length_encode_be]

/-- The length of the bytes of one attribute of fixed size. -/
theorem length_attr_bytes (k : AttrEnv) (hk : attr_env_ok k) (ino : inode)
    (kind : Nat) (hf : is_fixed_kind k kind) :
    (attr_bytes k ino kind).length = atsize k kind + 2 := by
  unfold attr_bytes encode_kind encode16
  rw [List.length_append, length_encode_be, (length_encode_attr_body k hk ino kind hf).1]
  omega

/-- The sum of `encode_asize` over some kinds, started at `acc`. -/
theorem encode_asize_fold_add (k : AttrEnv) (bits : Nat) (ks : List Nat) (acc : Nat) :
    ks.foldl (fun need kind => if bits.testBit kind then need + (atsize k kind + 2) else need)
        acc
      = acc + ks.foldl
          (fun need kind => if bits.testBit kind then need + (atsize k kind + 2) else need) 0 := by
  induction ks generalizing acc with
  | nil => simp
  | cons kind rest ih =>
    simp only [List.foldl_cons]
    rw [ih, ih (if bits.testBit kind = true then 0 + (atsize k kind + 2) else 0)]
    split <;> omega

/-- The sum of `encode_asize` over some kinds is the sum of the sizes of the kinds
among them that are present, each with the 2 bytes of its head. -/
theorem encode_asize_fold_eq_sum (k : AttrEnv) (bits : Nat) (ks : List Nat) :
    ks.foldl (fun need kind => if bits.testBit kind then need + (atsize k kind + 2) else need) 0
      = ((ks.filter fun kind => bits.testBit kind).map fun kind => atsize k kind + 2).sum := by
  induction ks with
  | nil => simp
  | cons kind rest ih =>
    simp only [List.foldl_cons]
    rw [encode_asize_fold_add, ih]
    by_cases hb : bits.testBit kind = true
    · simp [hb, List.filter_cons]
    · simp [hb, List.filter_cons]

/-- With room for all of them, the loop of `encode_attrs` stores the bytes of the
attributes of fixed size that the inode has, and their number is the sum of
`encode_asize`. -/
theorem encode_attrs_loop_eq (k : AttrEnv) (hk : attr_env_ok k) (ino : inode) (size : Nat)
    (ks : List Nat) (out : List Nat)
    (hfix : ∀ kind ∈ ks, ino.present.testBit kind = true → is_fixed_kind k kind)
    (hroom : out.length + ks.foldl (fun need kind =>
      if ino.present.testBit kind then need + (atsize k kind + 2) else need) 0 ≤ size) :
    encode_attrs_loop k ino size ks out = out ++ attrs_bytes k ino ks ∧
    (attrs_bytes k ino ks).length = ks.foldl (fun need kind =>
      if ino.present.testBit kind then need + (atsize k kind + 2) else need) 0 := by
  induction ks generalizing out with
  | nil => simp [encode_attrs_loop, attrs_bytes]
  | cons kind rest ih =>
    have hfix1 : ∀ kd ∈ rest, ino.present.testBit kd = true → is_fixed_kind k kd :=
      fun kd hkd => hfix kd (List.mem_cons_of_mem _ hkd)
    simp only [List.foldl_cons] at hroom ⊢
    rw [encode_asize_fold_add] at hroom ⊢
    by_cases hb : ino.present.testBit kind = true
    · have hf := hfix kind (List.mem_cons_self _ _) hb
      have hlen := length_attr_bytes k hk ino kind hf
      have h4 := (length_encode_attr_body k hk ino kind hf).2
      simp only [hb, if_true] at hroom ⊢
      have hguard : ¬ ((out.length : Int) ≥ (size : Int) - 3) := by omega
      obtain ⟨e1, e2⟩ := ih (out ++ encode_kind kind ino.version ++ encode_attr_body k ino kind)
        hfix1 (by
          have : (out ++ encode_kind kind ino.version ++ encode_attr_body k ino kind).length
              = out.length + (atsize k kind + 2) := by
            rw [List.append_assoc, List.length_append]
            unfold attr_bytes at hlen
            rw [hlen]
          omega)
      constructor
      · unfold encode_attrs_loop
        simp only [hb, not_true_eq_false, if_false, hguard]
        rw [e1]
        simp [attrs_bytes, hb, attr_bytes, List.append_assoc]
      · simp only [attrs_bytes, hb, if_true, List.length_append, hlen, e2]
        omega
    · simp only [hb, if_false] at hroom ⊢
      obtain ⟨e1, e2⟩ := ih out hfix1 (by omega)
      constructor
      · unfold encode_attrs_loop
        simp only [hb, not_false_eq_true, if_true]
        rw [e1]
        simp [attrs_bytes, hb]
      · have hb1 : ino.present.testBit kind = false := by simpa using hb
        simp [attrs_bytes, hb1, e2]

/-- The kinds that the loops run through are those from `MIN_ATTR` to below
`VAR_ATTRS`. -/
theorem mem_fixed_kinds (k : AttrEnv) (kind : Nat) :
    kind ∈ fixed_kinds k ↔ k.MIN_ATTR ≤ kind ∧ kind < k.VAR_ATTRS := by
  unfold fixed_kinds
  rw [List.mem_range'_1]
  omega

/-- C29: when the kinds from `MIN_ATTR` to below `VAR_ATTRS` are the five kinds of
fixed size with a case in `encode_attrs` (the `enum atkind` is a parameter), then for
every inode: `encode_asize(present)` is the sum, over the kinds in
`[MIN_ATTR, VAR_ATTRS)` whose bit is set in `present`, of the 2 bytes of the head
plus `atsize[kind]` (bits outside that range add nothing); and if
`size >= encode_asize(present)` then `encode_attrs` stores exactly the bytes of these
attributes, so it returns `attrs + encode_asize(present)`. -/
theorem encode_asize_exact (k : AttrEnv) (ino : inode) (size : Nat)
    (hk : attr_env_ok k) (hfull : ∀ kind ∈ fixed_kinds k, is_fixed_kind k kind)
    (hsize : encode_asize k ino.present ≤ size) :
    (encode_attrs k ino size).length = encode_asize k ino.present ∧
    encode_attrs k ino size = attrs_bytes k ino (fixed_kinds k) ∧
    encode_asize k ino.present
      = (((fixed_kinds k).filter fun kind => ino.present.testBit kind).map
          fun kind => atsize k kind + 2).sum ∧
    (∀ kind, kind ∈ fixed_kinds k ↔ k.MIN_ATTR ≤ kind ∧ kind < k.VAR_ATTRS) := by
  obtain ⟨e1, e2⟩ := encode_attrs_loop_eq k hk ino size (fixed_kinds k) []
    (fun kind hkind _ => hfull kind hkind)
    (by simpa [encode_asize] using hsize)
  refine ⟨?_, ?_, ?_, mem_fixed_kinds k⟩
  · unfold encode_attrs encode_asize
    rw [e1, List.nil_append, e2]
  · unfold encode_attrs
    rw [e1, List.nil_append]
  · unfold encode_asize
    exact encode_asize_fold_eq_sum k ino.present (fixed_kinds k)

/-- C29, witness of `encode_asize_exact`: the inode with mode/owner and link count,
whose encoded length is 20, with a buffer of 32 bytes. -/
theorem encode_asize_exact_witness :
    (encode_attrs test_attr_env inode_owner 32).length
      = encode_asize test_attr_env inode_owner.present ∧
    encode_attrs test_attr_env inode_owner 32
      = attrs_bytes test_attr_env inode_owner (fixed_kinds test_attr_env) ∧
    encode_asize test_attr_env inode_owner.present
      = (((fixed_kinds test_attr_env).filter fun kind =>
          inode_owner.present.testBit kind).map
          fun kind => atsize test_attr_env kind + 2).sum ∧
    (∀ kind, kind ∈ fixed_kinds test_attr_env ↔
      test_attr_env.MIN_ATTR ≤ kind ∧ kind < test_attr_env.VAR_ATTRS) :=
  encode_asize_exact test_attr_env inode_owner 32 (by decide) (by decide) (by decide)


/-- Reading `n` bytes at an offset behind which the memory holds `A` and then `R`. -/
theorem take_drop_of (mem : List Nat) (p : Nat) (A R : List Nat) (n : Nat)
    (h : mem.drop p = A ++ R) (hn : A.length = n) :
    (mem.drop p).take n = A ∧ mem.drop (p + n) = R := by
  subst hn
  constructor
  · rw [h, List.take_left]
  · rw [← List.drop_drop, h, List.drop_left]

/-- The head that `encode_kind` stores, read back and taken apart. -/
theorem decode_head (kind version : Nat) (hkind : kind < 16) (hver : version < 2 ^ 12) :
    decode_be (encode_kind kind version) &&& 0xfff = version ∧
    decode_be (encode_kind kind version) >>> 12 = kind := by
  have hv : version < 4096 := by simpa using hver
  have hor : kind <<< 12 ||| version = kind * 4096 + version := by
    rw [shiftLeft_or_eq kind version 12 hver]
    norm_num
  have hdec : decode_be (encode_kind kind version) = kind * 4096 + version := by
    unfold encode_kind encode16
    rw [decode_be_encode_be, hor]
    apply Nat.mod_eq_of_lt
    norm_num
    omega
  rw [hdec]
  constructor
  · have h := Nat.and_pow_two_sub_one_eq_mod (kind * 4096 + version) 12
    norm_num at h
    rw [h]
    omega
  · rw [Nat.shiftRight_eq_div_pow]
    norm_num
    omega

/-- A round of `decode_attrs` on the bytes that `encode_attrs` stored for a kind of
fixed size, read with the version they were stored with. -/
theorem decode_attrs_step_fixed (k : AttrEnv) (hk : attr_env_ok k) (src : inode)
    (mem : List Nat) (st : decode_state) (kind : Nat) (post : List Nat)
    (hf : is_fixed_kind k kind) (hver : src.version < 2 ^ 12)
    (hsame : st.ino.version = src.version)
    (hdrop : mem.drop st.pos = attr_bytes k src kind ++ post) :
    (∃ rs, decode_attrs_step k mem st
      = Except.ok (true,
          { pos := st.pos + (atsize k kind + 2), ino := decoded_attr k src kind st.ino,
            xattr := st.xattr, nx := st.nx, reads := rs, index := st.index })) ∧
    mem.drop (st.pos + (atsize k kind + 2)) = post := by
  obtain ⟨⟨a1, a2, a3, a4, a5, a6⟩, ⟨b1, b2, b3, b4, b5⟩, ⟨c1, c2, c3, c4⟩, ⟨d1, d2, d3⟩,
    ⟨e1, e2⟩, f1, hv16, hrange⟩ := attr_env_facts k hk
  obtain ⟨s1, s2, s3, s4, s5⟩ := atsize_fixed k hk
  have hkind : kind < 16 := by have := (hrange kind hf).2; omega
  obtain ⟨hand, hshift⟩ := decode_head kind src.version hkind hver
  have hlen2 : (encode_kind kind src.version).length = 2 := by
    simp [encode_kind, encode16, length_encode_be]
  unfold attr_bytes at hdrop
  rw [List.append_assoc] at hdrop
  obtain ⟨r0, q0⟩ := take_drop_of mem st.pos _ _ 2 hdrop hlen2
  unfold is_fixed_kind at hf
  rcases hf with rfl | rfl | rfl | rfl | rfl
  · -- mode and owner
    have hbody : encode_attr_body k src k.MODE_OWNER_ATTR
        = encode32 src.i_mode ++ (encode32 src.i_uid ++ encode32 src.i_gid) := by
      unfold encode_attr_body
      rw [if_pos rfl, List.append_assoc]
    rw [hbody, List.append_assoc, List.append_assoc] at q0
    obtain ⟨r1, q1⟩ := take_drop_of mem (st.pos + 2) _ _ 4 q0
      (by simp [encode32, length_encode_be])
    obtain ⟨r2, q2⟩ := take_drop_of mem (st.pos + 2 + 4) _ _ 4 q1
      (by simp [encode32, length_encode_be])
    obtain ⟨r3, q3⟩ := take_drop_of mem (st.pos + 2 + 4 + 4) _ _ 4 q2
      (by simp [encode32, length_encode_be])
    constructor
    · unfold decode_attrs_step
      simp only [decode_n, r0, r1, r2, r3, hand, hshift, hsame, ne_eq, not_true_eq_false,
        if_false, if_true, set_present, decoded_attr, encode32, decode_be_encode_be]
      refine ⟨st.reads ++ [(st.pos, 2)] ++ [(st.pos + 2, 4)] ++ [(st.pos + 2 + 4, 4)] ++
        [(st.pos + 2 + 4 + 4, 4)], ?_⟩
      rw [s1]
    · rw [s1, show st.pos + (12 + 2) = st.pos + 2 + 4 + 4 + 4 by omega]
      exact q3
  · -- ctime and size
    have hbody : encode_attr_body k src k.CTIME_SIZE_ATTR
        = encode48 (k.tuxtime src.i_ctime >>> k.TIME_ATTR_SHIFT) ++ encode64 src.i_size := by
      unfold encode_attr_body
      rw [if_neg (Ne.symm a1), if_pos rfl]
    rw [hbody, List.append_assoc] at q0
    obtain ⟨r1, q1⟩ := take_drop_of mem (st.pos + 2) _ _ 6 q0
      (by simp [encode48, length_encode_be])
    obtain ⟨r2, q2⟩ := take_drop_of mem (st.pos + 2 + 6) _ _ 8 q1
      (by simp [encode64, length_encode_be])
    constructor
    · unfold decode_attrs_step
      simp only [decode_n, r0, r1, r2, hand, hshift, hsame, ne_eq, not_true_eq_false,
        if_false, if_true, set_present, decoded_attr, encode48, encode64, decode_be_encode_be,
        Ne.symm a1]
      refine ⟨st.reads ++ [(st.pos, 2)] ++ [(st.pos + 2, 6)] ++ [(st.pos + 2 + 6, 8)], ?_⟩
      rw [s2]
    · rw [s2, show st.pos + (14 + 2) = st.pos + 2 + 6 + 8 by omega]
      exact q2
  · -- mtime
    have hbody : encode_attr_body k src k.MTIME_ATTR
        = encode48 (k.tuxtime src.i_mtime >>> k.TIME_ATTR_SHIFT) := by
      unfold encode_attr_body
      rw [if_neg (Ne.symm a2), if_neg (Ne.symm b1), if_pos rfl]
    rw [hbody] at q0
    obtain ⟨r1, q1⟩ := take_drop_of mem (st.pos + 2) _ _ 6 q0
      (by simp [encode48, length_encode_be])
    constructor
    · unfold decode_attrs_step
      simp only [decode_n, r0, r1, hand, hshift, hsame, ne_eq, not_true_eq_false,
        if_false, if_true, set_present, decoded_attr, encode48, decode_be_encode_be,
        Ne.symm a2, Ne.symm b1]
      refine ⟨st.reads ++ [(st.pos, 2)] ++ [(st.pos + 2, 6)], ?_⟩
      rw [s3]
    · rw [s3, show st.pos + (6 + 2) = st.pos + 2 + 6 by omega]
      exact q1
  · -- data btree
    have hbody : encode_attr_body k src k.DATA_BTREE_ATTR
        = encode_be 8 (data_btree_word src.btree_root) := by
      unfold encode_attr_body
      rw [if_neg (Ne.symm a3), if_neg (Ne.symm b2), if_neg (Ne.symm c1), if_pos rfl]
      rfl
    rw [hbody] at q0
    obtain ⟨r1, q1⟩ := take_drop_of mem (st.pos + 2) _ _ 8 q0 (by simp [length_encode_be])
    constructor
    · unfold decode_attrs_step
      simp only [decode_n, r0, r1, hand, hshift, hsame, ne_eq, not_true_eq_false,
        if_false, if_true, set_present, decoded_attr, decode_be_encode_be,
        Ne.symm a3, Ne.symm b2, Ne.symm c1]
      refine ⟨st.reads ++ [(st.pos, 2)] ++ [(st.pos + 2, 8)], ?_⟩
      rw [s4]
    · rw [s4, show st.pos + (8 + 2) = st.pos + 2 + 8 by omega]
      exact q1
  · -- link count
    have hbody : encode_attr_body k src k.LINK_COUNT_ATTR = encode32 src.i_nlink := by
      unfold encode_attr_body
      rw [if_neg (Ne.symm a4), if_neg (Ne.symm b3), if_neg (Ne.symm c2), if_neg (Ne.symm d1),
        if_pos rfl]
    rw [hbody] at q0
    obtain ⟨r1, q1⟩ := take_drop_of mem (st.pos + 2) _ _ 4 q0
      (by simp [encode32, length_encode_be])
    constructor
    · unfold decode_attrs_step
      simp only [decode_n, r0, r1, hand, hshift, hsame, ne_eq, not_true_eq_false,
        if_false, if_true, set_present, decoded_attr, encode32, decode_be_encode_be,
        Ne.symm a4, Ne.symm b3, Ne.symm c2, Ne.symm d1]
      refine ⟨st.reads ++ [(st.pos, 2)] ++ [(st.pos + 2, 4)], ?_⟩
      rw [s5]
    · rw [s5, show st.pos + (4 + 2) = st.pos + 2 + 4 by omega]
      exact q1

/-- A round of `decode_attrs` on such bytes keeps the version of the superblock. -/
theorem decoded_attr_version (k : AttrEnv) (src : inode) (kind : Nat) (t : inode) :
    (decoded_attr k src kind t).version = t.version := by
  unfold decoded_attr
  simp only []
  split_ifs <;> rfl

/-- The loop of `decode_attrs` on the bytes that `encode_attrs` stored for the kinds
`ks`, read with the version they were stored with and with fuel for every byte: it
ends at the end of the bytes, every attribute decoded in turn. -/
theorem decode_attrs_loop_eq (k : AttrEnv) (hk : attr_env_ok k) (src : inode)
    (mem : List Nat) (size : Nat) (hver : src.version < 2 ^ 12) (ks : List Nat) :
    ∀ (fuel : Nat) (st : decode_state),
      (∀ kind ∈ ks, src.present.testBit kind = true → is_fixed_kind k kind) →
      st.ino.version = src.version →
      mem.drop st.pos = attrs_bytes k src ks →
      size = st.pos + (attrs_bytes k src ks).length →
      (attrs_bytes k src ks).length ≤ fuel →
      ∃ rs, decode_attrs_loop k mem size fuel st
        = Except.ok (decode_attrs_finish k
            { pos := size,
              ino := (ks.filter fun kind => src.present.testBit kind).foldl
                (fun t kind => decoded_attr k src kind t) st.ino,
              xattr := st.xattr, nx := st.nx, reads := rs, index := st.index }) := by
  induction ks with
  | nil =>
    intro fuel st _ _ _ hsize _
    simp only [attrs_bytes, List.length_nil, Nat.add_zero] at hsize
    have hcond : ¬ ((st.pos : Int) < (size : Int) - 1) := by omega
    refine ⟨st.reads, ?_⟩
    cases fuel with
    | zero =>
      unfold decode_attrs_loop
      rw [if_neg hcond, hsize]
      rfl
    | succ f =>
      unfold decode_attrs_loop
      rw [if_neg hcond, hsize]
      rfl
  | cons kind rest ih =>
    intro fuel st hfix hsame hdrop hsize hfuel
    have hfix1 : ∀ kd ∈ rest, src.present.testBit kd = true → is_fixed_kind k kd :=
      fun kd hkd => hfix kd (List.mem_cons_of_mem _ hkd)
    by_cases hb : src.present.testBit kind = true
    · have hf := hfix kind (List.mem_cons_self _ _) hb
      have hlen := length_attr_bytes k hk src kind hf
      simp only [attrs_bytes, hb, if_true, List.length_append, hlen] at hdrop hsize hfuel
      obtain ⟨⟨rs1, hstep⟩, hpost⟩ := decode_attrs_step_fixed k hk src mem st kind
        (attrs_bytes k src rest) hf hver hsame hdrop
      have hcond : (st.pos : Int) < (size : Int) - 1 := by omega
      obtain ⟨f, rfl⟩ : ∃ f, fuel = f + 1 := ⟨fuel - 1, by omega⟩
      obtain ⟨rs, hrest⟩ := ih f
        { pos := st.pos + (atsize k kind + 2), ino := decoded_attr k src kind st.ino,
          xattr := st.xattr, nx := st.nx, reads := rs1, index := st.index }
        hfix1 (by rw [decoded_attr_version]; exact hsame) hpost
        (by simp only []; omega) (by omega)
      refine ⟨rs, ?_⟩
      unfold decode_attrs_loop
      rw [if_pos hcond, hstep]
      simp only []
      rw [hrest]
      simp [List.filter_cons, hb]
    · have hb1 : src.present.testBit kind = false := by simpa using hb
      simp only [attrs_bytes, hb1, Bool.false_eq_true, if_false, List.nil_append]
        at hdrop hsize hfuel
      obtain ⟨rs, hrest⟩ := ih fuel st hfix1 hsame hdrop hsize hfuel
      refine ⟨rs, ?_⟩
      rw [hrest]
      simp [List.filter_cons, hb1]

/-- A field that only the round for the kind `K` stores to holds, after the rounds
for a list of kinds with `K` among them, what that round stores. -/
theorem foldl_decoded_field {α : Type} (k : AttrEnv) (src : inode) (proj : inode → α)
    (K : Nat) (v : α)
    (hother : ∀ t kind, kind ≠ K → proj (decoded_attr k src kind t) = proj t)
    (hself : ∀ t, proj (decoded_attr k src K t) = v)
    (l : List Nat) :
    ∀ t, (K ∈ l → proj (l.foldl (fun t kind => decoded_attr k src kind t) t) = v) ∧
      (K ∉ l → proj (l.foldl (fun t kind => decoded_attr k src kind t) t) = proj t) := by
  induction l with
  | nil => intro t; simp
  | cons a rest ih =>
    intro t
    simp only [List.foldl_cons, List.mem_cons, not_or]
    obtain ⟨i1, i2⟩ := ih (decoded_attr k src a t)
    constructor
    · intro hmem
      by_cases hr : K ∈ rest
      · exact i1 hr
      · have ha : K = a := by
          rcases hmem with h | h
          · exact h
          · exact absurd h hr
        rw [i2 hr, ← ha]
        exact hself t
    · rintro ⟨hne, hr⟩
      rw [i2 hr]
      exact hother t a (fun h => hne h.symm)

/-- The bits of `present` after the rounds for a list of kinds. -/
theorem foldl_decoded_present (k : AttrEnv) (src : inode) (l : List Nat) :
    ∀ (t : inode) (i : Nat),
      (l.foldl (fun t kind => decoded_attr k src kind t) t).present.testBit i
        = (t.present.testBit i || decide (i ∈ l)) := by
  induction l with
  | nil => intro t i; simp
  | cons a rest ih =>
    intro t i
    simp only [List.foldl_cons, List.mem_cons]
    rw [ih]
    have hp : (decoded_attr k src a t).present = t.present ||| 1 <<< a := by
      unfold decoded_attr
      rfl
    rw [hp, Nat.testBit_or, Nat.one_shiftLeft, Nat.testBit_two_pow]
    by_cases h1 : i = a
    · subst h1; simp
    · have h2 : ¬ a = i := fun h => h1 h.symm
      simp [h1, h2]

/-- The end of `decode_attrs` behind its loop leaves all but `i_mtime`. -/
theorem decode_attrs_finish_ino (k : AttrEnv) (st : decode_state) :
    (decode_attrs_finish k st).ret = some st.pos ∧
    (decode_attrs_finish k st).ino.present = st.ino.present ∧
    (decode_attrs_finish k st).ino.i_mode = st.ino.i_mode ∧
    (decode_attrs_finish k st).ino.i_uid = st.ino.i_uid ∧
    (decode_attrs_finish k st).ino.i_gid = st.ino.i_gid ∧
    (decode_attrs_finish k st).ino.i_size = st.ino.i_size ∧
    (decode_attrs_finish k st).ino.i_nlink = st.ino.i_nlink := by
  unfold decode_attrs_finish
  by_cases h : st.ino.present &&& k.MTIME_BIT = 0
  · simp [h]
  · simp [h]

/-- C28: for every inode whose `present` mask has only bits of the five kinds of
fixed size (mode/owner, ctime/size, mtime, data btree, link count) and every
superblock version below `2^12`, `decode_attrs` with the same version on the bytes
that `encode_attrs` stores with `size = encode_asize(present)` returns the end of
those bytes (not NULL), sets in `present` exactly the bits of the encoded inode, and
restores `i_mode`, `i_uid`, `i_gid`, `i_size` and `i_nlink` of the attributes that
are present to the encoded values. The `enum atkind` is a parameter whose kinds
differ, fit 4 bits and lie in `[MIN_ATTR, VAR_ATTRS)`; the fields are taken within
the width of their encodings. -/
theorem attrs_roundtrip (k : AttrEnv) (ino t0 : inode)
    (hk : attr_env_ok k) (hver : ino.version < 2 ^ 12) (hsame : t0.version = ino.version)
    (hpresent : ∀ i, ino.present.testBit i = true → is_fixed_kind k i)
    (hmode : ino.i_mode < 2 ^ 32) (huid : ino.i_uid < 2 ^ 32) (hgid : ino.i_gid < 2 ^ 32)
    (hsize : ino.i_size < 2 ^ 64) (hnlink : ino.i_nlink < 2 ^ 32) :
    ∃ r, decode_attrs k t0 (encode_attrs k ino (encode_asize k ino.present))
          (encode_asize k ino.present) = Except.ok r ∧
      r.ret = some (encode_asize k ino.present) ∧
      (encode_attrs k ino (encode_asize k ino.present)).length
        = encode_asize k ino.present ∧
      r.ino.present = t0.present ||| ino.present ∧
      (ino.present.testBit k.MODE_OWNER_ATTR = true →
        r.ino.i_mode = ino.i_mode ∧ r.ino.i_uid = ino.i_uid ∧ r.ino.i_gid = ino.i_gid) ∧
      (ino.present.testBit k.CTIME_SIZE_ATTR = true → r.ino.i_size = ino.i_size) ∧
      (ino.present.testBit k.LINK_COUNT_ATTR = true → r.ino.i_nlink = ino.i_nlink) := by
  obtain ⟨⟨a1, a2, a3, a4, a5, a6⟩, ⟨b1, b2, b3, b4, b5⟩, ⟨c1, c2, c3, c4⟩, ⟨d1, d2, d3⟩,
    ⟨e1, e2⟩, f1, hv16, hrange⟩ := attr_env_facts k hk
  have hfix : ∀ kind ∈ fixed_kinds k, ino.present.testBit kind = true → is_fixed_kind k kind :=
    fun kind _ hb => hpresent kind hb
  obtain ⟨henc, hlen⟩ := encode_attrs_loop_eq k hk ino (encode_asize k ino.present)
    (fixed_kinds k) [] hfix (by simp [encode_asize])
  have hbytes : encode_attrs k ino (encode_asize k ino.present)
      = attrs_bytes k ino (fixed_kinds k) := by
    unfold encode_attrs
    rw [henc, List.nil_append]
  have hasize : (attrs_bytes k ino (fixed_kinds k)).length = encode_asize k ino.present := by
    rw [hlen]; rfl
  obtain ⟨rs, hloop⟩ := decode_attrs_loop_eq k hk ino (attrs_bytes k ino (fixed_kinds k))
    (encode_asize k ino.present) hver (fixed_kinds k) (encode_asize k ino.present)
    { pos := 0, ino := t0, xattr := t0.xcache.map fun _ => k.xattrs_offset, nx := 0,
      reads := [], index := [] }
    hfix hsame (by simp) (by simp [hasize]) (by rw [hasize])
  have hin : ∀ K, is_fixed_kind k K → ino.present.testBit K = true →
      K ∈ (fixed_kinds k).filter fun kind => ino.present.testBit kind := by
    intro K hK hb
    rw [List.mem_filter]
    exact ⟨(mem_fixed_kinds k K).2 (hrange K hK), hb⟩
  obtain ⟨fret, fpresent, fmode, fuid, fgid, fsize, fnlink⟩ := decode_attrs_finish_ino k
    { pos := encode_asize k ino.present,
      ino := ((fixed_kinds k).filter fun kind => ino.present.testBit kind).foldl
        (fun t kind => decoded_attr k ino kind t) t0,
      xattr := t0.xcache.map fun _ => k.xattrs_offset, nx := 0, reads := rs, index := [] }
  refine ⟨_, by unfold decode_attrs; rw [hbytes]; exact hloop, fret, by rw [hbytes, hasize],
    ?_, ?_, ?_, ?_⟩
  · rw [fpresent]
    apply Nat.eq_of_testBit_eq
    intro i
    simp only []
    rw [foldl_decoded_present, Nat.testBit_or]
    congr 1
    by_cases hb : ino.present.testBit i = true
    · rw [hb]
      exact decide_eq_true (hin i (hpresent i hb) hb)
    · have hb1 : ino.present.testBit i = false := by simpa using hb
      rw [hb1]
      apply decide_eq_false
      intro hmem
      rw [List.mem_filter] at hmem
      exact hb hmem.2
  · intro hb
    have hmem := hin k.MODE_OWNER_ATTR (Or.inl rfl) hb
    rw [fmode, fuid, fgid]
    simp only []
    refine ⟨?_, ?_, ?_⟩
    · rw [(foldl_decoded_field k ino inode.i_mode k.MODE_OWNER_ATTR (ino.i_mode % 2 ^ 32)
        (by intro t kind hne; unfold decoded_attr; simp only []; split_ifs <;> first | rfl | contradiction)
        (by intro t; unfold decoded_attr; simp)
        _ t0).1 hmem]
      exact Nat.mod_eq_of_lt hmode
    · rw [(foldl_decoded_field k ino inode.i_uid k.MODE_OWNER_ATTR (ino.i_uid % 2 ^ 32)
        (by intro t kind hne; unfold decoded_attr; simp only []; split_ifs <;> first | rfl | contradiction)
        (by intro t; unfold decoded_attr; simp)
        _ t0).1 hmem]
      exact Nat.mod_eq_of_lt huid
    · rw [(foldl_decoded_field k ino inode.i_gid k.MODE_OWNER_ATTR (ino.i_gid % 2 ^ 32)
        (by intro t kind hne; unfold decoded_attr; simp only []; split_ifs <;> first | rfl | contradiction)
        (by intro t; unfold decoded_attr; simp)
        _ t0).1 hmem]
      exact Nat.mod_eq_of_lt hgid
  · intro hb
    have hmem := hin k.CTIME_SIZE_ATTR (Or.inr (Or.inl rfl)) hb
    rw [fsize]
    simp only []
    rw [(foldl_decoded_field k ino inode.i_size k.CTIME_SIZE_ATTR (ino.i_size % 2 ^ 64)
      (by intro t kind hne; unfold decoded_attr; simp only []; split_ifs <;> rfl)
      (by intro t; unfold decoded_attr; simp [Ne.symm a1])
      _ t0).1 hmem]
    exact Nat.mod_eq_of_lt hsize
  · intro hb
    have hmem := hin k.LINK_COUNT_ATTR (Or.inr (Or.inr (Or.inr (Or.inr rfl)))) hb
    rw [fnlink]
    simp only []
    rw [(foldl_decoded_field k ino inode.i_nlink k.LINK_COUNT_ATTR (ino.i_nlink % 2 ^ 32)
      (by intro t kind hne; unfold decoded_attr; simp only []; split_ifs <;> rfl)
      (by intro t; unfold decoded_attr; simp [Ne.symm a4, Ne.symm b3, Ne.symm c2, Ne.symm d1])
      _ t0).1 hmem]
    exact Nat.mod_eq_of_lt hnlink

/-- The bits of `present` of `inode_owner` are those of the kinds 6 and 9. -/
theorem inode_owner_present :
    ∀ i, inode_owner.present.testBit i = true → is_fixed_kind test_attr_env i := by
  intro i h
  have hlt : i < 10 := by
    by_contra hge
    have : inode_owner.present.testBit i = false :=
      Nat.testBit_lt_two_pow (lt_of_lt_of_le (by decide : inode_owner.present < 2 ^ 10)
        (Nat.pow_le_pow_right (by norm_num) (by omega)))
    rw [this] at h
    cases h
  interval_cases i <;> first | decide | (exact absurd h (by decide))

/-- C28, witness of `attrs_roundtrip`: the attributes of the inode with mode/owner
and link count, of version 3, stored in 20 bytes and decoded into an inode of the
same version with all fields zero. -/
theorem attrs_roundtrip_witness :
    ∃ r, decode_attrs test_attr_env inode_cached
          (encode_attrs test_attr_env inode_owner
            (encode_asize test_attr_env inode_owner.present))
          (encode_asize test_attr_env inode_owner.present) = Except.ok r ∧
      r.ret = some (encode_asize test_attr_env inode_owner.present) ∧
      (encode_attrs test_attr_env inode_owner
          (encode_asize test_attr_env inode_owner.present)).length
        = encode_asize test_attr_env inode_owner.present ∧
      r.ino.present = inode_cached.present ||| inode_owner.present ∧
      (inode_owner.present.testBit test_attr_env.MODE_OWNER_ATTR = true →
        r.ino.i_mode = inode_owner.i_mode ∧ r.ino.i_uid = inode_owner.i_uid ∧
          r.ino.i_gid = inode_owner.i_gid) ∧
      (inode_owner.present.testBit test_attr_env.CTIME_SIZE_ATTR = true →
        r.ino.i_size = inode_owner.i_size) ∧
      (inode_owner.present.testBit test_attr_env.LINK_COUNT_ATTR = true →
        r.ino.i_nlink = inode_owner.i_nlink) :=
  attrs_roundtrip test_attr_env inode_owner inode_cached (by decide) (by decide) rfl
    inode_owner_present (by decide) (by decide) (by decide) (by decide) (by decide)

end Tux3
